import Mathlib

/-! A verification development for `custom_printf`: a shallow embedding of
`src/C/headers/custom/printf/printf.c` and the properties proved about it.

* A C `int` is a Lean `Int`; where the source can overflow, the result is
  reduced to 32 bits by `wrap32` (two's complement wrap-around).
* A C `char` is the `Int` code of its byte, `0 .. 255` (`toChar` keeps the
  low byte of an `int`).  Character constants are written `chr 'a'`.
* A `char*` is a `Buf`: the memory seen from the pointer, as a function from
  the index to the byte stored there.  `str[i] = c` is `Buf.set str i c`.
  The text held by a buffer is `Buf.text str len`, its first `len` bytes.
* A loop is a recursive function on a fuel counter; a function returns
  `none` when its loop does not finish, or when it divides by zero.
* A function with a local array (`char temp[128]`) returns `none` when it
  writes outside that array, which C leaves undefined.
* A finite `double` is the rational number it denotes; the rounding of the
  floating-point operations is a parameter `fl`.
* What the argument slots mean in memory (strings behind pointers, doubles in
  two slots, the size of a pointer) is a parameter, the `Platform`.
* The console is a parameter, the `Host`.  `custom_printf` returns its
  returned value together with the chunks it offered to the console, in
  order; it returns `none` when it writes outside its 4096-byte buffer.

The namespace `LogicGates` embeds the functions that compute the truth
tables of the logic gates table generator; its conventions are stated at its
definitions.
-/

namespace Printf

/-! ## Machine integers, characters and buffers -/

/-- Smallest value of a 32-bit `int`. -/
def INT_MIN : Int := -2147483648

/-- Largest value of a 32-bit `int`. -/
def INT_MAX : Int := 2147483647

/-- Reduction of a mathematical integer to a 32-bit two's complement `int`. -/
def wrap32 (x : Int) : Int := (x + 2147483648) % 4294967296 - 2147483648

/-- Conversion of an `int` to `unsigned int`: reduction modulo `2^32`. -/
def toUnsigned (x : Int) : Int := x % 4294967296

/-- The code of a character constant, as the `int` it promotes to. -/
def chr (c : Char) : Int := c.toNat

/-- Conversion of an `int` to `char`: the low byte. -/
def toChar (v : Int) : Int := v % 256

/-- Memory seen from a `char*`: index to byte. -/
abbrev Buf := Int → Int

/-- The assignment `str[i] = c`. -/
def Buf.set (str : Buf) (i : Int) (c : Int) : Buf :=
  fun j => if j = i then c else str j

/-- The first `len` bytes of a buffer. -/
def Buf.text (str : Buf) (len : Int) : List Int :=
  (List.range len.toNat).map (fun (k : Nat) => str (k : Int))

/-- The memory of a string literal: its bytes, then the terminating NUL. -/
def Buf.lit (s : String) : Buf :=
  fun j => if 0 ≤ j then ((s.toList.map (fun c => chr c)).getD j.toNat 0) else 0

/-- A result that was written into a local array of `cap` bytes: text at
indices `0 .. len - 1` and the NUL at `len`.  Outside the array the write
is undefined. -/
def fits (cap : Int) (r : Option (Buf × Int)) : Option (Buf × Int) :=
  match r with
  | none => none
  | some (str, len) => if len < cap then some (str, len) else none

/-! ## Utility functions -/

/-- The loop of `my_strlen` (source lines 61-63). -/
def strlen_loop : Nat → Buf → Int → Option Int
  | 0, _, _ => none
  | fuel + 1, str, len =>
    if str len ≠ 0 then strlen_loop fuel str (len + 1) else some len

/-- The function `my_strlen` (source lines 57-65); `none` is the null pointer. -/
def my_strlen (str : Option Buf) : Option Int :=
  match str with
  | none => some 0
  | some s => strlen_loop 2147483648 s 0

/-- The loop of `my_strcpy` (source lines 78-81). -/
def strcpy_loop : Nat → Buf → Buf → Int → Option (Buf × Int)
  | 0, _, _, _ => none
  | fuel + 1, dest, src, i =>
    if src i ≠ 0 then strcpy_loop fuel (dest.set i (src i)) src (i + 1)
    else some (dest.set i 0, i)

/-- The function `my_strcpy` (source lines 74-84), for non-null pointers. -/
def my_strcpy (dest src : Buf) : Option (Buf × Int) :=
  strcpy_loop 2147483648 dest src 0

/-- The character of a digit value (source lines 114 and 236). -/
def digitChar (remainder : Int) : Int :=
  toChar (if remainder < 10 then remainder + chr '0' else remainder + chr 'a' - 10)

/-- The digit loop of `my_itoa` (source lines 112-116): C division truncates
toward zero.  Division by zero and `INT_MIN / -1` do not return. -/
def itoa_digits : Nat → Int → Int → Buf → Int → Option (Buf × Int)
  | 0, num, _, str, i => if num = 0 then some (str, i) else none
  | fuel + 1, num, base, str, i =>
    if num = 0 then some (str, i)
    else if base = 0 ∨ (num = INT_MIN ∧ base = -1) then none
    else
      let remainder := Int.tmod num base
      itoa_digits fuel (Int.tdiv num base) base (str.set i (digitChar remainder)) (i + 1)

/-- The in-place reversal loop (source lines 126-132 and 243-249). -/
def reverse_loop : Nat → Buf → Int → Int → Buf
  | 0, str, _, _ => str
  | fuel + 1, str, start, end_ =>
    if start < end_ then
      let temp := str start
      let str1 := str.set start (str end_)
      let str2 := str1.set end_ temp
      reverse_loop fuel str2 (start + 1) (end_ - 1)
    else str

/-- The function `my_itoa` (source lines 94-136): the buffer after the call
and the returned length. -/
def my_itoa (num : Int) (str : Buf) (base : Int) : Option (Buf × Int) :=
  if num = 0 then
    some ((str.set 0 (chr '0')).set 1 0, 1)
  else
    let is_negative : Bool := decide (num < 0 ∧ base = 10)
    let num1 := if is_negative then wrap32 (-num) else num
    match itoa_digits 32 num1 base str 0 with
    | none => none
    | some (str1, i) =>
      let str2 := if is_negative then str1.set i (chr '-') else str1
      let i2 := if is_negative then i + 1 else i
      let str3 := reverse_loop i2.toNat str2 0 (i2 - 1)
      some (str3.set i2 0, i2)

/-- The digit loop of `my_uitoa` (source lines 234-238): `num` is unsigned,
so `base` is converted to unsigned for `%` and `/`, and the remainder is
converted back to `int`. -/
def uitoa_digits : Nat → Int → Int → Buf → Int → Option (Buf × Int)
  | 0, num, _, str, i => if num = 0 then some (str, i) else none
  | fuel + 1, num, base, str, i =>
    if num = 0 then some (str, i)
    else if toUnsigned base = 0 then none
    else
      let remainder := wrap32 (num % toUnsigned base)
      uitoa_digits fuel (num / toUnsigned base) base (str.set i (digitChar remainder)) (i + 1)

/-- The function `my_uitoa` (source lines 223-253); `num` is in `0 .. 2^32 - 1`. -/
def my_uitoa (num : Int) (str : Buf) (base : Int) : Option (Buf × Int) :=
  if num = 0 then
    some ((str.set 0 (chr '0')).set 1 0, 1)
  else
    match uitoa_digits 32 num base str 0 with
    | none => none
    | some (str1, i) =>
      let str3 := reverse_loop i.toNat str1 0 (i - 1)
      some (str3.set i 0, i)

/-! ## Fixed-point conversion

A finite `double` is modelled by the rational number it denotes.  Negation
and comparison with zero are exact.  Every rounded operation (`-`, `*`, `+`)
returns `fl` of the exact result, where `fl : ℚ → ℚ` is the rounding of the
floating-point format, a parameter of the model (`fl = id` is exact
arithmetic).  Conversions of `int` to `double` are exact. -/

/-- The conversion `(int)x` of a `double`: truncation toward zero.  Outside
the range of `int` C leaves it undefined; the model returns `INT_MIN`, the
value x86 conversion instructions produce. -/
def castInt (x : ℚ) : Int :=
  let t : Int := if 0 ≤ x then ⌊x⌋ else ⌈x⌉
  if INT_MIN ≤ t ∧ t ≤ INT_MAX then t else INT_MIN

/-- Contents of a local array before it is written (an arbitrary choice). -/
def uninit : Buf := fun _ => 0

/-- The loop `for (i = 0; i < len; i++) str[pos++] = src[i]` (source lines
165-167, 205-207, 358-360, 422-424), by the number of iterations left. -/
def copy_loop : Nat → Buf → Int → Buf → Int → Buf × Int
  | 0, str, pos, _, _ => (str, pos)
  | n + 1, str, pos, src, i => copy_loop n (str.set pos (src i)) (pos + 1) src (i + 1)

/-- The loop `for (i = 0; i < n; i++) str[pos++] = c` (source lines 193-195,
198-200, 417-419), by the number of iterations left. -/
def fill_loop : Nat → Buf → Int → Int → Buf × Int
  | 0, str, pos, _ => (str, pos)
  | n + 1, str, pos, c => fill_loop n (str.set pos c) (pos + 1) c

/-- The loop `for (i = 0; i < precision; i++) power *= 10` (source lines
176-178), in 32-bit arithmetic. -/
def power_loop : Nat → Int → Int
  | 0, power => power
  | n + 1, power => power_loop n (wrap32 (power * 10))

/-- The loop `while (temp > 0) { temp /= 10; frac_digits++; }` (source
lines 186-189). -/
def count_loop : Nat → Int → Int → Option Int
  | 0, temp, frac_digits => if temp > 0 then none else some frac_digits
  | fuel + 1, temp, frac_digits =>
    if temp > 0 then count_loop fuel (Int.tdiv temp 10) (frac_digits + 1)
    else some frac_digits

/-- The integer part of `my_dtoa` (source lines 160-168). -/
def dtoa_int (int_part : Int) (str : Buf) (pos : Int) : Option (Buf × Int) :=
  if int_part = 0 then some (str.set pos (chr '0'), pos + 1)
  else
    match fits 32 (my_itoa int_part uninit 10) with
    | none => none
    | some (int_str, len) => some (copy_loop len.toNat str pos int_str 0)

/-- The fractional field of `my_dtoa` after the decimal point (source lines
184-208). -/
def dtoa_frac (frac_int precision : Int) (str : Buf) (pos : Int) : Option (Buf × Int) :=
  match count_loop 32 frac_int 0 with
  | none => none
  | some frac_digits =>
    if frac_int = 0 then some (fill_loop precision.toNat str pos (chr '0'))
    else
      let zeros := fill_loop (precision - frac_digits).toNat str pos (chr '0')
      match fits 32 (my_itoa frac_int uninit 10) with
      | none => none
      | some (frac_str, len) => some (copy_loop len.toNat zeros.1 zeros.2 frac_str 0)

/-- The value `frac_int` of `my_dtoa` (source lines 156-157 and 175-181). -/
def dtoa_frac_int (fl : ℚ → ℚ) (num : ℚ) (precision : Int) : Int :=
  let int_part := castInt num
  let frac_part := fl (num - (int_part : ℚ))
  let power := power_loop precision.toNat 1
  castInt (fl (fl (frac_part * (power : ℚ)) + 1 / 2))

/-- The function `my_dtoa` (source lines 146-213): the buffer after the call
and the returned length. -/
def my_dtoa (fl : ℚ → ℚ) (num : ℚ) (str : Buf) (precision : Int) : Option (Buf × Int) :=
  let str1 := if num < 0 then str.set 0 (chr '-') else str
  let pos1 : Int := if num < 0 then 1 else 0
  let num1 := if num < 0 then -num else num
  let int_part := castInt num1
  match dtoa_int int_part str1 pos1 with
  | none => none
  | some (str2, pos2) =>
    if precision > 0 then
      let str3 := str2.set pos2 (chr '.')
      let frac_int := dtoa_frac_int fl num1 precision
      match dtoa_frac frac_int precision str3 (pos2 + 1) with
      | none => none
      | some (str4, pos4) => some (str4.set pos4 0, pos4)
    else some (str2.set pos2 0, pos2)

/-! ## Formatting one argument

The variadic arguments are a sequence of 32-bit slots `args : Int → Int`,
read at `arg_index`.  What the slots mean in memory is given by the
platform. -/

/-- The platform the source is compiled for. -/
structure Platform where
  /-- Whether `sizeof(int) == sizeof(void*)` (source line 372). -/
  int_is_ptr : Bool
  /-- The rounding of `double` arithmetic. -/
  fl : ℚ → ℚ
  /-- The memory seen from a pointer value. -/
  mem : Int → Buf
  /-- The `double` stored in two consecutive slots (source lines 374, 378). -/
  dbl : Int → Int → ℚ

/-- The loop that converts `a` - `f` to upper case (source lines 334-338), by
the number of iterations left. -/
def upper_loop : Nat → Buf → Int → Buf
  | 0, temp, _ => temp
  | n + 1, temp, i =>
    if chr 'a' ≤ temp i ∧ temp i ≤ chr 'f' then
      upper_loop n (temp.set i (toChar (temp i - chr 'a' + chr 'A'))) (i + 1)
    else upper_loop n temp (i + 1)

/-- A conversion result with the argument index after it. -/
def withIndex (arg_index : Int) (r : Option (Buf × Int)) : Option (Buf × Int × Int) :=
  r.map (fun p => (p.1, p.2, arg_index))

/-- The `s` case of `format_arg` (source lines 349-367). -/
def convert_s (P : Platform) (precision : Int) (value : Int) : Option (Buf × Int) :=
  if value ≠ 0 then
    match my_strlen (some (P.mem value)) with
    | none => none
    | some len0 =>
      let len := if precision ≥ 0 ∧ len0 > precision then precision else len0
      let r := copy_loop len.toNat uninit 0 (P.mem value) 0
      fits 128 (some (r.1.set len 0, len))
  else
    match fits 128 (my_strcpy uninit (Buf.lit "(null)")) with
    | none => none
    | some (temp, _) => some (temp, 6)

/-- The `p` case of `format_arg` (source lines 385-391): `my_uitoa` writes
through the pointer `temp + 2`. -/
def convert_p (value : Int) : Option (Buf × Int) :=
  match fits 128 (my_strcpy uninit (Buf.lit "0x")) with
  | none => none
  | some (temp, _) =>
    match my_uitoa (toUnsigned value) (fun j => temp (j + 2)) 16 with
    | none => none
    | some (out, n) => fits 128 (some (fun j => out (j - 2), 2 + n))

/-- The switch of `format_arg` (source lines 300-407): the array `temp`, the
length `len` and the argument index after the conversion.  The array has
128 bytes; a conversion that writes outside it is undefined. -/
def convert (P : Platform) (format precision : Int) (args : Int → Int) (arg_index : Int) :
    Option (Buf × Int × Int) :=
  let precision1 :=
    if precision < 0 ∧ (format = chr 'f' ∨ format = chr 'g') then 6 else precision
  if format = chr 'd' ∨ format = chr 'i' then
    withIndex (arg_index + 1) (fits 128 (my_itoa (args arg_index) uninit 10))
  else if format = chr 'u' then
    withIndex (arg_index + 1) (fits 128 (my_uitoa (toUnsigned (args arg_index)) uninit 10))
  else if format = chr 'x' then
    withIndex (arg_index + 1) (fits 128 (my_uitoa (toUnsigned (args arg_index)) uninit 16))
  else if format = chr 'X' then
    withIndex (arg_index + 1)
      ((fits 128 (my_uitoa (toUnsigned (args arg_index)) uninit 16)).map
        (fun r => (upper_loop r.2.toNat r.1 0, r.2)))
  else if format = chr 'c' then
    some ((uninit.set 0 (toChar (args arg_index))).set 1 0, 1, arg_index + 1)
  else if format = chr 's' then
    withIndex (arg_index + 1) (convert_s P precision1 (args arg_index))
  else if format = chr 'f' then
    withIndex (if P.int_is_ptr then arg_index + 2 else arg_index + 1)
      (fits 128 (my_dtoa P.fl (P.dbl (args arg_index) (args (arg_index + 1))) uninit
        (if precision1 ≥ 0 then precision1 else 6)))
  else if format = chr 'p' then
    withIndex (arg_index + 1) (convert_p (args arg_index))
  else if format = chr '%' then
    some ((uninit.set 0 (chr '%')).set 1 0, 1, arg_index)
  else
    some (((uninit.set 0 (chr '%')).set 1 format).set 2 0, 2, arg_index)

/-- The function `format_arg` (source lines 296-427): the buffer, the new
buffer position and the new argument index. -/
def format_arg (P : Platform) (buffer : Buf) (buffer_pos : Int)
    (format width precision _flags : Int) (args : Int → Int) (arg_index : Int) :
    Option (Buf × Int × Int) :=
  match convert P format precision args arg_index with
  | none => none
  | some (temp, len, arg_index1) =>
    let padding := if width > len then width - len else 0
    let r1 :=
      if padding > 0 then fill_loop padding.toNat buffer buffer_pos (chr ' ')
      else (buffer, buffer_pos)
    let r2 := copy_loop len.toNat r1.1 r1.2 temp 0
    some (r2.1, r2.2, arg_index1)

/-! ## Parsing a specifier -/

/-- The digit loops of `parse_format` (source lines 446-449 and 455-458): the
index after the run and the accumulated value, in 32-bit arithmetic. -/
def digits_loop : Nat → Buf → Int → Int → Option (Int × Int)
  | 0, _, _, _ => none
  | fuel + 1, format, pos, value =>
    if format pos ≥ chr '0' ∧ format pos ≤ chr '9' then
      digits_loop fuel format (pos + 1) (wrap32 (value * 10 + (format pos - chr '0')))
    else some (pos, value)

/-- The function `parse_format` (source lines 439-462): the returned index,
then `*width`, `*precision` and `*flags`. -/
def parse_format (format : Buf) (pos : Int) : Option (Int × Int × Int × Int) :=
  match digits_loop 2147483648 format pos 0 with
  | none => none
  | some (pos1, width) =>
    if format pos1 = chr '.' then
      match digits_loop 2147483648 format (pos1 + 1) 0 with
      | none => none
      | some (pos2, precision) => some (pos2, width, precision, 0)
    else some (pos1, width, -1, 0)

/-! ## The console and the top-level function

The Windows console is outside the source.  It is a parameter: what
`GetStdHandle` and `WriteConsoleA` answer, given the chunks that were
offered to `WriteConsoleA` before. -/

/-- The console the program writes to. -/
structure Host where
  /-- The handle returned by `GetStdHandle(STD_OUTPUT_HANDLE)`; `-1` is the
  invalid handle. -/
  GetStdHandle : List (List Int) → Int
  /-- The answer of `WriteConsoleA` to a chunk: the success flag and the
  number of characters written. -/
  WriteConsoleA : List (List Int) → List Int → Bool × Int

/-- The function `write_console` (source lines 268-281): the returned value
and the chunks offered to the console so far. -/
def write_console (H : Host) (chunks : List (List Int)) (str : Buf) (len : Int) :
    Int × List (List Int) :=
  if H.GetStdHandle chunks = -1 then (-1, chunks)
  else
    let r := H.WriteConsoleA chunks (str.text len)
    (if r.1 = false then -1 else wrap32 r.2, chunks ++ [str.text len])

/-- The variables of `custom_printf` at the head of its loop, and the chunks
offered to the console so far. -/
structure PState where
  /-- The scanning index `i`. -/
  i : Int
  /-- The array `buffer`. -/
  buffer : Buf
  /-- The variable `buffer_pos`. -/
  buffer_pos : Int
  /-- The variable `total_written`. -/
  total_written : Int
  /-- The variable `arg_index`. -/
  arg_index : Int
  /-- The chunks offered to the console so far, oldest first. -/
  chunks : List (List Int)

/-- The first part of the loop body of `custom_printf` (source lines
483-500): one specifier or one literal character.  The array `buffer` has
4096 bytes; a write outside it is undefined. -/
def scan_step (P : Platform) (format : Buf) (args : Int → Int) (s : PState) : Option PState :=
  if format s.i = chr '%' ∧ format (s.i + 1) ≠ 0 then
    match parse_format format (s.i + 1) with
    | none => none
    | some (i1, width, precision, flags) =>
      match format_arg P s.buffer s.buffer_pos (format i1) width precision flags args
          s.arg_index with
      | none => none
      | some (buffer1, buffer_pos1, arg_index1) =>
        if buffer_pos1 ≤ 4096 then
          some { s with i := i1, buffer := buffer1, buffer_pos := buffer_pos1,
                        arg_index := arg_index1 }
        else none
  else
    if 0 ≤ s.buffer_pos ∧ s.buffer_pos < 4096 then
      some { s with buffer := s.buffer.set s.buffer_pos (format s.i),
                    buffer_pos := s.buffer_pos + 1 }
    else none

/-- A flush (source lines 504-507 and 513-515): either the call returns `-1`,
or the count is added and the loop goes on with an empty buffer. -/
def flush (H : Host) (s : PState) : Int × List (List Int) ⊕ PState :=
  let w := write_console H s.chunks s.buffer s.buffer_pos
  if w.1 < 0 then Sum.inl (-1, w.2)
  else Sum.inr { s with total_written := wrap32 (s.total_written + w.1), buffer_pos := 0,
                        chunks := w.2 }

/-- The end of `custom_printf` (source lines 511-518): the returned value
and the chunks offered to the console. -/
def finish (H : Host) (s : PState) : Int × List (List Int) :=
  if s.buffer_pos > 0 then
    match flush H s with
    | Sum.inl r => r
    | Sum.inr s1 => (s1.total_written, s1.chunks)
  else (s.total_written, s.chunks)

/-- The loop of `custom_printf` (source lines 482-509). -/
def custom_loop (P : Platform) (H : Host) (format : Buf) (args : Int → Int) :
    Nat → PState → Option (Int × List (List Int))
  | 0, _ => none
  | fuel + 1, s =>
    if format s.i ≠ 0 then
      match scan_step P format args s with
      | none => none
      | some s1 =>
        if s1.buffer_pos > 4000 then
          match flush H s1 with
          | Sum.inl r => some r
          | Sum.inr s2 => custom_loop P H format args fuel { s2 with i := s2.i + 1 }
        else custom_loop P H format args fuel { s1 with i := s1.i + 1 }
    else some (finish H s)

/-- The state of `custom_printf` before its loop (source lines 474-480). -/
def initial : PState :=
  { i := 0, buffer := uninit, buffer_pos := 0, total_written := 0, arg_index := 0, chunks := [] }

/-- The function `custom_printf` (source lines 471-519): the returned value
and the chunks offered to the console, in order; `none` as format is the
null pointer. -/
def custom_printf (P : Platform) (H : Host) (format : Option Buf) (args : Int → Int) :
    Option (Int × List (List Int)) :=
  match format with
  | none => some (0, [])
  | some f => custom_loop P H f args 2147483648 initial

/-! # Specification side

Definitions used to state and prove the properties; none of them is part of
the translated source. -/

/-- The bytes of a string literal, to write an expected text. -/
def bytes (s : String) : List Int := s.toList.map (fun c => chr c)

/-- The result text of a conversion: the first `len` bytes of its buffer. -/
def textOf (r : Option (Buf × Int)) : Option (List Int) :=
  r.map (fun p => p.1.text p.2)

/-! ## Reading a numeral back -/

/-- The value of a digit character: `0-9`, then `a-z` for `10 .. 35`. -/
def digitValue (c : Int) : Option Int :=
  if chr '0' ≤ c ∧ c ≤ chr '9' then some (c - chr '0')
  else if chr 'a' ≤ c ∧ c ≤ chr 'z' then some (c - chr 'a' + 10)
  else none

/-- One step of reading a base-`b` numeral, most significant digit first. -/
def parseStep (b : Int) (acc : Option Int) (c : Int) : Option Int :=
  match acc, digitValue c with
  | some a, some d => if d < b then some (a * b + d) else none
  | _, _ => none

/-- Reading a text as a base-`b` numeral; `none` when the text is empty or
holds a character that is not a digit of the base. -/
def parseBack (text : List Int) (b : Int) : Option Int :=
  if text = [] then none else text.foldl (parseStep b) (some 0)

/-! ## List-level descriptions of the conversions

These functions compute the characters a conversion writes, without the
buffer.  The lemmas below prove that the buffer-level functions write
exactly these characters. -/

/-- Writing a list of bytes from index `i` on. -/
def Buf.write (str : Buf) (i : Int) : List Int → Buf
  | [] => str
  | c :: cs => (str.set i c).write (i + 1) cs

/-- The digits of `n` in base `b` as characters, least significant first. -/
def digitChars (b n : Nat) : List Int :=
  (Nat.digits b n).map (fun (d : Nat) => digitChar (d : Int))

/-- The characters written by the digit loop of `my_itoa`, in writing order. -/
def itoa_list : Nat → Int → Int → Option (List Int)
  | 0, num, _ => if num = 0 then some [] else none
  | fuel + 1, num, base =>
    if num = 0 then some []
    else if base = 0 ∨ (num = INT_MIN ∧ base = -1) then none
    else (itoa_list fuel (Int.tdiv num base) base).map
      (fun l => digitChar (Int.tmod num base) :: l)

/-- The text produced by `my_itoa`. -/
def itoa_text (num base : Int) : Option (List Int) :=
  if num = 0 then some [chr '0']
  else if num < 0 ∧ base = 10 then
    (itoa_list 32 (wrap32 (-num)) base).map (fun l => (l ++ [chr '-']).reverse)
  else (itoa_list 32 num base).map (fun l => l.reverse)

/-- The characters written by the digit loop of `my_uitoa`, in writing order. -/
def uitoa_list : Nat → Int → Int → Option (List Int)
  | 0, num, _ => if num = 0 then some [] else none
  | fuel + 1, num, base =>
    if num = 0 then some []
    else if toUnsigned base = 0 then none
    else (uitoa_list fuel (num / toUnsigned base) base).map
      (fun l => digitChar (wrap32 (num % toUnsigned base)) :: l)

/-- The text produced by `my_uitoa`. -/
def uitoa_text (num base : Int) : Option (List Int) :=
  if num = 0 then some [chr '0'] else (uitoa_list 32 num base).map (fun l => l.reverse)

/-- The result of a conversion that writes the text `t` and its NUL into
`str` and returns the length. -/
def written (str : Buf) (t : List Int) : Buf × Int :=
  (str.write 0 (t ++ [0]), (t.length : Int))

/-- A text that was written into a local array of `cap` bytes, with its NUL. -/
def fitsText (cap : Int) (o : Option (List Int)) : Option (List Int) :=
  o.bind (fun t => if (t.length : Int) < cap then some t else none)

/-- The characters of the integer part of `my_dtoa`. -/
def dtoa_int_text (int_part : Int) : Option (List Int) :=
  if int_part = 0 then some [chr '0'] else fitsText 32 (itoa_text int_part 10)

/-- The characters of the fractional field of `my_dtoa`. -/
def dtoa_frac_text (frac_int precision : Int) : Option (List Int) :=
  (count_loop 32 frac_int 0).bind (fun frac_digits =>
    if frac_int = 0 then some (List.replicate precision.toNat (chr '0'))
    else (fitsText 32 (itoa_text frac_int 10)).map (fun t =>
      List.replicate (precision - frac_digits).toNat (chr '0') ++ t))

/-- The text produced by `my_dtoa`. -/
def dtoa_text (fl : ℚ → ℚ) (num : ℚ) (precision : Int) : Option (List Int) :=
  let sign := if num < 0 then [chr '-'] else []
  let num1 := if num < 0 then -num else num
  (dtoa_int_text (castInt num1)).bind (fun it =>
    if precision > 0 then
      (dtoa_frac_text (dtoa_frac_int fl num1 precision) precision).map
        (fun ft => sign ++ it ++ chr '.' :: ft)
    else some (sign ++ it))

/-! ## Specification-side texts -/

/-- The decimal numeral of a natural number, most significant digit first. -/
def decimal (n : Nat) : List Int :=
  if n = 0 then [chr '0'] else (digitChars 10 n).reverse

/-- The sign that `my_dtoa` writes: `-` exactly for a negative value. -/
def signText (x : ℚ) : List Int := if x < 0 then [chr '-'] else []

/-- A text left-padded with `0` to `p` characters. -/
def leftPad (p : Int) (t : List Int) : List Int :=
  List.replicate (p - (t.length : Int)).toNat (chr '0') ++ t

/-- The number of characters after the first decimal point of a text. -/
def digitsAfterPoint (t : List Int) : Nat :=
  ((t.dropWhile (fun c => c ≠ chr '.')).drop 1).length

/-- The bytes appended to the buffer by a call of `format_arg`. -/
def appended (buffer_pos : Int) (r : Option (Buf × Int × Int)) : Option (List Int) :=
  r.map (fun p => (List.range (p.2.1 - buffer_pos).toNat).map
    (fun (k : Nat) => p.1 (buffer_pos + (k : Int))))

/-- A platform for examples: 32-bit, exact arithmetic, every non-null
pointer points to the string `s`, every `double` argument is `x`. -/
def examplePlatform (s : String) (x : ℚ) : Platform :=
  { int_is_ptr := true, fl := id, mem := fun _ => Buf.lit s, dbl := fun _ _ => x }

/-- A string of `n` letters `a`. -/
def letters (n : Nat) : String := String.mk (List.replicate n 'a')

/-- The buffer `s` holds a C string of length `L`: no NUL before index `L`,
a NUL at index `L`. -/
def IsCString (s : Buf) (L : Int) : Prop :=
  0 ≤ L ∧ (∀ j, 0 ≤ j → j < L → s j ≠ 0) ∧ s L = 0

/-- A console that accepts every byte offered. -/
def acceptAll : Host :=
  { GetStdHandle := fun _ => 1, WriteConsoleA := fun _ chunk => (true, (chunk.length : Int)) }

/-- An ASCII digit. -/
def isDigit (c : Int) : Prop := chr '0' ≤ c ∧ c ≤ chr '9'

instance (c : Int) : Decidable (isDigit c) := by
  unfold isDigit
  infer_instance

/-- The `n` bytes of a buffer from index `pos` on. -/
def Buf.slice (format : Buf) (pos : Int) (n : Nat) : List Int :=
  (List.range n).map (fun (k : Nat) => format (pos + (k : Int)))

/-- The maximal run of ASCII digits that starts at index `pos` of a string of
length `L`. -/
def digitRun (format : Buf) (pos L : Int) : List Int :=
  (format.slice pos (L - pos).toNat).takeWhile (fun c => decide (isDigit c))

/-- The value accumulated by a digit loop that starts from `value`, without
reduction to 32 bits. -/
def runValue (value : Int) (run : List Int) : Int :=
  run.foldl (fun a c => a * 10 + (c - chr '0')) value

/-- The decimal value of a run of digits. -/
def decimalValue (run : List Int) : Int :=
  run.foldl (fun a c => a * 10 + (c - chr '0')) 0

/-- The loop-head state of `custom_printf` whose buffer holds the text `t`
(written over `base`), at scanning index `i`. -/
def textState (base : Buf) (i : Int) (t : List Int) (total_written arg_index : Int)
    (chunks : List (List Int)) : PState :=
  { i := i, buffer := base.write 0 t, buffer_pos := (t.length : Int),
    total_written := total_written, arg_index := arg_index, chunks := chunks }

/-- The conversion character is none of `d i u x X c s f p %`. -/
def Unrecognized (c : Int) : Prop :=
  c ≠ chr 'd' ∧ c ≠ chr 'i' ∧ c ≠ chr 'u' ∧ c ≠ chr 'x' ∧ c ≠ chr 'X' ∧ c ≠ chr 'c' ∧
  c ≠ chr 's' ∧ c ≠ chr 'f' ∧ c ≠ chr 'p' ∧ c ≠ chr '%'

instance (c : Int) : Decidable (Unrecognized c) := by
  unfold Unrecognized
  infer_instance

/-! ## List-level description of `custom_printf`

The loop of `custom_printf`, on the buffered text instead of the buffer.
The lemma `custom_loop_eq_run` proves that the loop of the source computes
exactly this. -/

/-- The bytes that one scanning step appends to the buffer at scanning index
`i` and argument index `ai` (a padded field, or one literal character), with
the scanning index and the argument index of the next step. -/
def next_piece (P : Platform) (format : Buf) (args : Int → Int) (i ai : Int) :
    Option (List Int × Int × Int) :=
  if format i = chr '%' ∧ format (i + 1) ≠ 0 then
    match parse_format format (i + 1) with
    | none => none
    | some (i1, width, precision, _) =>
      match convert P (format i1) precision args ai with
      | none => none
      | some (temp, len, ai1) =>
        some (List.replicate (max (width - len) 0).toNat (chr ' ') ++ temp.text len, i1 + 1, ai1)
  else some ([format i], i + 1, ai)

/-- One call of `write_console` on the text `t`: the returned value and the
chunks offered so far. -/
def offer (H : Host) (ch : List (List Int)) (t : List Int) : Int × List (List Int) :=
  if H.GetStdHandle ch = -1 then (-1, ch)
  else (if (H.WriteConsoleA ch t).1 = false then -1 else wrap32 (H.WriteConsoleA ch t).2,
    ch ++ [t])

/-- The loop of `custom_printf` from scanning index `i` with the buffered
text `t`, the total `tw`, the argument index `ai` and the chunks `ch`. -/
def run (P : Platform) (H : Host) (format : Buf) (args : Int → Int) :
    Nat → Int → List Int → Int → Int → List (List Int) → Option (Int × List (List Int))
  | 0, _, _, _, _, _ => none
  | fuel + 1, i, t, tw, ai, ch =>
    if format i ≠ 0 then
      match next_piece P format args i ai with
      | none => none
      | some (p, i1, ai1) =>
        if ((t ++ p).length : Int) ≤ 4096 then
          if ((t ++ p).length : Int) > 4000 then
            if (offer H ch (t ++ p)).1 < 0 then some (-1, (offer H ch (t ++ p)).2)
            else run P H format args fuel i1 [] (wrap32 (tw + (offer H ch (t ++ p)).1)) ai1
              (offer H ch (t ++ p)).2
          else run P H format args fuel i1 (t ++ p) tw ai1 ch
        else none
    else
      if (t.length : Int) > 0 then
        if (offer H ch t).1 < 0 then some (-1, (offer H ch t).2)
        else some (wrap32 (tw + (offer H ch t).1), (offer H ch t).2)
      else some (tw, ch)

/-- The pieces of the text that the whole format string renders to from
scanning index `i` and argument index `ai` on, with no buffer and no
console: one piece for each literal character and for each specifier. -/
def render (P : Platform) (format : Buf) (args : Int → Int) :
    Nat → Int → Int → Option (List (List Int))
  | 0, _, _ => none
  | fuel + 1, i, ai =>
    if format i ≠ 0 then
      match next_piece P format args i ai with
      | none => none
      | some (p, i1, ai1) => (render P format args fuel i1 ai1).map (fun ps => p :: ps)
    else some []

/-- A console whose every write succeeds: for every chunk of at most 4096
bytes, the size of the buffer, the handle is valid, `WriteConsoleA` reports
success, and the count it reports is a non-negative `int`. -/
def Succeeds (H : Host) : Prop :=
  ∀ (ch : List (List Int)) (t : List Int), (t.length : Int) ≤ 4096 →
    H.GetStdHandle ch ≠ -1 ∧ (H.WriteConsoleA ch t).1 = true ∧
    0 ≤ (H.WriteConsoleA ch t).2 ∧ (H.WriteConsoleA ch t).2 ≤ INT_MAX

/-- The byte counts that the console returns for the chunks `new`, offered in
order after the chunks `ch`. -/
def sinkCounts (H : Host) : List (List Int) → List (List Int) → List Int
  | _, [] => []
  | ch, c :: cs => (H.WriteConsoleA ch c).2 :: sinkCounts H (ch ++ [c]) cs

/-- Every write of a call succeeded: at every point where the chunks `new`
were offered, in order after the chunks `ch`, the handle was valid,
`WriteConsoleA` reported success and the count it reported is a non-negative
`int`; and the handle is valid after the last chunk. -/
def Succeeded (H : Host) (ch new : List (List Int)) : Prop :=
  H.GetStdHandle (ch ++ new) ≠ -1 ∧
  ∀ before c after, new = before ++ c :: after →
    H.GetStdHandle (ch ++ before) ≠ -1 ∧ (H.WriteConsoleA (ch ++ before) c).1 = true ∧
    0 ≤ (H.WriteConsoleA (ch ++ before) c).2 ∧ (H.WriteConsoleA (ch ++ before) c).2 ≤ INT_MAX

/-- A console that fails after having accepted `N` bytes: a chunk that fits
in what is left of the `N` bytes is accepted whole; of another chunk the
console accepts what is left, then reports failure. -/
def failAfter (N : Nat) : Host :=
  { GetStdHandle := fun _ => 1,
    WriteConsoleA := fun ch t =>
      if ch.flatten.length + t.length ≤ N then (true, (t.length : Int))
      else (false, ((N - ch.flatten.length : Nat) : Int)) }

/-- The number of argument slots that a conversion character consumes. -/
def slots (P : Platform) (c : Int) : Int :=
  if c = chr 'd' ∨ c = chr 'i' ∨ c = chr 'u' ∨ c = chr 'x' ∨ c = chr 'X' ∨ c = chr 'c' ∨
      c = chr 's' ∨ c = chr 'p' then 1
  else if c = chr 'f' then (if P.int_is_ptr then 2 else 1)
  else 0

/-- Successive calls of `format_arg`, as `custom_printf` makes them, for the
specifiers `specs` (conversion character, width, precision), from a buffer, a
buffer position and an argument index. -/
def format_args (P : Platform) (args : Int → Int) :
    List (Int × Int × Int) → Buf × Int × Int → Option (Buf × Int × Int)
  | [], st => some st
  | spec :: specs, st =>
    match format_arg P st.1 st.2.1 spec.1 spec.2.1 spec.2.2 0 args st.2.2 with
    | none => none
    | some st1 => format_args P args specs st1

/-- The character `c` with `a` - `f` replaced by `A` - `F`. -/
def upperHex (c : Int) : Int :=
  if chr 'a' ≤ c ∧ c ≤ chr 'f' then c - chr 'a' + chr 'A' else c

/-- A format string of `K` specifiers `%96%`, each rendering to 95 spaces
and a `%`. -/
def wideFormat (K : Nat) : Buf := fun j =>
  if 0 ≤ j ∧ j < 4 * (K : Int) then
    (if j % 4 = 0 then chr '%' else if j % 4 = 1 then chr '9'
      else if j % 4 = 2 then chr '6' else chr '%')
  else 0

/-- The field that the specifier `%96%` renders to. -/
def widePiece : List Int := List.replicate 95 (chr ' ') ++ [chr '%']

/-! ## The iterations of the loop of `custom_printf` -/

/-- One iteration of the loop of `custom_printf` from a loop-head state
(source lines 483-508, then `i++`): the call returns (`Sum.inl`), or the loop
goes on from the next loop-head state (`Sum.inr`).  The lemma
`custom_loop_body` proves that the loop of the source runs this body. -/
def loop_body (P : Platform) (H : Host) (format : Buf) (args : Int → Int) (s : PState) :
    Option (Int × List (List Int) ⊕ PState) :=
  match scan_step P format args s with
  | none => none
  | some s1 =>
    if s1.buffer_pos > 4000 then
      match flush H s1 with
      | Sum.inl r => some (Sum.inl r)
      | Sum.inr s2 => some (Sum.inr { s2 with i := s2.i + 1 })
    else some (Sum.inr { s1 with i := s1.i + 1 })

/-- The loop-head state after `n` iterations of the loop of `custom_printf`,
while the loop is running. -/
def loop_state (P : Platform) (H : Host) (format : Buf) (args : Int → Int) :
    Nat → Option PState
  | 0 => some initial
  | n + 1 =>
    match loop_state P H format args n with
    | none => none
    | some s =>
      if format s.i ≠ 0 then
        match loop_body P H format args s with
        | some (Sum.inr s1) => some s1
        | _ => none
      else none

/-- A console that never reports more bytes than it was offered. -/
def Honest (H : Host) : Prop :=
  ∀ (ch : List (List Int)) (t : List Int), (H.WriteConsoleA ch t).2 ≤ (t.length : Int)

/-- A console that accepts at most `k` bytes of every chunk. -/
def acceptUpTo (k : Nat) : Host :=
  { GetStdHandle := fun _ => 1,
    WriteConsoleA := fun _ chunk => (true, ((min k chunk.length : Nat) : Int)) }

end Printf

/-! # The logic gates table generator

A shallow embedding of the functions that compute the truth tables in
`src/C++/Console Applications/Logic Gates Table Generator/logic_gates_table_generator.cpp`.

* A `vector<int>` is a `List Int`, a `vector<vector<int>>` a list of rows.
* The loop counters run upwards from 0 and are natural numbers; on them the
  operators `>>` and `&` of C++ are the operators of `Nat`.
* Reading `inputs[0]` of an empty vector is undefined: the function returns
  `none`. -/

namespace LogicGates

/-- The inner loop of `generateCombinations` (source lines 59-61), for row
`i` from column `j` on, by the number of iterations left:
`combinations[i][j] = (i >> (n - j - 1)) & 1`. -/
def inner_loop (n i : Nat) : Nat → Nat → List (List Int) → List (List Int)
  | 0, _, combinations => combinations
  | k + 1, j, combinations =>
    inner_loop n i k (j + 1)
      (combinations.set i
        ((combinations.getD i []).set j ((((i >>> (n - j - 1)) &&& 1 : Nat) : Int))))

/-- The outer loop of `generateCombinations` (source lines 58-62), from row
`i` on, by the number of iterations left. -/
def outer_loop (n : Nat) : Nat → Nat → List (List Int) → List (List Int)
  | 0, _, combinations => combinations
  | k + 1, i, combinations => outer_loop n k (i + 1) (inner_loop n i n 0 combinations)

/-- The function `generateCombinations` (source lines 55-64).  The value of
`pow(2, n)` is exactly `2^n` and fits an `int` for `0 ≤ n ≤ 30`; outside
that range the conversion to `int` or the size of the vectors is not
defined. -/
def generateCombinations (n : Int) : Option (List (List Int)) :=
  if 0 ≤ n ∧ n ≤ 30 then
    let totalCombinations := 2 ^ n.toNat
    some (outer_loop n.toNat totalCombinations 0
      (List.replicate totalCombinations (List.replicate n.toNat 0)))
  else none

/-- The function `orGate` (source lines 71-76). -/
def orGate : List Int → Int
  | [] => 0
  | input :: inputs => if input = 1 then 1 else orGate inputs

/-- The function `andGate` (source lines 78-83). -/
def andGate : List Int → Int
  | [] => 1
  | input :: inputs => if input = 0 then 0 else andGate inputs

/-- The function `notGate` (source lines 85-87). -/
def notGate (input : Int) : Int := if input = 0 then 1 else 0

/-- The operator `!` of C++ on an `int`, with the `bool` converted back to
`int`, as in `return !andGate(inputs);`. -/
def lnot (x : Int) : Int := if x = 0 then 1 else 0

/-- The function `nandGate` (source lines 94-96). -/
def nandGate (inputs : List Int) : Int := lnot (andGate inputs)

/-- The function `norGate` (source lines 98-100). -/
def norGate (inputs : List Int) : Int := lnot (orGate inputs)

/-- The loop of `xorGate` (source lines 104-106) over the inputs that are
left: `result ^= inputs[i]`. -/
def xor_loop : List Int → Int → Int
  | [], result => result
  | input :: inputs, result => xor_loop inputs (Int.xor result input)

/-- The function `xorGate` (source lines 102-108). -/
def xorGate : List Int → Option Int
  | [] => none
  | input :: inputs => some (xor_loop inputs input)

/-- The function `xnorGate` (source lines 110-112). -/
def xnorGate (inputs : List Int) : Option Int := (xorGate inputs).map lnot

/-! ## Specification side -/

/-- Bit `k` of the natural number `i`. -/
def bitOf (i k : Nat) : Int := ((i / 2 ^ k % 2 : Nat) : Int)

/-- The row of the truth table for the number `i` on `n` inputs: the bits of
`i`, most significant first. -/
def bitRow (n i : Nat) : List Int := (List.range n).map (fun j => bitOf i (n - j - 1))

/-- The number that a row denotes in binary, most significant bit first. -/
def binaryValue (row : List Int) : Int := row.foldl (fun a b => 2 * a + b) 0

end LogicGates

namespace Printf

/-! # Lemmas and theorems -/

/-! ## Buffers: basic facts -/

theorem Buf.set_same (str : Buf) (i c : Int) : (str.set i c) i = c := by
  simp [Buf.set]

theorem Buf.set_other (str : Buf) (i j c : Int) (h : j ≠ i) : (str.set i c) j = str j := by
  simp [Buf.set, h]

theorem Buf.length_text (str : Buf) (len : Int) : (str.text len).length = len.toNat := by
  simp [Buf.text]

/-- The reversal loop mirrors the segment `start .. end_` and leaves the rest. -/
theorem reverse_loop_spec (fuel : Nat) : ∀ (str : Buf) (s e : Int), e - s < 2 * fuel →
    ∀ j, reverse_loop fuel str s e j = if s ≤ j ∧ j ≤ e then str (s + e - j) else str j := by
  induction fuel with
  | zero =>
    intro str s e h j
    simp only [reverse_loop]
    split_ifs with hc
    · have : s + e - j = j := by omega
      rw [this]
    · rfl
  | succ fuel ih =>
    intro str s e h j
    simp only [reverse_loop]
    by_cases hse : s < e
    · rw [if_pos hse, ih _ (s + 1) (e - 1) (by push_cast at h; omega) j]
      by_cases hj1 : s + 1 ≤ j ∧ j ≤ e - 1
      · rw [if_pos hj1, if_pos (by omega)]
        have e1 : s + 1 + (e - 1) - j = s + e - j := by omega
        rw [e1, Buf.set_other _ _ _ _ (by omega), Buf.set_other _ _ _ _ (by omega)]
      · rw [if_neg hj1]
        by_cases hje : j = e
        · subst hje
          rw [Buf.set_same, if_pos (by omega)]
          congr 1; omega
        · rw [Buf.set_other _ _ _ _ hje]
          by_cases hjs : j = s
          · subst hjs
            rw [Buf.set_same, if_pos (by omega)]
            congr 1; omega
          · rw [Buf.set_other _ _ _ _ hjs, if_neg (by omega)]
    · rw [if_neg hse]
      split_ifs with hc
      · have : s + e - j = j := by omega
        rw [this]
      · rfl

/-! ## Writing lists into buffers -/

theorem Buf.write_apply (l : List Int) : ∀ (str : Buf) (i j : Int),
    (str.write i l) j = if i ≤ j ∧ j < i + l.length then l.getD (j - i).toNat 0 else str j := by
  induction l with
  | nil =>
    intro str i j
    simp only [Buf.write, List.length_nil, Nat.cast_zero, add_zero]
    rw [if_neg (by omega)]
  | cons c cs ih =>
    intro str i j
    simp only [Buf.write, List.length_cons]
    rw [ih]
    by_cases h1 : i + 1 ≤ j ∧ j < i + 1 + (cs.length : Int)
    · rw [if_pos h1, if_pos (by push_cast; omega)]
      have e : (j - i).toNat = (j - (i + 1)).toNat + 1 := by omega
      rw [e, List.getD_cons_succ]
    · rw [if_neg h1]
      by_cases h2 : j = i
      · subst h2
        rw [Buf.set_same, if_pos (by push_cast; omega)]
        simp
      · rw [Buf.set_other _ _ _ _ h2, if_neg (by push_cast; omega)]

theorem Buf.write_append (l1 l2 : List Int) : ∀ (str : Buf) (i : Int),
    str.write i (l1 ++ l2) = (str.write i l1).write (i + l1.length) l2 := by
  induction l1 with
  | nil => intro str i; simp [Buf.write]
  | cons c cs ih =>
    intro str i
    have e : i + ((cs.length + 1 : Nat) : Int) = i + 1 + (cs.length : Int) := by
      push_cast; omega
    rw [List.cons_append]
    simp only [Buf.write, List.length_cons]
    rw [ih, e]

theorem Buf.write_set (str : Buf) (i : Int) (l : List Int) (c : Int) :
    (str.write i l).set (i + l.length) c = str.write i (l ++ [c]) := by
  rw [Buf.write_append]
  rfl

theorem Buf.text_write_append (str : Buf) (t u : List Int) :
    (str.write 0 (t ++ u)).text (t.length : Int) = t := by
  apply List.ext_getElem
  · simp [Buf.length_text]
  · intro k h1 h2
    simp only [Buf.text, List.getElem_map, List.getElem_range]
    rw [Buf.write_apply, if_pos (by simp only [List.length_append]; push_cast; omega)]
    simp only [sub_zero, Int.toNat_ofNat, List.getD_eq_getElem?_getD]
    rw [List.getElem?_append_left h2, List.getElem?_eq_getElem h2]
    rfl

theorem written_text (str : Buf) (t : List Int) :
    (written str t).1.text (written str t).2 = t :=
  Buf.text_write_append str t [0]

theorem written_nul (str : Buf) (t : List Int) : (written str t).1 (written str t).2 = 0 := by
  simp only [written]
  rw [Buf.write_apply, if_pos (by simp only [List.length_append, List.length_singleton]; push_cast; omega)]
  simp

/-- Reversing in place the text written at index 0 gives the reversed text. -/
theorem reverse_write (str : Buf) (l : List Int) :
    reverse_loop ((l.length : Int)).toNat (str.write 0 l) 0 ((l.length : Int) - 1) =
      str.write 0 l.reverse := by
  funext j
  rw [reverse_loop_spec _ _ _ _ (by omega), Buf.write_apply, Buf.write_apply, Buf.write_apply]
  simp only [List.length_reverse]
  by_cases h : 0 ≤ j ∧ j ≤ (l.length : Int) - 1
  · rw [if_pos h, if_pos (by omega), if_pos (by omega)]
    simp only [List.getD_eq_getElem?_getD]
    have hj : j.toNat < l.length := by omega
    rw [List.getElem?_reverse (by simpa using hj)]
    congr 2
    omega
  · rw [if_neg h, if_neg (by omega), if_neg (by omega)]

/-! ## The digit loops write the list-level characters -/

theorem itoa_digits_eq (fuel : Nat) : ∀ (num base : Int) (str : Buf) (i : Int),
    itoa_digits fuel num base str i =
      (itoa_list fuel num base).map (fun l => (str.write i l, i + (l.length : Int))) := by
  induction fuel with
  | zero =>
    intro num base str i
    by_cases h : num = 0 <;> simp [itoa_digits, itoa_list, h, Buf.write]
  | succ fuel ih =>
    intro num base str i
    simp only [itoa_digits, itoa_list]
    by_cases h : num = 0
    · simp [h, Buf.write]
    · rw [if_neg h, if_neg h]
      by_cases hb : base = 0 ∨ (num = INT_MIN ∧ base = -1)
      · rw [if_pos hb, if_pos hb]; rfl
      · rw [if_neg hb, if_neg hb, ih]
        cases itoa_list fuel (num.tdiv base) base with
        | none => rfl
        | some l =>
          simp only [Option.map_some', Buf.write, List.length_cons]
          congr 2
          push_cast
          omega

theorem uitoa_digits_eq (fuel : Nat) : ∀ (num base : Int) (str : Buf) (i : Int),
    uitoa_digits fuel num base str i =
      (uitoa_list fuel num base).map (fun l => (str.write i l, i + (l.length : Int))) := by
  induction fuel with
  | zero =>
    intro num base str i
    by_cases h : num = 0 <;> simp [uitoa_digits, uitoa_list, h, Buf.write]
  | succ fuel ih =>
    intro num base str i
    simp only [uitoa_digits, uitoa_list]
    by_cases h : num = 0
    · simp [h, Buf.write]
    · rw [if_neg h, if_neg h]
      by_cases hb : toUnsigned base = 0
      · rw [if_pos hb, if_pos hb]; rfl
      · rw [if_neg hb, if_neg hb, ih]
        cases uitoa_list fuel (num / toUnsigned base) base with
        | none => rfl
        | some l =>
          simp only [Option.map_some', Buf.write, List.length_cons]
          congr 2
          push_cast
          omega

/-- The function `my_itoa` writes the text `itoa_text` and its NUL, and
returns the length of the text. -/
theorem my_itoa_eq (num : Int) (str : Buf) (base : Int) :
    my_itoa num str base = (itoa_text num base).map (written str) := by
  unfold my_itoa itoa_text
  by_cases h0 : num = 0
  · simp only [if_pos h0, Option.map_some', written, Buf.write, List.singleton_append,
      List.length_singleton]
    rfl
  · rw [if_neg h0, if_neg h0]
    by_cases hneg : num < 0 ∧ base = 10
    · simp only [hneg, and_self, decide_True, if_true, itoa_digits_eq]
      cases itoa_list 32 (wrap32 (-num)) 10 with
      | none => rfl
      | some l =>
        simp only [Option.map_some', zero_add, written]
        have e : (l.length : Int) + 1 = ((l ++ [chr '-']).length : Int) := by simp
        have e0 := Buf.write_set str 0 l (chr '-')
        rw [zero_add] at e0
        rw [e0, e, reverse_write, List.length_reverse]
        have e1 := Buf.write_set str 0 (l ++ [chr '-']).reverse 0
        rw [zero_add, List.length_reverse] at e1
        rw [e1]
    · simp only [hneg, decide_False, Bool.false_eq_true, if_false, itoa_digits_eq]
      cases itoa_list 32 num base with
      | none => rfl
      | some l =>
        simp only [Option.map_some', zero_add, written]
        rw [reverse_write, List.length_reverse]
        have e1 := Buf.write_set str 0 l.reverse 0
        rw [zero_add, List.length_reverse] at e1
        rw [e1]

/-- The function `my_uitoa` writes the text `uitoa_text` and its NUL, and
returns the length of the text. -/
theorem my_uitoa_eq (num : Int) (str : Buf) (base : Int) :
    my_uitoa num str base = (uitoa_text num base).map (written str) := by
  unfold my_uitoa uitoa_text
  by_cases h0 : num = 0
  · simp only [if_pos h0, Option.map_some', written, Buf.write, List.singleton_append,
      List.length_singleton]
    rfl
  · rw [if_neg h0, if_neg h0]
    simp only [uitoa_digits_eq]
    cases uitoa_list 32 num base with
    | none => rfl
    | some l =>
      simp only [Option.map_some', zero_add, written]
      rw [reverse_write, List.length_reverse]
      have e1 := Buf.write_set str 0 l.reverse 0
      rw [zero_add, List.length_reverse] at e1
      rw [e1]

/-! ## Digit characters and reading back -/

theorem digitChar_lt_ten (d : Int) (h0 : 0 ≤ d) (h1 : d < 10) : digitChar d = d + 48 := by
  simp only [digitChar, toChar, chr, if_pos h1, Char.reduceToNat, Nat.cast_ofNat]
  omega

theorem digitChar_ge_ten (d : Int) (h0 : 10 ≤ d) (h1 : d < 36) : digitChar d = d + 87 := by
  have h : ¬ d < 10 := by omega
  simp only [digitChar, toChar, chr, if_neg h, Char.reduceToNat, Nat.cast_ofNat]
  omega

theorem digitValue_digitChar (d : Int) (h0 : 0 ≤ d) (h1 : d < 36) :
    digitValue (digitChar d) = some d := by
  by_cases h : d < 10
  · rw [digitChar_lt_ten d h0 h]
    simp only [digitValue, chr, Char.reduceToNat, Nat.cast_ofNat]
    rw [if_pos (by omega)]
    congr 1
    omega
  · rw [digitChar_ge_ten d (by omega) h1]
    simp only [digitValue, chr, Char.reduceToNat, Nat.cast_ofNat]
    rw [if_neg (by omega), if_pos (by omega)]
    congr 1
    omega

theorem digitChar_ne_zero (d : Int) (h0 : 0 ≤ d) (h1 : d < 36) : digitChar d ≠ 0 := by
  by_cases h : d < 10
  · rw [digitChar_lt_ten d h0 h]; omega
  · rw [digitChar_ge_ten d (by omega) h1]; omega

theorem digitChar_eq_zero_char (d : Int) (h0 : 0 ≤ d) (h1 : d < 36) (h : digitChar d = chr '0') :
    d = 0 := by
  simp only [chr, Char.reduceToNat, Nat.cast_ofNat] at h
  by_cases h10 : d < 10
  · rw [digitChar_lt_ten d h0 h10] at h; omega
  · rw [digitChar_ge_ten d (by omega) h1] at h; omega

/-- Reading the characters of a digit list, most significant first, gives
its value. -/
theorem parse_digits (b : Nat) (hb2 : b ≤ 36) (l : List Nat) (hl : ∀ d ∈ l, d < b) :
    (l.reverse.map (fun (d : Nat) => digitChar (d : Int))).foldl (parseStep (b : Int)) (some 0) =
      some ((Nat.ofDigits b l : Nat) : Int) := by
  induction l with
  | nil => simp [Nat.ofDigits]
  | cons d l ih =>
    have hd : d < b := hl d (List.mem_cons_self d l)
    have hl2 : ∀ x ∈ l, x < b := fun x hx => hl x (List.mem_cons_of_mem d hx)
    rw [List.reverse_cons, List.map_append, List.foldl_append, ih hl2]
    simp only [List.map_cons, List.map_nil, List.foldl_cons, List.foldl_nil, parseStep]
    rw [digitValue_digitChar (d : Int) (by omega) (by omega)]
    simp only
    rw [if_pos (by exact_mod_cast hd), Nat.ofDigits_cons]
    congr 1
    push_cast
    ring

theorem digitChars_reverse (b n : Nat) :
    (digitChars b n).reverse = (Nat.digits b n).reverse.map (fun (d : Nat) => digitChar (d : Int)) := by
  simp [digitChars, List.map_reverse]

/-- The loop of `my_strlen` stops at the first NUL. -/
theorem strlen_loop_spec (fuel : Nat) : ∀ (str : Buf) (i L : Int), i ≤ L → L - i < fuel →
    (∀ j, i ≤ j → j < L → str j ≠ 0) → str L = 0 → strlen_loop fuel str i = some L := by
  induction fuel with
  | zero => intro str i L h1 h2; simp at h2; omega
  | succ fuel ih =>
    intro str i L h1 h2 h3 h4
    by_cases hi : i = L
    · subst hi
      simp [strlen_loop, h4]
    · have hne : str i ≠ 0 := h3 i (le_refl i) (by omega)
      simp only [strlen_loop, if_pos hne]
      exact ih str (i + 1) L (by omega) (by push_cast at h2; omega)
        (fun j hj1 hj2 => h3 j (by omega) hj2) h4

theorem text_mem (str : Buf) (len j : Int) (h0 : 0 ≤ j) (h1 : j < len) :
    str j ∈ str.text len := by
  simp only [Buf.text, List.mem_map, List.mem_range]
  exact ⟨j.toNat, by omega, by rw [Int.toNat_of_nonneg h0]⟩

/-- A buffer whose first `len` bytes are not NUL and whose byte `len` is NUL
holds a C string of length `len`. -/
theorem my_strlen_of_text (str : Buf) (len : Int) (h0 : 0 ≤ len) (h1 : len ≤ INT_MAX)
    (hne : ∀ c ∈ str.text len, c ≠ 0) (hz : str len = 0) : my_strlen (some str) = some len := by
  unfold my_strlen
  simp only
  apply strlen_loop_spec _ str 0 len h0
  · unfold INT_MAX at h1; omega
  · intro j hj0 hj1
    exact hne _ (text_mem str len j hj0 hj1)
  · exact hz

/-! ## The digit loops on non-negative numbers -/

theorem length_digitChars (b n : Nat) : (digitChars b n).length = (Nat.digits b n).length := by
  simp [digitChars]

theorem digitChars_step (b n : Nat) (hb : 2 ≤ b) (hn : 0 < n) :
    digitChars b n = digitChar ((n % b : Nat) : Int) :: digitChars b (n / b) := by
  unfold digitChars
  rw [Nat.digits_def' (by omega) hn, List.map_cons]

theorem div_lt_two_pow (n b fuel : Nat) (hb : 2 ≤ b) (h : n < 2 ^ (fuel + 1)) :
    n / b < 2 ^ fuel := by
  apply Nat.div_lt_of_lt_mul
  calc n < 2 ^ (fuel + 1) := h
    _ = 2 * 2 ^ fuel := by ring
    _ ≤ b * 2 ^ fuel := Nat.mul_le_mul_right _ hb

theorem wrap32_of_range (x : Int) (h1 : -2147483648 ≤ x) (h2 : x ≤ 2147483647) :
    wrap32 x = x := by
  unfold wrap32
  omega

theorem toUnsigned_of_range (x : Int) (h1 : 0 ≤ x) (h2 : x < 4294967296) :
    toUnsigned x = x := by
  unfold toUnsigned
  omega

/-- On a non-negative number the digit loop of `my_itoa` writes the digits,
least significant first. -/
theorem itoa_list_nat (fuel : Nat) : ∀ (n b : Nat), 2 ≤ b → n < 2 ^ fuel →
    itoa_list fuel (n : Int) (b : Int) = some (digitChars b n) := by
  induction fuel with
  | zero =>
    intro n b _ hn
    have h0 : n = 0 := by simpa using hn
    subst h0
    simp [itoa_list, digitChars]
  | succ fuel ih =>
    intro n b hb hn
    by_cases h0 : n = 0
    · subst h0
      simp [itoa_list, digitChars]
    · have hn0 : ¬ ((n : Int) = 0) := by exact_mod_cast h0
      have hb0 : ¬ (((b : Int) = 0) ∨ ((n : Int) = INT_MIN ∧ (b : Int) = -1)) := by
        omega
      have hpos : 0 < n := by omega
      rw [digitChars_step b n hb hpos]
      simp only [itoa_list, if_neg hn0, if_neg hb0]
      rw [← Int.ofNat_tmod, ← Int.ofNat_tdiv, ih (n / b) b hb (div_lt_two_pow n b fuel hb hn)]
      rfl

/-- The digit loop of `my_uitoa` does the same, for a base below `2^31`. -/
theorem uitoa_list_nat (fuel : Nat) : ∀ (n b : Nat), 2 ≤ b → b < 2147483648 → n < 2 ^ fuel →
    uitoa_list fuel (n : Int) (b : Int) = some (digitChars b n) := by
  induction fuel with
  | zero =>
    intro n b _ _ hn
    have h0 : n = 0 := by simpa using hn
    subst h0
    simp [uitoa_list, digitChars]
  | succ fuel ih =>
    intro n b hb hb2 hn
    by_cases h0 : n = 0
    · subst h0
      simp [uitoa_list, digitChars]
    · have hn0 : ¬ ((n : Int) = 0) := by exact_mod_cast h0
      have hu : toUnsigned (b : Int) = (b : Int) := toUnsigned_of_range _ (by omega) (by omega)
      have hb0 : ¬ ((b : Int) = 0) := by omega
      have hlt : n % b < b := Nat.mod_lt _ (by omega)
      have hw : wrap32 (((n % b : Nat) : Int)) = ((n % b : Nat) : Int) :=
        wrap32_of_range _ (by omega) (by omega)
      have hpos : 0 < n := by omega
      rw [digitChars_step b n hb hpos]
      simp only [uitoa_list, if_neg hn0, hu, if_neg hb0]
      rw [← Int.ofNat_emod, ← Int.ofNat_ediv, hw, ih (n / b) b hb hb2 (div_lt_two_pow n b fuel hb hn)]
      rfl

theorem itoa_text_nat (n b : Nat) (hn : 0 < n) (hn2 : n < 2 ^ 32) (hb : 2 ≤ b) :
    itoa_text (n : Int) (b : Int) = some (digitChars b n).reverse := by
  have hn0 : ¬ ((n : Int) = 0) := by omega
  have hneg : ¬ ((n : Int) < 0 ∧ (b : Int) = 10) := by omega
  simp only [itoa_text, if_neg hn0, if_neg hneg, itoa_list_nat 32 n b hb hn2, Option.map_some']

theorem uitoa_text_nat (n b : Nat) (hn : 0 < n) (hn2 : n < 2 ^ 32) (hb : 2 ≤ b)
    (hb2 : b < 2147483648) :
    uitoa_text (n : Int) (b : Int) = some (digitChars b n).reverse := by
  have hn0 : ¬ ((n : Int) = 0) := by omega
  simp only [uitoa_text, if_neg hn0, uitoa_list_nat 32 n b hb hb2 hn2, Option.map_some']

/-- A negative number above `INT_MIN` in base 10: the sign, then the digits
of the magnitude. -/
theorem itoa_text_neg (v : Int) (h1 : INT_MIN < v) (h2 : v < 0) :
    itoa_text v 10 = some (chr '-' :: (digitChars 10 (-v).toNat).reverse) := by
  unfold INT_MIN at h1
  have hv0 : ¬ (v = 0) := by omega
  have hw : wrap32 (-v) = (((-v).toNat : Nat) : Int) := by
    rw [wrap32_of_range _ (by omega) (by omega)]; omega
  have hlt : (-v).toNat < 2 ^ 32 := by
    have : (2 : Nat) ^ 32 = 4294967296 := by norm_num
    omega
  have h10 := itoa_list_nat 32 (-v).toNat 10 (by omega) hlt
  simp only [Nat.cast_ofNat] at h10
  simp only [itoa_text, if_neg hv0, h2, and_self, if_true, hw, h10, Option.map_some',
    List.reverse_append, List.reverse_cons, List.reverse_nil, List.nil_append,
    List.singleton_append]

theorem digits_length_le (b : Nat) (hb : 2 ≤ b) : ∀ (k n : Nat), n < b ^ k →
    (Nat.digits b n).length ≤ k := by
  intro k
  induction k with
  | zero =>
    intro n h
    have h0 : n = 0 := by simpa using h
    subst h0
    simp
  | succ k ih =>
    intro n h
    by_cases h0 : n = 0
    · subst h0; simp
    · rw [Nat.digits_def' (by omega) (by omega), List.length_cons]
      have h1 : n / b < b ^ k := by
        apply Nat.div_lt_of_lt_mul
        calc n < b ^ (k + 1) := h
          _ = b * b ^ k := by ring
      have := ih (n / b) h1
      omega

theorem digits_length_le_32 (b n : Nat) (hb : 2 ≤ b) (hn : n < 2 ^ 32) :
    (Nat.digits b n).length ≤ 32 :=
  digits_length_le b hb 32 n (lt_of_lt_of_le hn (Nat.pow_le_pow_left hb 32))

theorem digitChars_ne_zero (b n : Nat) (hb : 2 ≤ b) (hb2 : b ≤ 36) :
    ∀ c ∈ (digitChars b n).reverse, c ≠ 0 := by
  intro c hc
  simp only [digitChars, List.mem_reverse, List.mem_map] at hc
  obtain ⟨d, hd, rfl⟩ := hc
  have := Nat.digits_lt_base (by omega : 1 < b) hd
  exact digitChar_ne_zero _ (by omega) (by omega)

theorem digitValue_digitChars (b n : Nat) (hb : 2 ≤ b) (hb2 : b ≤ 36) :
    (digitChars b n).reverse.map digitValue =
      (Nat.digits b n).reverse.map (fun (d : Nat) => some (d : Int)) := by
  rw [digitChars_reverse, List.map_map]
  apply List.map_congr_left
  intro d hd
  have := Nat.digits_lt_base (by omega : 1 < b) (List.mem_reverse.mp hd)
  exact digitValue_digitChar _ (by omega) (by omega)

theorem head_digitChars (b n : Nat) (hb : 2 ≤ b) (hb2 : b ≤ 36) (hn : 0 < n) :
    (digitChars b n).reverse.head? ≠ some (chr '0') := by
  have hne : Nat.digits b n ≠ [] := Nat.digits_ne_nil_iff_ne_zero.mpr (by omega)
  have hlast := Nat.getLast_digit_ne_zero b (by omega : n ≠ 0)
  have hmem := List.getLast_mem hne
  have hlt := Nat.digits_lt_base (by omega : 1 < b) hmem
  rw [List.head?_reverse, digitChars, List.getLast?_map, List.getLast?_eq_getLast _ hne]
  simp only [Option.map_some', ne_eq, Option.some.injEq]
  intro h
  have := digitChar_eq_zero_char _ (by omega) (by omega) h
  exact hlast (by exact_mod_cast this)

theorem parseBack_digitChars (b n : Nat) (hb : 2 ≤ b) (hb2 : b ≤ 36) (hn : 0 < n) :
    parseBack (digitChars b n).reverse (b : Int) = some (n : Int) := by
  have hne : (digitChars b n).reverse ≠ [] := by
    have : Nat.digits b n ≠ [] := Nat.digits_ne_nil_iff_ne_zero.mpr (by omega)
    simpa [digitChars] using this
  unfold parseBack
  rw [if_neg hne, digitChars_reverse,
    parse_digits b hb2 (Nat.digits b n) (fun d hd => Nat.digits_lt_base (by omega) hd),
    Nat.ofDigits_digits]

theorem parseBack_zero (b : Int) (hb : 2 ≤ b) : parseBack [chr '0'] b = some 0 := by
  have hd : digitValue (chr '0') = some 0 := by decide
  have hne : ¬ ([chr '0'] = ([] : List Int)) := by simp
  simp only [parseBack, if_neg hne, List.foldl_cons, List.foldl_nil, parseStep, hd]
  rw [if_pos (by omega)]
  simp

/-! ## Claims on `my_itoa` and `my_uitoa` -/

/-- C1: for every non-negative 32-bit `n` and base `2 ≤ b ≤ 36`, `my_itoa`
returns, and reading its text back as a base-`b` numeral gives `n`. -/
theorem my_itoa_roundtrip (n b : Int) (str : Buf) (hn : 0 ≤ n) (hn2 : n ≤ INT_MAX)
    (hb : 2 ≤ b) (hb2 : b ≤ 36) :
    ∃ out len, my_itoa n str b = some (out, len) ∧ parseBack (out.text len) b = some n := by
  unfold INT_MAX at hn2
  obtain ⟨n', rfl⟩ := Int.eq_ofNat_of_zero_le hn
  obtain ⟨b', rfl⟩ := Int.eq_ofNat_of_zero_le (by omega : (0 : Int) ≤ b)
  by_cases h0 : n' = 0
  · subst h0
    refine ⟨(written str [chr '0']).1, (written str [chr '0']).2, ?_, ?_⟩
    · rw [my_itoa_eq]; rfl
    · rw [written_text]; exact parseBack_zero _ hb
  · refine ⟨(written str (digitChars b' n').reverse).1, (written str (digitChars b' n').reverse).2,
      ?_, ?_⟩
    · rw [my_itoa_eq, itoa_text_nat n' b' (by omega) (by norm_num; omega) (by omega)]; rfl
    · rw [written_text]
      exact parseBack_digitChars b' n' (by omega) (by omega) (by omega)

theorem my_itoa_roundtrip_witness :
    ∃ out len, my_itoa 12345 (fun _ => 0) 36 = some (out, len) ∧
      parseBack (out.text len) 36 = some 12345 :=
  my_itoa_roundtrip 12345 36 (fun _ => 0) (by decide) (by decide) (by decide) (by decide)

/-- C2: for every base (in particular `2 ≤ b ≤ 36`), `my_itoa(0, b)` and
`my_uitoa(0, b)` write the one-character text "0", NUL-terminated, and
return length 1. -/
theorem my_itoa_my_uitoa_zero (b : Int) (str : Buf) :
    (∃ out, my_itoa 0 str b = some (out, 1) ∧ out.text 1 = bytes "0" ∧ out 1 = 0) ∧
    (∃ out, my_uitoa 0 str b = some (out, 1) ∧ out.text 1 = bytes "0" ∧ out 1 = 0) := by
  refine ⟨⟨(written str [chr '0']).1, ?_, ?_, ?_⟩, ⟨(written str [chr '0']).1, ?_, ?_, ?_⟩⟩
  · rw [my_itoa_eq]; rfl
  · exact written_text str [chr '0']
  · exact written_nul str [chr '0']
  · rw [my_uitoa_eq]; rfl
  · exact written_text str [chr '0']
  · exact written_nul str [chr '0']

/-- The text of `my_itoa` on a negative number above `INT_MIN`, base 10: the
sign, then the decimal digits of the magnitude. -/
theorem my_itoa_negative (v : Int) (str : Buf) (h1 : INT_MIN < v) (h2 : v < 0) :
    textOf (my_itoa v str 10) = some (chr '-' :: (digitChars 10 (-v).toNat).reverse) := by
  rw [my_itoa_eq, itoa_text_neg v h1 h2]
  simp only [textOf, Option.map_some', written_text]

/-- C3, at the failing input: on `INT_MIN` in base 10 the negation wraps to
`INT_MIN` again, the remainders are negative, and the text is
`-./,),(-*,(` and not `-2147483648`. -/
theorem my_itoa_int_min (str : Buf) :
    textOf (my_itoa INT_MIN str 10) = some (bytes "-./,),(-*,(") ∧
    textOf (my_itoa INT_MIN str 10) ≠ some (chr '-' :: (digitChars 10 2147483648).reverse) := by
  have h : itoa_text INT_MIN 10 = some (bytes "-./,),(-*,(") := by decide
  have e : textOf (my_itoa INT_MIN str 10) = some (bytes "-./,),(-*,(") := by
    rw [my_itoa_eq, h]
    simp only [textOf, Option.map_some', written_text]
  refine ⟨e, ?_⟩
  rw [e]
  intro hc
  have h2 := congrArg (fun o => o.map (fun l => l.getD 1 0)) hc
  simp only [Option.map_some', Option.some.injEq] at h2
  have h3 : (bytes "-./,),(-*,(").getD 1 0 = 46 := by decide
  rw [h3] at h2
  have h4 : (chr '-' :: (digitChars 10 2147483648).reverse).getD 1 0 = 50 := by
    simp [digitChars, digitChar, toChar, chr]
  rw [h4] at h2
  omega

/-- C4: for every unsigned 32-bit `n` and base `2 ≤ b ≤ 36`, `my_uitoa`
returns; the digit values of its text are the base-`b` digits of `n`, most
significant first (the single digit 0 for `n = 0`); the text has no leading
zero when `n > 0`; and the returned length is the length of the C string
written (no NUL inside, NUL at the end). -/
theorem my_uitoa_repr (n b : Int) (str : Buf) (hn : 0 ≤ n) (hn2 : n < 4294967296)
    (hb : 2 ≤ b) (hb2 : b ≤ 36) :
    ∃ out len, my_uitoa n str b = some (out, len) ∧
      (out.text len).map digitValue =
        (if n = 0 then [some 0]
         else (Nat.digits b.toNat n.toNat).reverse.map (fun (d : Nat) => some (d : Int))) ∧
      (0 < n → (out.text len).head? ≠ some (chr '0')) ∧
      ((out.text len).length : Int) = len ∧
      my_strlen (some out) = some len := by
  obtain ⟨n', rfl⟩ := Int.eq_ofNat_of_zero_le hn
  obtain ⟨b', rfl⟩ := Int.eq_ofNat_of_zero_le (by omega : (0 : Int) ≤ b)
  by_cases h0 : n' = 0
  · subst h0
    refine ⟨(written str [chr '0']).1, (written str [chr '0']).2, ?_, ?_, ?_, ?_, ?_⟩
    · rw [my_uitoa_eq]; rfl
    · rw [written_text]; simp [digitValue, chr]
    · intro h; omega
    · rw [written_text]; rfl
    · apply my_strlen_of_text
      · simp [written]
      · simp [written, INT_MAX]
      · rw [written_text]; simp [chr]
      · exact written_nul _ _
  · have hlen := digits_length_le_32 b' n' (by omega) (by norm_num; omega)
    refine ⟨(written str (digitChars b' n').reverse).1, (written str (digitChars b' n').reverse).2,
      ?_, ?_, ?_, ?_, ?_⟩
    · rw [my_uitoa_eq, uitoa_text_nat n' b' (by omega) (by norm_num; omega) (by omega) (by omega)]
      rfl
    · rw [written_text, if_neg (by omega)]
      simp only [Int.toNat_ofNat]
      exact digitValue_digitChars b' n' (by omega) (by omega)
    · intro _
      rw [written_text]
      exact head_digitChars b' n' (by omega) (by omega) (by omega)
    · rw [written_text]; rfl
    · apply my_strlen_of_text
      · simp [written]
      · simp only [written, List.length_reverse, length_digitChars, INT_MAX]; omega
      · rw [written_text]; exact digitChars_ne_zero b' n' (by omega) (by omega)
      · exact written_nul _ _

theorem my_uitoa_repr_witness :
    ∃ out len, my_uitoa 255 (fun _ => 0) 16 = some (out, len) ∧
      (out.text len).map digitValue =
        (if (255 : Int) = 0 then [some 0]
         else (Nat.digits (16 : Int).toNat (255 : Int).toNat).reverse.map
           (fun (d : Nat) => some (d : Int))) ∧
      (0 < (255 : Int) → (out.text len).head? ≠ some (chr '0')) ∧
      ((out.text len).length : Int) = len ∧
      my_strlen (some out) = some len :=
  my_uitoa_repr 255 16 (fun _ => 0) (by decide) (by decide) (by decide) (by decide)

/-! ## The fixed-point conversion writes the list-level text -/

theorem copy_loop_eq (n : Nat) : ∀ (str : Buf) (pos : Int) (src : Buf) (i : Int),
    copy_loop n str pos src i =
      (str.write pos ((List.range n).map (fun (k : Nat) => src (i + (k : Int)))), pos + (n : Int)) := by
  induction n with
  | zero => intro str pos src i; simp [copy_loop, Buf.write]
  | succ n ih =>
    intro str pos src i
    have e1 : List.map (fun (k : Nat) => src (i + 1 + (k : Int))) (List.range n) =
        List.map ((fun (k : Nat) => src (i + (k : Int))) ∘ Nat.succ) (List.range n) := by
      apply List.map_congr_left
      intro k _
      simp only [Function.comp, Nat.succ_eq_add_one]
      congr 1
      push_cast
      omega
    have e2 : pos + 1 + (n : Int) = pos + ((n + 1 : Nat) : Int) := by push_cast; omega
    simp only [copy_loop]
    rw [ih, List.range_succ_eq_map, List.map_cons, List.map_map, e1, e2]
    simp [Buf.write]

theorem copy_loop_text (str : Buf) (pos : Int) (src : Buf) (len : Int) :
    copy_loop len.toNat str pos src 0 = (str.write pos (src.text len), pos + (len.toNat : Int)) := by
  rw [copy_loop_eq]
  simp [Buf.text]

theorem fill_loop_eq (n : Nat) : ∀ (str : Buf) (pos c : Int),
    fill_loop n str pos c = (str.write pos (List.replicate n c), pos + (n : Int)) := by
  induction n with
  | zero => intro str pos c; simp [fill_loop, Buf.write]
  | succ n ih =>
    intro str pos c
    simp only [fill_loop]
    rw [ih, List.replicate_succ]
    simp only [Buf.write]
    congr 1
    push_cast
    omega

theorem fits_map_written (cap : Int) (o : Option (List Int)) (str : Buf) :
    fits cap (o.map (written str)) = (fitsText cap o).map (written str) := by
  cases o with
  | none => rfl
  | some t =>
    simp only [Option.map_some', Option.some_bind, fits, fitsText, written]
    split_ifs <;> rfl

theorem dtoa_int_eq (int_part : Int) (str : Buf) (l : List Int) :
    dtoa_int int_part (str.write 0 l) (l.length : Int) =
      (dtoa_int_text int_part).map
        (fun t => (str.write 0 (l ++ t), ((l ++ t).length : Int))) := by
  unfold dtoa_int dtoa_int_text
  by_cases h0 : int_part = 0
  · rw [if_pos h0, if_pos h0]
    have e := Buf.write_set str 0 l (chr '0')
    rw [zero_add] at e
    simp only [Option.map_some', e, List.length_append, List.length_singleton]
    push_cast
    rfl
  · rw [if_neg h0, if_neg h0, my_itoa_eq, fits_map_written]
    cases fitsText 32 (itoa_text int_part 10) with
    | none => rfl
    | some t =>
      simp only [Option.map_some']
      have e : (written uninit t) = ((written uninit t).1, (t.length : Int)) := rfl
      rw [e]
      simp only
      rw [copy_loop_text]
      have e2 : (written uninit t).1.text (t.length : Int) = t := written_text uninit t
      rw [e2, Buf.write_append, zero_add]
      simp

theorem dtoa_frac_eq (frac_int precision : Int) (str : Buf) (l : List Int) :
    dtoa_frac frac_int precision (str.write 0 l) (l.length : Int) =
      (dtoa_frac_text frac_int precision).map
        (fun t => (str.write 0 (l ++ t), ((l ++ t).length : Int))) := by
  unfold dtoa_frac dtoa_frac_text
  cases count_loop 32 frac_int 0 with
  | none => rfl
  | some frac_digits =>
    simp only [Option.some_bind]
    by_cases h0 : frac_int = 0
    · rw [if_pos h0, if_pos h0, fill_loop_eq]
      simp only [Option.map_some', Buf.write_append, zero_add, List.length_append,
        List.length_replicate]
      push_cast
      rfl
    · rw [if_neg h0, if_neg h0, my_itoa_eq, fits_map_written]
      cases fitsText 32 (itoa_text frac_int 10) with
      | none => rfl
      | some t =>
        simp only [Option.map_some']
        have e : (written uninit t) = ((written uninit t).1, (t.length : Int)) := rfl
        rw [e]
        simp only
        rw [copy_loop_text, fill_loop_eq]
        have e2 : (written uninit t).1.text (t.length : Int) = t := written_text uninit t
        rw [e2]
        simp only [Buf.write_append, zero_add, List.length_append, List.length_replicate]
        simp [add_assoc]

/-- The function `my_dtoa` writes the text `dtoa_text` and its NUL, and
returns the length of the text. -/
theorem my_dtoa_eq (fl : ℚ → ℚ) (num : ℚ) (str : Buf) (precision : Int) :
    my_dtoa fl num str precision = (dtoa_text fl num precision).map (written str) := by
  have key : ∀ (sign : List Int) (num1 : ℚ),
      (match dtoa_int (castInt num1) (str.write 0 sign) (sign.length : Int) with
        | none => none
        | some (str2, pos2) =>
          if precision > 0 then
            match dtoa_frac (dtoa_frac_int fl num1 precision) precision
                (str2.set pos2 (chr '.')) (pos2 + 1) with
            | none => none
            | some (str4, pos4) => some (str4.set pos4 0, pos4)
          else some (str2.set pos2 0, pos2)) =
      ((dtoa_int_text (castInt num1)).bind (fun it =>
        if precision > 0 then
          (dtoa_frac_text (dtoa_frac_int fl num1 precision) precision).map
            (fun ft => sign ++ it ++ chr '.' :: ft)
        else some (sign ++ it))).map (written str) := by
    intro sign num1
    rw [dtoa_int_eq]
    cases dtoa_int_text (castInt num1) with
    | none => rfl
    | some it =>
      simp only [Option.map_some', Option.some_bind]
      by_cases hp : precision > 0
      · rw [if_pos hp, if_pos hp]
        have e := Buf.write_set str 0 (sign ++ it) (chr '.')
        rw [zero_add] at e
        have e2 : ((sign ++ it).length : Int) + 1 = ((sign ++ it ++ [chr '.']).length : Int) := by
          simp [add_assoc]
        rw [e, e2, dtoa_frac_eq]
        cases dtoa_frac_text (dtoa_frac_int fl num1 precision) precision with
        | none => rfl
        | some ft =>
          simp only [Option.map_some']
          have e3 := Buf.write_set str 0 (sign ++ it ++ [chr '.'] ++ ft) 0
          rw [zero_add] at e3
          rw [e3]
          simp [written]
      · rw [if_neg hp, if_neg hp]
        have e3 := Buf.write_set str 0 (sign ++ it) 0
        rw [zero_add] at e3
        rw [e3]
        simp [written]
  unfold my_dtoa dtoa_text
  by_cases hneg : num < 0
  · simp only [if_pos hneg]
    have := key [chr '-'] (-num)
    simpa [Buf.write] using this
  · simp only [if_neg hneg]
    have := key [] num
    simpa [Buf.write] using this

/-! ## Facts on the pieces of `my_dtoa` -/

theorem castInt_range (x : ℚ) : INT_MIN ≤ castInt x ∧ castInt x ≤ INT_MAX := by
  unfold castInt
  simp only
  by_cases h : INT_MIN ≤ (if 0 ≤ x then ⌊x⌋ else ⌈x⌉) ∧ (if 0 ≤ x then ⌊x⌋ else ⌈x⌉) ≤ INT_MAX
  · rw [if_pos h]; exact h
  · rw [if_neg h]; unfold INT_MIN INT_MAX; omega

theorem castInt_of_floor (x : ℚ) (k : Int) (h0 : 0 ≤ x) (hk : ⌊x⌋ = k) (h2 : k ≤ INT_MAX) :
    castInt x = k := by
  have hk0 : 0 ≤ k := by rw [← hk]; exact Int.floor_nonneg.mpr h0
  unfold castInt
  simp only [if_pos h0, hk]
  rw [if_pos]
  unfold INT_MIN
  constructor
  · omega
  · exact h2

theorem castInt_nonneg (x : ℚ) (h0 : 0 ≤ x) (h1 : x < 2147483648) :
    castInt x = ⌊x⌋ ∧ 0 ≤ ⌊x⌋ ∧ ⌊x⌋ ≤ INT_MAX := by
  have hk0 : 0 ≤ ⌊x⌋ := Int.floor_nonneg.mpr h0
  have hk1 : ⌊x⌋ < 2147483648 := by
    rw [Int.floor_lt]; exact_mod_cast h1
  have hk2 : ⌊x⌋ ≤ INT_MAX := by unfold INT_MAX; omega
  exact ⟨castInt_of_floor x _ h0 rfl hk2, hk0, hk2⟩

theorem digits_length_le_10 (n : Nat) (h : n ≤ 2147483648) : (Nat.digits 10 n).length ≤ 10 :=
  digits_length_le 10 (by omega) 10 n (by norm_num; omega)

theorem itoa_text_pos (k : Int) (h0 : 0 < k) (h1 : k ≤ INT_MAX) :
    itoa_text k 10 = some (decimal k.toNat) := by
  unfold INT_MAX at h1
  obtain ⟨n, rfl⟩ := Int.eq_ofNat_of_zero_le (le_of_lt h0)
  have h := itoa_text_nat n 10 (by omega) (by norm_num; omega) (by omega)
  simp only [Nat.cast_ofNat] at h
  rw [h]
  simp only [decimal, Int.toNat_ofNat]
  rw [if_neg (by omega)]

theorem length_decimal (n : Nat) (h : n ≤ 2147483648) : (decimal n).length ≤ 10 := by
  unfold decimal
  split_ifs
  · simp
  · rw [List.length_reverse, length_digitChars]
    exact digits_length_le_10 n h

/-- In base 10 `my_itoa` returns on every 32-bit value, with at most 11
characters. -/
theorem itoa_text_total (v : Int) (h1 : INT_MIN ≤ v) (h2 : v ≤ INT_MAX) :
    ∃ t, itoa_text v 10 = some t ∧ t.length ≤ 11 := by
  by_cases hz : v = 0
  · subst hz
    exact ⟨[chr '0'], rfl, by simp⟩
  · by_cases hpos : 0 < v
    · refine ⟨decimal v.toNat, itoa_text_pos v hpos h2, ?_⟩
      have := length_decimal v.toNat (by unfold INT_MAX at h2; omega)
      omega
    · by_cases hmin : v = INT_MIN
      · subst hmin
        exact ⟨bytes "-./,),(-*,(", by decide, by decide⟩
      · have hlt : INT_MIN < v := lt_of_le_of_ne h1 (Ne.symm hmin)
        refine ⟨_, itoa_text_neg v hlt (by omega), ?_⟩
        rw [List.length_cons, List.length_reverse, length_digitChars]
        have := digits_length_le_10 (-v).toNat (by unfold INT_MIN at hlt; omega)
        omega

theorem fitsText_of_le (t : List Int) (cap : Int) (h : (t.length : Int) < cap) :
    fitsText cap (some t) = some t := by
  simp [fitsText, h]

theorem dtoa_int_text_nonneg (k : Int) (h0 : 0 ≤ k) (h1 : k ≤ INT_MAX) :
    dtoa_int_text k = some (decimal k.toNat) := by
  unfold dtoa_int_text
  by_cases hz : k = 0
  · subst hz
    rfl
  · rw [if_neg hz, itoa_text_pos k (by omega) h1]
    apply fitsText_of_le
    have := length_decimal k.toNat (by unfold INT_MAX at h1; omega)
    omega

theorem count_loop_total (fuel : Nat) : ∀ (temp d : Int), temp < 10 ^ fuel →
    ∃ r, count_loop fuel temp d = some r := by
  induction fuel with
  | zero =>
    intro temp d h
    simp only [pow_zero] at h
    exact ⟨d, by simp only [count_loop]; rw [if_neg (by omega)]⟩
  | succ fuel ih =>
    intro temp d h
    simp only [count_loop]
    by_cases hpos : temp > 0
    · rw [if_pos hpos]
      apply ih
      have e : Int.tdiv temp 10 = temp / 10 := Int.tdiv_eq_ediv (by omega) (by omega)
      rw [e]
      have : (10 : Int) ^ (fuel + 1) = 10 * 10 ^ fuel := by ring
      rw [this] at h
      omega
    · rw [if_neg hpos]
      exact ⟨d, rfl⟩

/-- The fractional field is produced for every 32-bit `frac_int`. -/
theorem dtoa_frac_text_total (frac_int precision : Int) (h1 : INT_MIN ≤ frac_int)
    (h2 : frac_int ≤ INT_MAX) : ∃ ft, dtoa_frac_text frac_int precision = some ft := by
  unfold dtoa_frac_text
  obtain ⟨d, hd⟩ := count_loop_total 32 frac_int 0 (by unfold INT_MAX at h2; norm_num; omega)
  rw [hd]
  simp only [Option.some_bind]
  by_cases hz : frac_int = 0
  · rw [if_pos hz]; exact ⟨_, rfl⟩
  · rw [if_neg hz]
    obtain ⟨t, ht, hlen⟩ := itoa_text_total frac_int h1 h2
    rw [ht, fitsText_of_le t 32 (by omega)]
    exact ⟨_, rfl⟩

/-! ## Claims on `my_dtoa` -/

theorem textOf_my_dtoa (fl : ℚ → ℚ) (num : ℚ) (str : Buf) (precision : Int) :
    textOf (my_dtoa fl num str precision) = dtoa_text fl num precision := by
  rw [my_dtoa_eq]
  cases dtoa_text fl num precision with
  | none => rfl
  | some t => simp only [textOf, Option.map_some', written_text]

/-- A rounding function with relative error at most `2^-52` moves a value
between 0 and `10^9` by at most `1/1000`. -/
theorem fl_bounds (fl : ℚ → ℚ) (hfl : ∀ y, |fl y - y| ≤ |y| / 2 ^ 52) (y lo hi : ℚ)
    (h0 : 0 ≤ lo) (hlo : lo ≤ y) (hhi : y ≤ hi) (hmax : hi ≤ 1000000000) :
    lo - 1 / 1000 ≤ fl y ∧ fl y ≤ hi + 1 / 1000 := by
  have h := hfl y
  rw [abs_of_nonneg (le_trans h0 hlo), abs_le] at h
  have hy : y / 2 ^ 52 ≤ 1 / 1000 := by
    have : y ≤ 1000000000 := le_trans hhi hmax
    have h52 : (0 : ℚ) < 2 ^ 52 := by positivity
    rw [div_le_iff₀ h52]
    norm_num
    linarith
  constructor <;> linarith [h.1, h.2]

theorem fl_id_exact (y : ℚ) : |id y - y| ≤ |y| / 2 ^ 52 := by
  simp only [id, sub_self, abs_zero]
  positivity

/-- C5, at the failing input: for `x = 1023/1024` and precision 2, under
every rounding with relative error at most `2^-52` (binary64 and exact
arithmetic included), the fraction rounds to 100 and `my_dtoa` writes
`0.100`: three digits after the decimal point, not two. -/
theorem my_dtoa_carry_digits (fl : ℚ → ℚ) (str : Buf)
    (hfl : ∀ y, |fl y - y| ≤ |y| / 2 ^ 52) :
    textOf (my_dtoa fl (1023 / 1024) str 2) = some (bytes "0.100") ∧
    (textOf (my_dtoa fl (1023 / 1024) str 2)).map digitsAfterPoint = some 3 := by
  suffices h : textOf (my_dtoa fl (1023 / 1024) str 2) = some (bytes "0.100") by
    refine ⟨h, ?_⟩
    rw [h]
    decide
  have hc : castInt (1023 / 1024 : ℚ) = 0 :=
    castInt_of_floor _ 0 (by norm_num) (by rw [Int.floor_eq_iff]; norm_num) (by decide)
  have hp : power_loop (2 : Int).toNat 1 = 100 := by decide
  have ha : (1023 / 1024 : ℚ) - ((0 : Int) : ℚ) = 1023 / 1024 := by norm_num
  obtain ⟨a1, a2⟩ := fl_bounds fl hfl (1023 / 1024) (1023 / 1024) (1023 / 1024)
    (by norm_num) (le_refl _) (le_refl _) (by norm_num)
  obtain ⟨b1, b2⟩ := fl_bounds fl hfl (fl (1023 / 1024) * 100) (998 / 10) (1001 / 10)
    (by norm_num) (by linarith) (by linarith) (by norm_num)
  obtain ⟨c1, c2⟩ := fl_bounds fl hfl (fl (fl (1023 / 1024) * 100) + 1 / 2) (1002 / 10)
    (1007 / 10) (by norm_num) (by linarith) (by linarith) (by norm_num)
  have hf : dtoa_frac_int fl (1023 / 1024) 2 = 100 := by
    unfold dtoa_frac_int
    simp only [hc, hp, ha]
    push_cast
    apply castInt_of_floor _ 100 (by linarith) _ (by decide)
    rw [Int.floor_eq_iff]
    push_cast
    constructor <;> linarith
  have hneg : ¬ ((1023 / 1024 : ℚ) < 0) := by norm_num
  rw [textOf_my_dtoa]
  unfold dtoa_text
  simp only [if_neg hneg, hc, hf]
  decide

theorem my_dtoa_carry_digits_witness :
    textOf (my_dtoa id (1023 / 1024) uninit 2) = some (bytes "0.100") ∧
    (textOf (my_dtoa id (1023 / 1024) uninit 2)).map digitsAfterPoint = some 3 :=
  my_dtoa_carry_digits id uninit fl_id_exact

theorem abs_as_ite (x : ℚ) : (if x < 0 then -x else x) = |x| := by
  by_cases h : x < 0
  · rw [if_pos h, abs_of_neg h]
  · rw [if_neg h, abs_of_nonneg (not_lt.mp h)]

/-- The text of `my_dtoa` when the magnitude fits in an `int`: sign, decimal
numeral of the truncated magnitude, and for a positive precision the point
and the fractional field. -/
theorem dtoa_text_in_range (fl : ℚ → ℚ) (x : ℚ) (p : Int) (h : |x| < 2147483648) :
    dtoa_text fl x p =
      if p > 0 then
        (dtoa_frac_text (dtoa_frac_int fl |x| p) p).map
          (fun ft => signText x ++ decimal ⌊|x|⌋.toNat ++ chr '.' :: ft)
      else some (signText x ++ decimal ⌊|x|⌋.toNat) := by
  obtain ⟨hc, hk0, hk1⟩ := castInt_nonneg |x| (abs_nonneg x) h
  unfold dtoa_text
  simp only [abs_as_ite, hc, dtoa_int_text_nonneg _ hk0 hk1, Option.some_bind]
  rfl

theorem decimal_mem (n : Nat) (c : Int) (hc : c ∈ decimal n) : chr '0' ≤ c ∧ c ≤ chr '9' := by
  unfold decimal at hc
  simp only [chr, Char.reduceToNat, Nat.cast_ofNat]
  split_ifs at hc with h0
  · simp only [List.mem_singleton, chr, Char.reduceToNat, Nat.cast_ofNat] at hc
    omega
  · simp only [digitChars, List.mem_reverse, List.mem_map] at hc
    obtain ⟨d, hd, rfl⟩ := hc
    have := Nat.digits_lt_base (by omega : 1 < 10) hd
    rw [digitChar_lt_ten _ (by omega) (by omega)]
    omega

/-- C6: when the magnitude of `x` fits in an `int`, `my_dtoa(x, 0)` returns
and writes the sign (exactly for negative `x`) and the decimal digits of the
truncated magnitude, nothing else: no character of the text is a `.`. -/
theorem my_dtoa_precision_zero (fl : ℚ → ℚ) (x : ℚ) (str : Buf) (h : |x| < 2147483648) :
    textOf (my_dtoa fl x str 0) = some (signText x ++ decimal ⌊|x|⌋.toNat) ∧
    chr '.' ∉ signText x ++ decimal ⌊|x|⌋.toNat := by
  constructor
  · rw [textOf_my_dtoa, dtoa_text_in_range fl x 0 h, if_neg (by omega)]
  · intro hmem
    rw [List.mem_append] at hmem
    rcases hmem with h1 | h1
    · unfold signText at h1
      split_ifs at h1
      · simp [chr] at h1
      · simp at h1
    · have := decimal_mem _ _ h1
      simp only [chr, Char.reduceToNat, Nat.cast_ofNat] at this
      omega

theorem my_dtoa_precision_zero_witness :
    textOf (my_dtoa id (-7 / 2) uninit 0) = some (signText (-7 / 2) ++ decimal ⌊|(-7 / 2 : ℚ)|⌋.toNat) ∧
    chr '.' ∉ signText (-7 / 2) ++ decimal ⌊|(-7 / 2 : ℚ)|⌋.toNat :=
  my_dtoa_precision_zero id (-7 / 2) uninit (by rw [abs_lt]; constructor <;> norm_num)

/-- C8: when the magnitude of `x` fits in an `int`, for every precision
`my_dtoa` returns, and its text is the sign, the decimal digits of the
truncated magnitude, and then either nothing or the decimal point and the
fractional field: the integer digits never depend on the fraction. -/
theorem my_dtoa_integer_part (fl : ℚ → ℚ) (x : ℚ) (str : Buf) (p : Int)
    (h : |x| < 2147483648) :
    ∃ rest, textOf (my_dtoa fl x str p) = some (signText x ++ decimal ⌊|x|⌋.toNat ++ rest) ∧
      (rest = [] ∨ rest.head? = some (chr '.')) := by
  rw [textOf_my_dtoa, dtoa_text_in_range fl x p h]
  by_cases hp : p > 0
  · rw [if_pos hp]
    obtain ⟨h1, h2⟩ := castInt_range (fl (fl (fl (|x| - ((castInt |x| : Int) : ℚ)) *
      ((power_loop p.toNat 1 : Int) : ℚ)) + 1 / 2))
    obtain ⟨ft, hft⟩ := dtoa_frac_text_total (dtoa_frac_int fl |x| p) p h1 h2
    rw [hft]
    exact ⟨chr '.' :: ft, rfl, Or.inr rfl⟩
  · rw [if_neg hp]
    exact ⟨[], by simp, Or.inl rfl⟩

theorem my_dtoa_integer_part_witness :
    ∃ rest, textOf (my_dtoa id (9999995 / 10000000) uninit 2) =
        some (signText (9999995 / 10000000) ++ decimal ⌊|(9999995 / 10000000 : ℚ)|⌋.toNat ++ rest) ∧
      (rest = [] ∨ rest.head? = some (chr '.')) :=
  my_dtoa_integer_part id (9999995 / 10000000) uninit 2
    (by rw [abs_lt]; constructor <;> norm_num)

/-- The example of C8: 0.9999995 at precision 2 rounds its fraction to 100;
the text is `0.100` and the integer digit stays `0`. -/
theorem my_dtoa_no_carry_example (str : Buf) :
    textOf (my_dtoa id (9999995 / 10000000) str 2) = some (bytes "0.100") := by
  have hc : castInt (9999995 / 10000000 : ℚ) = 0 :=
    castInt_of_floor _ 0 (by norm_num) (by rw [Int.floor_eq_iff]; norm_num) (by decide)
  have hp : power_loop (2 : Int).toNat 1 = 100 := by decide
  have hf : dtoa_frac_int id (9999995 / 10000000) 2 = 100 := by
    unfold dtoa_frac_int
    simp only [hc, hp, id]
    exact castInt_of_floor _ 100 (by norm_num) (by rw [Int.floor_eq_iff]; norm_num) (by decide)
  have hneg : ¬ ((9999995 / 10000000 : ℚ) < 0) := by norm_num
  rw [textOf_my_dtoa]
  unfold dtoa_text
  simp only [if_neg hneg, hc, hf]
  decide

theorem count_loop_digits (fuel : Nat) : ∀ (n : Nat) (d : Int), n < 10 ^ fuel →
    count_loop fuel (n : Int) d = some (d + ((Nat.digits 10 n).length : Int)) := by
  induction fuel with
  | zero =>
    intro n d h
    have h0 : n = 0 := by simpa using h
    subst h0
    simp [count_loop]
  | succ fuel ih =>
    intro n d h
    by_cases h0 : n = 0
    · subst h0
      simp [count_loop]
    · have hpos : (n : Int) > 0 := by omega
      have hlt : n / 10 < 10 ^ fuel := by
        apply Nat.div_lt_of_lt_mul
        calc n < 10 ^ (fuel + 1) := h
          _ = 10 * 10 ^ fuel := by ring
      have e : Int.tdiv (n : Int) 10 = ((n / 10 : Nat) : Int) := by
        rw [Int.ofNat_tdiv]; rfl
      simp only [count_loop, if_pos hpos]
      rw [e, ih (n / 10) (d + 1) hlt, Nat.digits_def' (n := n) (by omega) (by omega)]
      simp only [List.length_cons]
      congr 1
      push_cast
      omega

theorem length_decimal_pos (n : Nat) (h : 0 < n) :
    (decimal n).length = (Nat.digits 10 n).length := by
  unfold decimal
  rw [if_neg (by omega), List.length_reverse, length_digitChars]

/-- The fractional field for a non-negative `frac_int` and a precision of at
least 1: the decimal numeral of `frac_int`, left-padded with `0`. -/
theorem dtoa_frac_text_nonneg (k p : Int) (h0 : 0 ≤ k) (h1 : k ≤ INT_MAX) (hp : 1 ≤ p) :
    dtoa_frac_text k p = some (leftPad p (decimal k.toNat)) := by
  obtain ⟨n, rfl⟩ := Int.eq_ofNat_of_zero_le h0
  unfold dtoa_frac_text
  rw [count_loop_digits 32 n 0 (by unfold INT_MAX at h1; norm_num; omega)]
  simp only [Option.some_bind, Int.toNat_ofNat]
  by_cases hz : n = 0
  · subst hz
    simp only [Nat.cast_zero, if_true, leftPad, decimal, List.length_singleton, Nat.cast_one]
    have e : p.toNat = (p - 1).toNat + 1 := by omega
    rw [e, List.replicate_succ']
  · rw [if_neg (by omega), itoa_text_pos (n : Int) (by omega) h1]
    simp only [Int.toNat_ofNat]
    rw [fitsText_of_le _ 32 (by
      have := length_decimal n (by unfold INT_MAX at h1; omega)
      omega)]
    simp only [Option.map_some', leftPad, length_decimal_pos n (by omega), zero_add]

theorem power_loop_small (p : Nat) (hp : p ≤ 9) : power_loop p 1 = 10 ^ p := by
  interval_cases p <;> rfl

/-- The part of C7 that holds: for `0 ≤ x < 2^31` and `1 ≤ p ≤ 9`, when the
rounded value `y = fl (fl (fl (x - trunc x) * 10^p) + 0.5)` is in the range
of `int`, the text is the integer digits, the point, and the decimal
numeral of `trunc y` left-padded with `0` to `p` characters. -/
theorem my_dtoa_fraction (fl : ℚ → ℚ) (x : ℚ) (str : Buf) (p : Int) (h0 : 0 ≤ x)
    (h1 : x < 2147483648) (hp1 : 1 ≤ p) (hp2 : p ≤ 9)
    (hy0 : 0 ≤ fl (fl (fl (x - (⌊x⌋ : ℚ)) * 10 ^ p.toNat) + 1 / 2))
    (hy1 : fl (fl (fl (x - (⌊x⌋ : ℚ)) * 10 ^ p.toNat) + 1 / 2) < 2147483648) :
    textOf (my_dtoa fl x str p) =
      some (decimal ⌊x⌋.toNat ++ chr '.' ::
        leftPad p (decimal ⌊fl (fl (fl (x - (⌊x⌋ : ℚ)) * 10 ^ p.toNat) + 1 / 2)⌋.toNat)) := by
  have habs : |x| = x := abs_of_nonneg h0
  have hx : |x| < 2147483648 := by rw [habs]; exact h1
  obtain ⟨hc, _, _⟩ := castInt_nonneg x h0 h1
  obtain ⟨hcy, hk0, hk1⟩ := castInt_nonneg _ hy0 hy1
  have hfi : dtoa_frac_int fl x p =
      ⌊fl (fl (fl (x - (⌊x⌋ : ℚ)) * 10 ^ p.toNat) + 1 / 2)⌋ := by
    unfold dtoa_frac_int
    simp only [hc, power_loop_small p.toNat (by omega)]
    push_cast
    exact hcy
  have hs : signText x = [] := by
    unfold signText
    rw [if_neg (not_lt.mpr h0)]
  rw [textOf_my_dtoa, dtoa_text_in_range fl x p hx, if_pos (by omega), habs, hfi,
    dtoa_frac_text_nonneg _ p hk0 hk1 hp1, hs]
  rfl

theorem my_dtoa_fraction_witness :
    textOf (my_dtoa id (1 / 4) uninit 1) =
      some (decimal ⌊(1 / 4 : ℚ)⌋.toNat ++ chr '.' ::
        leftPad 1 (decimal ⌊id (id (id ((1 / 4 : ℚ) - (⌊(1 / 4 : ℚ)⌋ : ℚ)) * 10 ^ (1 : Int).toNat)
          + 1 / 2)⌋.toNat)) :=
  my_dtoa_fraction id (1 / 4) uninit 1 (by norm_num) (by norm_num) (by norm_num) (by norm_num)
    (by
      have hf : ⌊(1 / 4 : ℚ)⌋ = 0 := by rw [Int.floor_eq_iff]; norm_num
      simp only [id, hf]
      norm_num)
    (by
      have hf : ⌊(1 / 4 : ℚ)⌋ = 0 := by rw [Int.floor_eq_iff]; norm_num
      simp only [id, hf]
      norm_num)

theorem digitsAfterPoint_append (pre post : List Int) (h : chr '.' ∉ pre) :
    digitsAfterPoint (pre ++ chr '.' :: post) = post.length := by
  unfold digitsAfterPoint
  induction pre with
  | nil => simp [List.dropWhile]
  | cons c cs ih =>
    have hc : c ≠ chr '.' := fun e => h (by rw [e]; exact List.mem_cons_self _ _)
    have hcs : chr '.' ∉ cs := fun e => h (List.mem_cons_of_mem _ e)
    rw [List.cons_append, List.dropWhile_cons_of_pos (by simpa using hc)]
    exact ih hcs

/-- The part of C5 that holds: under the hypotheses of `my_dtoa_fraction`,
when the rounded fraction `trunc y` stays below `10^p` (no carry), the text
has exactly `p` characters after the decimal point. -/
theorem my_dtoa_digits_after_point (fl : ℚ → ℚ) (x : ℚ) (str : Buf) (p : Int) (h0 : 0 ≤ x)
    (h1 : x < 2147483648) (hp1 : 1 ≤ p) (hp2 : p ≤ 9)
    (hy0 : 0 ≤ fl (fl (fl (x - (⌊x⌋ : ℚ)) * 10 ^ p.toNat) + 1 / 2))
    (hy1 : fl (fl (fl (x - (⌊x⌋ : ℚ)) * 10 ^ p.toNat) + 1 / 2) < 2147483648)
    (hy2 : ⌊fl (fl (fl (x - (⌊x⌋ : ℚ)) * 10 ^ p.toNat) + 1 / 2)⌋.toNat < 10 ^ p.toNat) :
    (textOf (my_dtoa fl x str p)).map digitsAfterPoint = some p.toNat := by
  rw [my_dtoa_fraction fl x str p h0 h1 hp1 hp2 hy0 hy1]
  simp only [Option.map_some', Option.some.injEq]
  rw [digitsAfterPoint_append]
  · unfold leftPad
    rw [List.length_append, List.length_replicate]
    have hlen : (decimal ⌊fl (fl (fl (x - (⌊x⌋ : ℚ)) * 10 ^ p.toNat) + 1 / 2)⌋.toNat).length
        ≤ p.toNat := by
      unfold decimal
      split_ifs
      · simp only [List.length_singleton]; omega
      · rw [List.length_reverse, length_digitChars]
        exact digits_length_le 10 (by omega) p.toNat _ hy2
    omega
  · intro hmem
    have := decimal_mem _ _ hmem
    simp only [chr, Char.reduceToNat, Nat.cast_ofNat] at this
    omega

theorem my_dtoa_digits_after_point_witness :
    (textOf (my_dtoa id (1 / 4) uninit 1)).map digitsAfterPoint = some (1 : Int).toNat := by
  have hf : ⌊(1 / 4 : ℚ)⌋ = 0 := by rw [Int.floor_eq_iff]; norm_num
  have hv : id (id (id ((1 / 4 : ℚ) - (⌊(1 / 4 : ℚ)⌋ : ℚ)) * 10 ^ (1 : Int).toNat) + 1 / 2) = 3 := by
    simp only [id, hf]
    norm_num
  exact my_dtoa_digits_after_point id (1 / 4) uninit 1 (by norm_num) (by norm_num) (by norm_num)
    (by norm_num) (by rw [hv]; norm_num) (by rw [hv]; norm_num)
    (by rw [hv]; simp)

/-- The example of C7: 3.14159 at precision 2 gives `3.14`, for the decimal
value and for the binary64 number nearest to it. -/
theorem my_dtoa_example_pi (str : Buf) :
    textOf (my_dtoa id (314159 / 100000) str 2) = some (bytes "3.14") ∧
    textOf (my_dtoa id (3537115888337719 / 1125899906842624) str 2) = some (bytes "3.14") := by
  have hp : power_loop (2 : Int).toNat 1 = 100 := by decide
  constructor
  · have hc : castInt (314159 / 100000 : ℚ) = 3 :=
      castInt_of_floor _ 3 (by norm_num) (by rw [Int.floor_eq_iff]; norm_num) (by decide)
    have hf : dtoa_frac_int id (314159 / 100000) 2 = 14 := by
      unfold dtoa_frac_int
      simp only [hc, hp, id]
      exact castInt_of_floor _ 14 (by norm_num) (by rw [Int.floor_eq_iff]; norm_num) (by decide)
    have hneg : ¬ ((314159 / 100000 : ℚ) < 0) := by norm_num
    rw [textOf_my_dtoa]
    unfold dtoa_text
    simp only [if_neg hneg, hc, hf]
    decide
  · have hc : castInt (3537115888337719 / 1125899906842624 : ℚ) = 3 :=
      castInt_of_floor _ 3 (by norm_num) (by rw [Int.floor_eq_iff]; norm_num) (by decide)
    have hf : dtoa_frac_int id (3537115888337719 / 1125899906842624) 2 = 14 := by
      unfold dtoa_frac_int
      simp only [hc, hp, id]
      exact castInt_of_floor _ 14 (by norm_num) (by rw [Int.floor_eq_iff]; norm_num) (by decide)
    have hneg : ¬ ((3537115888337719 / 1125899906842624 : ℚ) < 0) := by norm_num
    rw [textOf_my_dtoa]
    unfold dtoa_text
    simp only [if_neg hneg, hc, hf]
    decide

/-- The example of C7 under rounded arithmetic: for every rounding function
with relative error at most `2^-52`, the binary64 number nearest to 3.14159
at precision 2 gives `3.14`. -/
theorem my_dtoa_example_pi_rounded (fl : ℚ → ℚ) (str : Buf)
    (hfl : ∀ y, |fl y - y| ≤ |y| / 2 ^ 52) :
    textOf (my_dtoa fl (3537115888337719 / 1125899906842624) str 2) = some (bytes "3.14") := by
  have hp : power_loop (2 : Int).toNat 1 = 100 := by decide
  have hc : castInt (3537115888337719 / 1125899906842624 : ℚ) = 3 :=
    castInt_of_floor _ 3 (by norm_num) (by rw [Int.floor_eq_iff]; norm_num) (by decide)
  have ha : (3537115888337719 / 1125899906842624 : ℚ) - ((3 : Int) : ℚ) =
      159416167809847 / 1125899906842624 := by norm_num
  obtain ⟨a1, a2⟩ := fl_bounds fl hfl (159416167809847 / 1125899906842624) (1415 / 10000)
    (1416 / 10000)
    (by norm_num) (by norm_num) (by norm_num) (by norm_num)
  obtain ⟨b1, b2⟩ := fl_bounds fl hfl (fl (159416167809847 / 1125899906842624) * 100)
    (1405 / 100) (1426 / 100) (by norm_num) (by linarith) (by linarith) (by norm_num)
  obtain ⟨c1, c2⟩ := fl_bounds fl hfl
    (fl (fl (159416167809847 / 1125899906842624) * 100) + 1 / 2)
    (14549 / 1000) (14761 / 1000) (by norm_num) (by linarith) (by linarith) (by norm_num)
  have hf : dtoa_frac_int fl (3537115888337719 / 1125899906842624) 2 = 14 := by
    unfold dtoa_frac_int
    simp only [hc, hp, ha]
    push_cast
    apply castInt_of_floor _ 14 (by linarith) _ (by decide)
    rw [Int.floor_eq_iff]
    push_cast
    constructor <;> linarith
  have hneg : ¬ ((3537115888337719 / 1125899906842624 : ℚ) < 0) := by norm_num
  rw [textOf_my_dtoa]
  unfold dtoa_text
  simp only [if_neg hneg, hc, hf]
  decide

theorem my_dtoa_example_pi_rounded_witness :
    textOf (my_dtoa id (3537115888337719 / 1125899906842624) uninit 2) = some (bytes "3.14") :=
  my_dtoa_example_pi_rounded id uninit fl_id_exact

/-- C7, at the failing input: at precision 10 the loop that computes `power`
overflows the 32-bit `int` (`10^10` wraps to 1410065408), so for `x = 0.5`,
under every rounding with relative error at most `2^-52`, the text is
`0.0705032704` and not `0.5000000000`. -/
theorem my_dtoa_precision_ten (fl : ℚ → ℚ) (str : Buf)
    (hfl : ∀ y, |fl y - y| ≤ |y| / 2 ^ 52) :
    power_loop (10 : Int).toNat 1 = 1410065408 ∧
    textOf (my_dtoa fl (1 / 2) str 10) = some (bytes "0.0705032704") := by
  have hp : power_loop (10 : Int).toNat 1 = 1410065408 := by decide
  have hc : castInt (1 / 2 : ℚ) = 0 :=
    castInt_of_floor _ 0 (by norm_num) (by rw [Int.floor_eq_iff]; norm_num) (by decide)
  have ha : (1 / 2 : ℚ) - ((0 : Int) : ℚ) = 1 / 2 := by norm_num
  have h1 := hfl (1 / 2)
  rw [abs_of_nonneg (by norm_num : (0 : ℚ) ≤ 1 / 2), abs_le] at h1
  obtain ⟨a1, a2⟩ := h1
  have a3 : (1 / 2 : ℚ) / 2 ^ 52 * 1410065408 ≤ 1 / 1000 := by norm_num
  obtain ⟨b1, b2⟩ := fl_bounds fl hfl (fl (1 / 2) * 1410065408) (705032704 - 1 / 1000)
    (705032704 + 1 / 1000) (by norm_num) (by linarith) (by linarith) (by norm_num)
  obtain ⟨c1, c2⟩ := fl_bounds fl hfl (fl (fl (1 / 2) * 1410065408) + 1 / 2)
    (705032704 + 4 / 10) (705032704 + 6 / 10) (by norm_num) (by linarith) (by linarith)
    (by norm_num)
  have hf : dtoa_frac_int fl (1 / 2) 10 = 705032704 := by
    unfold dtoa_frac_int
    simp only [hc, hp, ha]
    push_cast
    apply castInt_of_floor _ 705032704 (by linarith) _ (by decide)
    rw [Int.floor_eq_iff]
    push_cast
    constructor <;> linarith
  have hneg : ¬ ((1 / 2 : ℚ) < 0) := by norm_num
  refine ⟨hp, ?_⟩
  rw [textOf_my_dtoa]
  unfold dtoa_text
  simp only [if_neg hneg, hc, hf]
  decide

theorem my_dtoa_precision_ten_witness :
    power_loop (10 : Int).toNat 1 = 1410065408 ∧
    textOf (my_dtoa id (1 / 2) uninit 10) = some (bytes "0.0705032704") :=
  my_dtoa_precision_ten id uninit fl_id_exact

/-! ## Facts on `format_arg` -/

theorem appended_write (buffer : Buf) (pos : Int) (l : List Int) (idx : Int) :
    appended pos (some (buffer.write pos l, pos + (l.length : Int), idx)) = some l := by
  simp only [appended, Option.map_some', Option.some.injEq]
  apply List.ext_getElem
  · simp
  · intro k h1 h2
    simp only [List.getElem_map, List.getElem_range]
    rw [Buf.write_apply, if_pos (by omega)]
    simp only [add_sub_cancel_left, Int.toNat_ofNat, List.getD_eq_getElem?_getD]
    rw [List.getElem?_eq_getElem h2]
    rfl

/-- The padding of `format_arg`: after a conversion that left the text of
length `len` in `temp`, the buffer receives `width - len` spaces (none when
`width ≤ len`) and then the text. -/
theorem format_arg_eq (P : Platform) (buffer : Buf) (buffer_pos format width precision flags : Int)
    (args : Int → Int) (arg_index : Int) :
    format_arg P buffer buffer_pos format width precision flags args arg_index =
      (convert P format precision args arg_index).map (fun r =>
        (buffer.write buffer_pos
          (List.replicate (width - r.2.1).toNat (chr ' ') ++ r.1.text r.2.1),
         buffer_pos + ((width - r.2.1).toNat : Int) + (r.2.1.toNat : Int), r.2.2)) := by
  unfold format_arg
  cases convert P format precision args arg_index with
  | none => rfl
  | some r =>
    obtain ⟨temp, len, idx⟩ := r
    simp only [Option.map_some']
    by_cases hw : width > len
    · have hp : width - len > 0 := by omega
      simp only [if_pos hw, if_pos hp]
      rw [fill_loop_eq, copy_loop_text, Buf.write_append, List.length_replicate]
    · have hp : ¬ ((0 : Int) > 0) := by omega
      have hz : (width - len).toNat = 0 := by omega
      simp only [if_neg hw, if_neg hp, hz, List.replicate_zero, List.nil_append]
      rw [copy_loop_text]
      simp

theorem fits_some (cap : Int) (r : Option (Buf × Int)) (t : Buf) (len : Int)
    (h : fits cap r = some (t, len)) : r = some (t, len) ∧ len < cap := by
  cases r with
  | none => simp [fits] at h
  | some p =>
    obtain ⟨t1, l1⟩ := p
    simp only [fits] at h
    split_ifs at h with hc
    simp only [Option.some.injEq, Prod.mk.injEq] at h
    obtain ⟨rfl, rfl⟩ := h
    exact ⟨rfl, hc⟩

theorem map_written_some (o : Option (List Int)) (str t : Buf) (len : Int)
    (h : o.map (written str) = some (t, len)) : 0 ≤ len := by
  cases o with
  | none => simp at h
  | some l =>
    simp only [Option.map_some', written, Option.some.injEq, Prod.mk.injEq] at h
    rw [← h.2]
    exact Int.natCast_nonneg _

theorem strlen_loop_ge (fuel : Nat) : ∀ (str : Buf) (i L : Int),
    strlen_loop fuel str i = some L → i ≤ L := by
  induction fuel with
  | zero => intro str i L h; simp [strlen_loop] at h
  | succ fuel ih =>
    intro str i L h
    simp only [strlen_loop] at h
    split_ifs at h with hc
    · have := ih str (i + 1) L h
      omega
    · simp only [Option.some.injEq] at h
      omega

theorem convert_s_len (P : Platform) (precision value : Int) (t : Buf) (len : Int)
    (h : convert_s P precision value = some (t, len)) : 0 ≤ len ∧ len < 128 := by
  unfold convert_s at h
  split_ifs at h with hv
  · cases hs : my_strlen (some (P.mem value)) with
    | none => rw [hs] at h; simp at h
    | some len0 =>
      rw [hs] at h
      simp only at h
      have h0 : 0 ≤ len0 := strlen_loop_ge _ _ _ _ hs
      obtain ⟨h1, h2⟩ := fits_some _ _ _ _ h
      simp only [Option.some.injEq, Prod.mk.injEq] at h1
      refine ⟨?_, h2⟩
      rw [← h1.2]
      split_ifs with hc
      · exact hc.1
      · exact h0
  · cases hs : fits 128 (my_strcpy uninit (Buf.lit "(null)")) with
    | none => rw [hs] at h; simp at h
    | some p =>
      rw [hs] at h
      simp only [Option.some.injEq, Prod.mk.injEq] at h
      omega

theorem convert_p_len (value : Int) (t : Buf) (len : Int)
    (h : convert_p value = some (t, len)) : 0 ≤ len ∧ len < 128 := by
  unfold convert_p at h
  cases hs : fits 128 (my_strcpy uninit (Buf.lit "0x")) with
  | none => rw [hs] at h; simp at h
  | some p =>
    rw [hs] at h
    simp only at h
    cases hu : my_uitoa (toUnsigned value) (fun j => p.1 (j + 2)) 16 with
    | none => rw [hu] at h; simp at h
    | some q =>
      rw [hu] at h
      simp only at h
      obtain ⟨h1, h2⟩ := fits_some _ _ _ _ h
      simp only [Option.some.injEq, Prod.mk.injEq] at h1
      rw [my_uitoa_eq] at hu
      have := map_written_some _ _ _ _ hu
      omega

theorem withIndex_some (idx : Int) (r : Option (Buf × Int)) (t : Buf) (len idx1 : Int)
    (h : withIndex idx r = some (t, len, idx1)) : r = some (t, len) := by
  cases r with
  | none => simp [withIndex] at h
  | some p =>
    simp only [withIndex, Option.map_some', Option.some.injEq, Prod.mk.injEq] at h
    obtain ⟨h1, h2, _⟩ := h
    rw [← h1, ← h2]

/-- Every conversion that returns leaves a text of `0 .. 127` characters. -/
theorem convert_len (P : Platform) (format precision : Int) (args : Int → Int)
    (arg_index : Int) (t : Buf) (len idx1 : Int)
    (h : convert P format precision args arg_index = some (t, len, idx1)) :
    0 ≤ len ∧ len < 128 := by
  unfold convert at h
  simp only at h
  by_cases c1 : format = chr 'd' ∨ format = chr 'i'
  · rw [if_pos c1] at h
    obtain ⟨h1, h2⟩ := fits_some 128 _ t len (withIndex_some _ _ t len idx1 h)
    rw [my_itoa_eq] at h1
    exact ⟨map_written_some _ _ _ _ h1, h2⟩
  rw [if_neg c1] at h
  by_cases c2 : format = chr 'u'
  · rw [if_pos c2] at h
    obtain ⟨h1, h2⟩ := fits_some 128 _ t len (withIndex_some _ _ t len idx1 h)
    rw [my_uitoa_eq] at h1
    exact ⟨map_written_some _ _ _ _ h1, h2⟩
  rw [if_neg c2] at h
  by_cases c3 : format = chr 'x'
  · rw [if_pos c3] at h
    obtain ⟨h1, h2⟩ := fits_some 128 _ t len (withIndex_some _ _ t len idx1 h)
    rw [my_uitoa_eq] at h1
    exact ⟨map_written_some _ _ _ _ h1, h2⟩
  rw [if_neg c3] at h
  by_cases c4 : format = chr 'X'
  · rw [if_pos c4] at h
    have h3 := withIndex_some _ _ t len idx1 h
    cases hf : fits 128 (my_uitoa (toUnsigned (args arg_index)) uninit 16) with
    | none => rw [hf] at h3; simp at h3
    | some q =>
      obtain ⟨q1, q2⟩ := q
      rw [hf] at h3
      simp only [Option.map_some', Option.some.injEq, Prod.mk.injEq] at h3
      obtain ⟨h1, h2⟩ := fits_some 128 _ q1 q2 hf
      rw [my_uitoa_eq] at h1
      have := map_written_some _ _ _ _ h1
      omega
  rw [if_neg c4] at h
  by_cases c5 : format = chr 'c'
  · rw [if_pos c5] at h
    simp only [Option.some.injEq, Prod.mk.injEq] at h
    omega
  rw [if_neg c5] at h
  by_cases c6 : format = chr 's'
  · rw [if_pos c6] at h
    exact convert_s_len P _ _ _ _ (withIndex_some _ _ t len idx1 h)
  rw [if_neg c6] at h
  by_cases c7 : format = chr 'f'
  · rw [if_pos c7] at h
    obtain ⟨h1, h2⟩ := fits_some 128 _ t len (withIndex_some _ _ t len idx1 h)
    rw [my_dtoa_eq] at h1
    exact ⟨map_written_some _ _ _ _ h1, h2⟩
  rw [if_neg c7] at h
  by_cases c8 : format = chr 'p'
  · rw [if_pos c8] at h
    exact convert_p_len _ _ _ (withIndex_some _ _ t len idx1 h)
  rw [if_neg c8] at h
  by_cases c9 : format = chr '%'
  · rw [if_pos c9] at h
    simp only [Option.some.injEq, Prod.mk.injEq] at h
    omega
  rw [if_neg c9] at h
  simp only [Option.some.injEq, Prod.mk.injEq] at h
  omega

/-! ## Claims on `format_arg` -/

/-- The part of C9 that holds: whenever the conversion returns, leaving the
text of length `len` in `temp`, `format_arg` returns, the bytes it appends
are `max (width - len) 0` spaces followed by the text, and the buffer
position advances by `max width len`; when the conversion does not return,
neither does `format_arg`. -/
theorem format_arg_padding (P : Platform) (buffer : Buf)
    (buffer_pos format width precision flags : Int) (args : Int → Int) (arg_index : Int) :
    (∀ temp len idx1, convert P format precision args arg_index = some (temp, len, idx1) →
      format_arg P buffer buffer_pos format width precision flags args arg_index =
        some (buffer.write buffer_pos
          (List.replicate (max (width - len) 0).toNat (chr ' ') ++ temp.text len),
          buffer_pos + max width len, idx1) ∧
      appended buffer_pos
          (format_arg P buffer buffer_pos format width precision flags args arg_index) =
        some (List.replicate (max (width - len) 0).toNat (chr ' ') ++ temp.text len)) ∧
    (convert P format precision args arg_index = none →
      format_arg P buffer buffer_pos format width precision flags args arg_index = none) := by
  constructor
  · intro temp len idx1 hc
    obtain ⟨h0, _⟩ := convert_len P format precision args arg_index temp len idx1 hc
    have e1 : (max (width - len) 0).toNat = (width - len).toNat := by omega
    have e2 : buffer_pos + ((width - len).toNat : Int) + (len.toNat : Int) =
        buffer_pos + max width len := by omega
    have e3 : buffer_pos + max width len = buffer_pos +
        ((List.replicate (width - len).toNat (chr ' ') ++ temp.text len).length : Int) := by
      rw [List.length_append, List.length_replicate, Buf.length_text]
      push_cast
      omega
    have hf : format_arg P buffer buffer_pos format width precision flags args arg_index =
        some (buffer.write buffer_pos
          (List.replicate (max (width - len) 0).toNat (chr ' ') ++ temp.text len),
          buffer_pos + max width len, idx1) := by
      rw [format_arg_eq, hc]
      simp only [Option.map_some', e1, e2]
    refine ⟨hf, ?_⟩
    rw [hf, e1, e3]
    exact appended_write _ _ _ _
  · intro hc
    rw [format_arg_eq, hc]
    rfl

/-- The example of C9: with width 10 the integer 123 is rendered as 7 spaces
followed by `123`, and the buffer position advances by 10. -/
theorem format_arg_width_example (P : Platform) (buffer : Buf) (buffer_pos precision flags : Int) :
    format_arg P buffer buffer_pos (chr 'd') 10 precision flags (fun _ => 123) 0 =
      some (buffer.write buffer_pos (bytes "       123"), buffer_pos + 10, 1) := by
  have ht : itoa_text 123 10 = some (bytes "123") := by decide
  have hc : convert P (chr 'd') precision (fun _ => 123) 0 =
      some ((written uninit (bytes "123")).1, 3, 1) := by
    unfold convert
    simp only
    rw [if_pos (Or.inl trivial), my_itoa_eq, ht]
    rfl
  obtain ⟨h1, -⟩ := (format_arg_padding P buffer buffer_pos (chr 'd') 10 precision flags
    (fun _ => 123) 0).1 _ _ _ hc
  rw [h1]
  have e : (written uninit (bytes "123")).1.text 3 = bytes "123" := written_text uninit (bytes "123")
  rw [e]
  rfl

set_option maxRecDepth 100000 in
theorem convert_s_overflow (precision : Int) (hp : precision = -1 ∨ precision = 200) :
    (convert (examplePlatform (letters 200) 0) (chr 's') precision (fun _ => 1) 0).isSome
      = false := by
  rcases hp with rfl | rfl <;> decide

/-- C9, at the failing input: for the conversion `s` and a string of 200
characters the copy into `temp[128]` runs past the end of the array, so the
call has no defined result, whatever the buffer and the width; the claim
expects the 200 characters, padded to the width. -/
theorem format_arg_temp_overflow (buffer : Buf) (buffer_pos width flags : Int) :
    format_arg (examplePlatform (letters 200) 0) buffer buffer_pos (chr 's') width (-1) flags
      (fun _ => 1) 0 = none := by
  have hc := convert_s_overflow (-1) (Or.inl rfl)
  rw [format_arg_eq]
  cases h : convert (examplePlatform (letters 200) 0) (chr 's') (-1) (fun _ => 1) 0 with
  | none => rfl
  | some r => rw [h] at hc; simp at hc

theorem my_strlen_of_cstring (s : Buf) (L : Int) (hs : IsCString s L) (hL : L ≤ INT_MAX) :
    my_strlen (some s) = some L := by
  obtain ⟨h0, h1, h2⟩ := hs
  unfold my_strlen
  simp only
  exact strlen_loop_spec _ s 0 L h0 (by unfold INT_MAX at hL; omega) h1 h2

theorem convert_s_string (P : Platform) (N L value : Int) (hv : value ≠ 0)
    (hs : IsCString (P.mem value) L) (hL : L ≤ INT_MAX) (hN : 0 ≤ N) (hfit : min N L < 128) :
    convert_s P N value =
      some (uninit.write 0 ((P.mem value).text (min N L) ++ [0]), min N L) := by
  have h0 : 0 ≤ L := hs.1
  unfold convert_s
  rw [if_pos hv, my_strlen_of_cstring _ L hs hL]
  simp only
  have e : (if N ≥ 0 ∧ L > N then N else L) = min N L := by
    split_ifs with hc
    · omega
    · omega
  rw [e, copy_loop_text]
  simp only [fits, if_pos hfit]
  have e2 := Buf.write_set uninit 0 ((P.mem value).text (min N L)) 0
  rw [Buf.length_text, zero_add, Int.toNat_of_nonneg (by omega)] at e2
  rw [e2]

/-- The part of C10 that holds: for a non-null string of length `L` and a
precision `N ≥ 0` with `min N L ≤ 127`, the conversion `s` without width
appends exactly the first `min N L` characters of the string and consumes
one argument. -/
theorem format_arg_string (P : Platform) (buffer : Buf) (buffer_pos flags : Int)
    (args : Int → Int) (arg_index N L : Int) (hv : args arg_index ≠ 0)
    (hs : IsCString (P.mem (args arg_index)) L) (hL : L ≤ INT_MAX) (hN : 0 ≤ N)
    (hfit : min N L < 128) :
    format_arg P buffer buffer_pos (chr 's') 0 N flags args arg_index =
      some (buffer.write buffer_pos ((P.mem (args arg_index)).text (min N L)),
        buffer_pos + min N L, arg_index + 1) := by
  have h0 : 0 ≤ L := hs.1
  have hc : convert P (chr 's') N args arg_index =
      some (uninit.write 0 ((P.mem (args arg_index)).text (min N L) ++ [0]), min N L,
        arg_index + 1) := by
    unfold convert
    simp only
    rw [if_neg (by decide), if_neg (by decide), if_neg (by decide), if_neg (by decide),
      if_neg (by decide), if_pos trivial, if_neg (by omega),
      convert_s_string P N L _ hv hs hL hN hfit]
    rfl
  obtain ⟨h1, -⟩ := (format_arg_padding P buffer buffer_pos (chr 's') 0 N flags
    args arg_index).1 _ _ _ hc
  rw [h1]
  have e1 : (max (0 - min N L) 0).toNat = 0 := by omega
  have e2 : max 0 (min N L) = min N L := by omega
  have e3 : (uninit.write 0 ((P.mem (args arg_index)).text (min N L) ++ [0])).text (min N L) =
      (P.mem (args arg_index)).text (min N L) := by
    have := Buf.text_write_append uninit ((P.mem (args arg_index)).text (min N L)) [0]
    rw [Buf.length_text, Int.toNat_of_nonneg (by omega)] at this
    exact this
  rw [e1, e2, e3]
  rfl

/-- C10, at the failing input: for a string of 200 characters and precision
200 the conversion `s` copies 200 characters into `temp[128]`, past the end
of the array, so the call has no defined result; the claim expects the 200
characters. -/
theorem format_arg_string_overflow (buffer : Buf) (buffer_pos flags : Int) :
    format_arg (examplePlatform (letters 200) 0) buffer buffer_pos (chr 's') 0 200 flags
      (fun _ => 1) 0 = none := by
  have hc := convert_s_overflow 200 (Or.inr rfl)
  rw [format_arg_eq]
  cases h : convert (examplePlatform (letters 200) 0) (chr 's') 200 (fun _ => 1) 0 with
  | none => rfl
  | some r => rw [h] at hc; simp at hc

/-! ## Facts on `parse_format` -/

theorem Buf.slice_succ (format : Buf) (pos : Int) (n : Nat) :
    format.slice pos (n + 1) = format pos :: format.slice (pos + 1) n := by
  unfold Buf.slice
  rw [List.range_succ_eq_map, List.map_cons, List.map_map]
  simp only [Nat.cast_zero, add_zero, List.cons.injEq, true_and]
  apply List.map_congr_left
  intro k _
  simp only [Function.comp, Nat.succ_eq_add_one]
  congr 1
  push_cast
  omega

theorem Buf.slice_append (format : Buf) (pos : Int) (n m : Nat) :
    format.slice pos (n + m) = format.slice pos n ++ format.slice (pos + (n : Int)) m := by
  induction n generalizing pos with
  | zero => simp [Buf.slice]
  | succ n ih =>
    have e : n + 1 + m = (n + m) + 1 := by omega
    rw [e, Buf.slice_succ, Buf.slice_succ, ih, List.cons_append]
    congr 3
    push_cast
    omega

theorem wrap32_step (a d : Int) : wrap32 (wrap32 a * 10 + d) = wrap32 (a * 10 + d) := by
  unfold wrap32
  omega

theorem wrap32_idem (a : Int) : wrap32 (wrap32 a) = wrap32 a := by
  unfold wrap32
  omega

/-- A digit loop on a string of length `L`, from an index `pos ≤ L`: it
stops after the maximal digit run, on a character that is not a digit, and
holds the value of the run reduced to 32 bits. -/
theorem digits_loop_spec (format : Buf) (L : Int) (hz : format L = 0) :
    ∀ (n : Nat) (fuel : Nat) (pos value : Int), pos + (n : Int) = L → n < fuel →
      digits_loop fuel format pos (wrap32 value) =
        some (pos + ((digitRun format pos L).length : Int),
          wrap32 (runValue value (digitRun format pos L))) ∧
      ¬ isDigit (format (pos + ((digitRun format pos L).length : Int))) ∧
      ((digitRun format pos L).length : Int) ≤ n ∧
      format.slice pos (digitRun format pos L).length = digitRun format pos L := by
  have hL : ¬ isDigit (format L) := by
    rw [hz]
    decide
  intro n
  induction n with
  | zero =>
    intro fuel pos value hpos hf
    obtain ⟨fuel, rfl⟩ : ∃ k, fuel = k + 1 := ⟨fuel - 1, by omega⟩
    have e : pos = L := by simpa using hpos
    subst e
    have hrun : digitRun format pos pos = [] := by simp [digitRun, Buf.slice]
    have hL2 : ¬ (format pos ≥ chr '0' ∧ format pos ≤ chr '9') := hL
    simp only [hrun, List.length_nil, Nat.cast_zero, add_zero, digits_loop, if_neg hL2, runValue,
      List.foldl_nil, Buf.slice, List.range_zero, List.map_nil, le_refl, and_true, true_and]
    exact hL
  | succ n ih =>
    intro fuel pos value hpos hf
    obtain ⟨fuel, rfl⟩ : ∃ k, fuel = k + 1 := ⟨fuel - 1, by omega⟩
    have hlen : (L - pos).toNat = n + 1 := by push_cast at hpos; omega
    have hlen1 : (L - (pos + 1)).toNat = n := by push_cast at hpos; omega
    by_cases hd : isDigit (format pos)
    · have hd2 : format pos ≥ chr '0' ∧ format pos ≤ chr '9' := hd
      have hrun : digitRun format pos L = format pos :: digitRun format (pos + 1) L := by
        unfold digitRun
        rw [hlen, hlen1, Buf.slice_succ, List.takeWhile_cons_of_pos (by simpa using hd)]
      obtain ⟨h1, h2, h3, h4⟩ := ih fuel (pos + 1) (value * 10 + (format pos - chr '0'))
        (by push_cast at hpos; omega) (by omega)
      have e : pos + ((digitRun format (pos + 1) L).length + 1 : Nat) =
          pos + 1 + ((digitRun format (pos + 1) L).length : Int) := by push_cast; omega
      simp only [digits_loop, if_pos hd2, hrun, List.length_cons, wrap32_step, e]
      refine ⟨?_, h2, ?_, ?_⟩
      · rw [h1]
        rfl
      · push_cast; omega
      · rw [Buf.slice_succ, h4]
    · have hd2 : ¬ (format pos ≥ chr '0' ∧ format pos ≤ chr '9') := hd
      have hrun : digitRun format pos L = [] := by
        unfold digitRun
        rw [hlen, Buf.slice_succ, List.takeWhile_cons_of_neg (by simpa using hd)]
      simp only [hrun, List.length_nil, Nat.cast_zero, add_zero, digits_loop, if_neg hd2, runValue,
        List.foldl_nil, Buf.slice, List.range_zero, List.map_nil, and_true, true_and]
      exact ⟨hd, by omega⟩

theorem wrap32_zero : wrap32 0 = 0 := by decide

/-- The result of `parse_format` on a string of length `L`, from an index
`pos ≤ L`: the width run, then, after a `.`, the precision run; both values
reduced to 32 bits. -/
theorem parse_format_spec (format : Buf) (L pos : Int) (hs : IsCString format L)
    (hL : L ≤ INT_MAX) (h0 : 0 ≤ pos) (h1 : pos ≤ L) :
    parse_format format pos =
      if format (pos + ((digitRun format pos L).length : Int)) = chr '.' then
        some (pos + ((digitRun format pos L).length : Int) + 1 +
            ((digitRun format (pos + ((digitRun format pos L).length : Int) + 1) L).length : Int),
          wrap32 (decimalValue (digitRun format pos L)),
          wrap32 (decimalValue
            (digitRun format (pos + ((digitRun format pos L).length : Int) + 1) L)), 0)
      else
        some (pos + ((digitRun format pos L).length : Int),
          wrap32 (decimalValue (digitRun format pos L)), -1, 0) := by
  obtain ⟨hL0, hne, hz⟩ := hs
  unfold INT_MAX at hL
  obtain ⟨e1, _, hlen, _⟩ := digits_loop_spec format L hz (L - pos).toNat 2147483648 pos 0
    (by omega) (by omega)
  rw [wrap32_zero] at e1
  unfold parse_format
  rw [e1]
  simp only
  by_cases hdot : format (pos + ((digitRun format pos L).length : Int)) = chr '.'
  · rw [if_pos hdot, if_pos hdot]
    have hlt : pos + ((digitRun format pos L).length : Int) < L := by
      rcases lt_or_eq_of_le (show pos + ((digitRun format pos L).length : Int) ≤ L by omega)
        with h | h
      · exact h
      · rw [h, hz] at hdot
        exact absurd hdot (by decide)
    obtain ⟨e2, _, _, _⟩ := digits_loop_spec format L hz
      (L - (pos + ((digitRun format pos L).length : Int) + 1)).toNat 2147483648
      (pos + ((digitRun format pos L).length : Int) + 1) 0 (by omega) (by omega)
    rw [wrap32_zero] at e2
    rw [e2]
    rfl
  · rw [if_neg hdot, if_neg hdot]
    rfl

theorem digitRun_digits (format : Buf) (pos L : Int) : ∀ c ∈ digitRun format pos L, isDigit c := by
  intro c hc
  unfold digitRun at hc
  have := List.mem_takeWhile_imp hc
  simpa using this

theorem runValue_nonneg (run : List Int) (h : ∀ c ∈ run, isDigit c) :
    ∀ value, 0 ≤ value → 0 ≤ runValue value run := by
  induction run with
  | nil => intro value hv; simpa [runValue] using hv
  | cons c cs ih =>
    intro value hv
    have hc : isDigit c := h c (List.mem_cons_self c cs)
    unfold isDigit at hc
    simp only [chr, Char.reduceToNat, Nat.cast_ofNat] at hc
    have := ih (fun x hx => h x (List.mem_cons_of_mem c hx)) (value * 10 + (c - chr '0'))
      (by simp only [chr, Char.reduceToNat, Nat.cast_ofNat]; omega)
    simpa [runValue] using this

theorem decimalValue_nonneg (format : Buf) (pos L : Int) :
    0 ≤ decimalValue (digitRun format pos L) :=
  runValue_nonneg _ (digitRun_digits format pos L) 0 (le_refl 0)

theorem wrap32_decimalValue (format : Buf) (pos L : Int)
    (h : decimalValue (digitRun format pos L) ≤ INT_MAX) :
    wrap32 (decimalValue (digitRun format pos L)) = decimalValue (digitRun format pos L) := by
  unfold INT_MAX at h
  exact wrap32_of_range _ (by have := decimalValue_nonneg format pos L; omega) h

/-- The string `12.5d`, for examples. -/
theorem isCString_example : IsCString (Buf.lit "12.5d") 5 := by
  refine ⟨by decide, ?_, by decide⟩
  intro j h0 h1
  interval_cases j <;> decide

/-! ## Claims on `parse_format` -/

/-- C15, at the failing input: on the digit run `4294967296` the
accumulation of `width` overflows the `int`; with wrap-around the width that
`parse_format` sets is 0, not 4294967296, the decimal value of the run. -/
theorem parse_format_width_wraps :
    parse_format (Buf.lit "4294967296d") 0 = some (10, 0, -1, 0) ∧
    digitRun (Buf.lit "4294967296d") 0 11 = bytes "4294967296" ∧
    decimalValue (digitRun (Buf.lit "4294967296d") 0 11) = 4294967296 := by
  decide

/-- The part of C15 that holds: for a format string of length `L` and an
index `0 ≤ pos ≤ L`, when the decimal value of the maximal digit run at `pos`
fits in a signed 32-bit `int`, `parse_format` returns and sets `width` to
that value; the value is 0 when the run is empty. -/
theorem parse_format_width (format : Buf) (L pos : Int) (hs : IsCString format L)
    (hL : L ≤ INT_MAX) (h0 : 0 ≤ pos) (h1 : pos ≤ L)
    (hv : decimalValue (digitRun format pos L) ≤ INT_MAX) :
    (∃ r p f, parse_format format pos =
      some (r, decimalValue (digitRun format pos L), p, f)) ∧
    (digitRun format pos L = [] → decimalValue (digitRun format pos L) = 0) := by
  constructor
  · rw [parse_format_spec format L pos hs hL h0 h1, wrap32_decimalValue format pos L hv]
    split_ifs
    · exact ⟨_, _, _, rfl⟩
    · exact ⟨_, _, _, rfl⟩
  · intro h
    rw [h]
    rfl

theorem parse_format_width_witness :
    (∃ r p f, parse_format (Buf.lit "12.5d") 0 =
      some (r, decimalValue (digitRun (Buf.lit "12.5d") 0 5), p, f)) ∧
    (digitRun (Buf.lit "12.5d") 0 5 = [] → decimalValue (digitRun (Buf.lit "12.5d") 0 5) = 0) :=
  parse_format_width (Buf.lit "12.5d") 5 0 isCString_example (by decide) (by decide) (by decide)
    (by decide)

/-- C16, at the failing input: after a `.` the digit run `4294967295`
overflows the accumulation of `precision`; with wrap-around the precision
that `parse_format` sets is -1, the value that means unset, not 4294967295,
the decimal value of the run. -/
theorem parse_format_precision_wraps :
    parse_format (Buf.lit ".4294967295f") 0 = some (11, 0, -1, 0) ∧
    (Buf.lit ".4294967295f") 0 = chr '.' ∧
    decimalValue (digitRun (Buf.lit ".4294967295f") 1 12) = 4294967295 := by
  decide

/-- The part of C16 that holds: for a format string of length `L` and an
index `0 ≤ pos ≤ L`, `parse_format` returns; the precision is -1 when the
character after the width run is not `.`; when it is `.` and the decimal
value of the following digit run fits in a signed 32-bit `int`, the
precision is that value, which is not negative, and it is 0 for an empty
run. -/
theorem parse_format_precision (format : Buf) (L pos : Int) (hs : IsCString format L)
    (hL : L ≤ INT_MAX) (h0 : 0 ≤ pos) (h1 : pos ≤ L) :
    (format (pos + ((digitRun format pos L).length : Int)) ≠ chr '.' →
      ∃ r w f, parse_format format pos = some (r, w, -1, f)) ∧
    (format (pos + ((digitRun format pos L).length : Int)) = chr '.' →
      decimalValue (digitRun format (pos + ((digitRun format pos L).length : Int) + 1) L)
        ≤ INT_MAX →
      (∃ r w f, parse_format format pos = some (r, w,
        decimalValue (digitRun format (pos + ((digitRun format pos L).length : Int) + 1) L), f)) ∧
      0 ≤ decimalValue (digitRun format (pos + ((digitRun format pos L).length : Int) + 1) L) ∧
      (digitRun format (pos + ((digitRun format pos L).length : Int) + 1) L = [] →
        decimalValue (digitRun format (pos + ((digitRun format pos L).length : Int) + 1) L)
          = 0)) := by
  constructor
  · intro hdot
    rw [parse_format_spec format L pos hs hL h0 h1, if_neg hdot]
    exact ⟨_, _, _, rfl⟩
  · intro hdot hv
    refine ⟨?_, decimalValue_nonneg _ _ _, ?_⟩
    · rw [parse_format_spec format L pos hs hL h0 h1, if_pos hdot,
        wrap32_decimalValue format _ L hv]
      exact ⟨_, _, _, rfl⟩
    · intro h
      rw [h]
      rfl

theorem parse_format_precision_witness :
    (∃ r w f, parse_format (Buf.lit "12.5d") 0 = some (r, w,
      decimalValue (digitRun (Buf.lit "12.5d")
        (0 + ((digitRun (Buf.lit "12.5d") 0 5).length : Int) + 1) 5), f)) ∧
    0 ≤ decimalValue (digitRun (Buf.lit "12.5d")
      (0 + ((digitRun (Buf.lit "12.5d") 0 5).length : Int) + 1) 5) ∧
    (digitRun (Buf.lit "12.5d") (0 + ((digitRun (Buf.lit "12.5d") 0 5).length : Int) + 1) 5 = [] →
      decimalValue (digitRun (Buf.lit "12.5d")
        (0 + ((digitRun (Buf.lit "12.5d") 0 5).length : Int) + 1) 5) = 0) :=
  (parse_format_precision (Buf.lit "12.5d") 5 0 isCString_example (by decide) (by decide)
    (by decide)).2 (by decide) (by decide)

/-- C17: for a format string of length `L` and an index `0 ≤ pos ≤ L`,
`parse_format` returns an index `r` with `pos ≤ r ≤ L`; the characters from
`pos` up to `r` are a run of digits, or a run of digits, a `.` and a run of
digits; and the character at index `r` is not an ASCII digit. -/
theorem parse_format_index (format : Buf) (L pos : Int) (hs : IsCString format L)
    (hL : L ≤ INT_MAX) (h0 : 0 ≤ pos) (h1 : pos ≤ L) :
    ∃ r w p f, parse_format format pos = some (r, w, p, f) ∧ pos ≤ r ∧ r ≤ L ∧
      ¬ isDigit (format r) ∧
      ∃ run1 run2, (∀ c ∈ run1, isDigit c) ∧ (∀ c ∈ run2, isDigit c) ∧
        (format.slice pos (r - pos).toNat = run1 ∨
         format.slice pos (r - pos).toNat = run1 ++ chr '.' :: run2) := by
  have hz : format L = 0 := hs.2.2
  have hLmax : L ≤ 2147483647 := hL
  obtain ⟨_, a2, a3, a4⟩ := digits_loop_spec format L hz (L - pos).toNat 2147483648 pos 0
    (by omega) (by omega)
  rw [parse_format_spec format L pos hs hL h0 h1]
  by_cases hdot : format (pos + ((digitRun format pos L).length : Int)) = chr '.'
  · rw [if_pos hdot]
    have hlt : pos + ((digitRun format pos L).length : Int) < L := by
      rcases lt_or_eq_of_le (show pos + ((digitRun format pos L).length : Int) ≤ L by omega)
        with h | h
      · exact h
      · rw [h, hz] at hdot
        exact absurd hdot (by decide)
    obtain ⟨_, b2, b3, b4⟩ := digits_loop_spec format L hz
      (L - (pos + ((digitRun format pos L).length : Int) + 1)).toNat 2147483648
      (pos + ((digitRun format pos L).length : Int) + 1) 0 (by omega) (by omega)
    refine ⟨_, _, _, _, rfl, by omega, by omega, b2, digitRun format pos L,
      digitRun format (pos + ((digitRun format pos L).length : Int) + 1) L,
      digitRun_digits _ _ _, digitRun_digits _ _ _, Or.inr ?_⟩
    have e : (pos + ((digitRun format pos L).length : Int) + 1 +
        ((digitRun format (pos + ((digitRun format pos L).length : Int) + 1) L).length : Int)
        - pos).toNat = (digitRun format pos L).length +
          (1 + (digitRun format (pos + ((digitRun format pos L).length : Int) + 1) L).length) := by
      omega
    rw [e, Buf.slice_append, a4, Nat.add_comm 1, Buf.slice_succ, hdot, b4]
  · rw [if_neg hdot]
    refine ⟨_, _, _, _, rfl, by omega, by omega, a2, digitRun format pos L, [],
      digitRun_digits _ _ _, by simp, Or.inl ?_⟩
    have e : (pos + ((digitRun format pos L).length : Int) - pos).toNat =
        (digitRun format pos L).length := by omega
    rw [e, a4]

theorem parse_format_index_witness :
    ∃ r w p f, parse_format (Buf.lit "12.5d") 0 = some (r, w, p, f) ∧ 0 ≤ r ∧ r ≤ 5 ∧
      ¬ isDigit ((Buf.lit "12.5d") r) ∧
      ∃ run1 run2, (∀ c ∈ run1, isDigit c) ∧ (∀ c ∈ run2, isDigit c) ∧
        ((Buf.lit "12.5d").slice 0 (r - 0).toNat = run1 ∨
         (Buf.lit "12.5d").slice 0 (r - 0).toNat = run1 ++ chr '.' :: run2) :=
  parse_format_index (Buf.lit "12.5d") 5 0 isCString_example (by decide) (by decide) (by decide)

/-! ## Unrecognized conversion characters -/

theorem convert_unrecognized (P : Platform) (c precision : Int) (args : Int → Int)
    (arg_index : Int) (hc : Unrecognized c) :
    convert P c precision args arg_index =
      some (uninit.write 0 ([chr '%', c] ++ [0]), 2, arg_index) := by
  obtain ⟨h1, h2, h3, h4, h5, h6, h7, h8, h9, h10⟩ := hc
  have h12 : ¬ (c = chr 'd' ∨ c = chr 'i') := by
    intro h
    rcases h with h | h
    · exact h1 h
    · exact h2 h
  unfold convert
  simp only
  rw [if_neg h12, if_neg h3, if_neg h4, if_neg h5, if_neg h6, if_neg h7, if_neg h8, if_neg h9,
    if_neg h10]
  rfl

theorem format_arg_unrecognized (P : Platform) (buffer : Buf)
    (buffer_pos c width precision flags : Int) (args : Int → Int) (arg_index : Int)
    (hc : Unrecognized c) :
    format_arg P buffer buffer_pos c width precision flags args arg_index =
      some (buffer.write buffer_pos
          (List.replicate (max (width - 2) 0).toNat (chr ' ') ++ [chr '%', c]),
        buffer_pos + max width 2, arg_index) := by
  obtain ⟨h, -⟩ := (format_arg_padding P buffer buffer_pos c width precision flags args
    arg_index).1 _ _ _ (convert_unrecognized P c precision args arg_index hc)
  rw [h]
  have e : (uninit.write 0 ([chr '%', c] ++ [0])).text 2 = [chr '%', c] :=
    Buf.text_write_append uninit [chr '%', c] [0]
  rw [e]

theorem digits_loop_stop (fuel : Nat) (format : Buf) (pos value : Int)
    (h : ¬ isDigit (format pos)) : digits_loop (fuel + 1) format pos value = some (pos, value) := by
  have h2 : ¬ (format pos ≥ chr '0' ∧ format pos ≤ chr '9') := h
  simp only [digits_loop, if_neg h2]

theorem parse_format_no_digit (format : Buf) (pos : Int) (h : ¬ isDigit (format pos))
    (hdot : format pos ≠ chr '.') : parse_format format pos = some (pos, 0, -1, 0) := by
  unfold parse_format
  rw [show (2147483648 : Nat) = 2147483647 + 1 from rfl, digits_loop_stop _ _ _ _ h]
  simp only [if_neg hdot]

/-- C13: for every conversion character `c` outside `d i u x X c s f p %`,
`format_arg` returns; the conversion leaves the two characters `%` and `c`
as its text and the argument index unchanged, and with no width these two
characters are what is appended to the buffer. -/
theorem format_arg_unknown_char (P : Platform) (buffer : Buf)
    (buffer_pos c precision flags : Int) (args : Int → Int) (arg_index : Int)
    (hc : Unrecognized c) :
    (∃ temp, convert P c precision args arg_index = some (temp, 2, arg_index) ∧
      temp.text 2 = [chr '%', c]) ∧
    format_arg P buffer buffer_pos c 0 precision flags args arg_index =
      some (buffer.write buffer_pos [chr '%', c], buffer_pos + 2, arg_index) := by
  constructor
  · exact ⟨_, convert_unrecognized P c precision args arg_index hc,
      Buf.text_write_append uninit [chr '%', c] [0]⟩
  · rw [format_arg_unrecognized P buffer buffer_pos c 0 precision flags args arg_index hc]
    rfl

theorem format_arg_unknown_char_witness :
    (∃ temp, convert (examplePlatform "" 0) (chr 'q') (-1) (fun _ => 7) 0 = some (temp, 2, 0) ∧
      temp.text 2 = [chr '%', chr 'q']) ∧
    format_arg (examplePlatform "" 0) uninit 0 (chr 'q') 0 (-1) 0 (fun _ => 7) 0 =
      some (uninit.write 0 [chr '%', chr 'q'], 0 + 2, 0) :=
  format_arg_unknown_char (examplePlatform "" 0) uninit 0 (chr 'q') (-1) 0 (fun _ => 7) 0
    (by decide)

/-- C18 as stated fails for `0`: it is an ASCII digit, so `parse_format`
consumes it as a width digit; on `05d` the returned index is 2 and the
width is 5. -/
theorem parse_format_zero_flag :
    (Buf.lit "05d") 0 = chr '0' ∧ parse_format (Buf.lit "05d") 0 = some (2, 5, -1, 0) ∧
    parse_format (Buf.lit "05d") 0 ≠ some (0, 0, -1, 0) := by
  decide

/-- C18, amended: when the character at `pos` is one of `-`, `+`, `#` or `*`,
`parse_format` consumes nothing (the returned index is `pos`, the width 0,
the precision unset), and `format_arg`, called on that character as
`custom_printf` calls it, treats it as unrecognized: it appends `%` and the
character and leaves the argument index unchanged. -/
theorem parse_format_flag_chars (P : Platform) (format buffer : Buf)
    (pos buffer_pos c : Int) (args : Int → Int) (arg_index : Int)
    (hc : c = chr '-' ∨ c = chr '+' ∨ c = chr '#' ∨ c = chr '*') (hf : format pos = c) :
    parse_format format pos = some (pos, 0, -1, 0) ∧
    format_arg P buffer buffer_pos (format pos) 0 (-1) 0 args arg_index =
      some (buffer.write buffer_pos [chr '%', c], buffer_pos + 2, arg_index) := by
  have hu : Unrecognized c := by
    rcases hc with h | h | h | h <;> subst h <;> decide
  have hd : ¬ isDigit c := by
    rcases hc with h | h | h | h <;> subst h <;> decide
  have hdot : c ≠ chr '.' := by
    rcases hc with h | h | h | h <;> subst h <;> decide
  constructor
  · exact parse_format_no_digit format pos (by rw [hf]; exact hd) (by rw [hf]; exact hdot)
  · rw [hf, format_arg_unrecognized P buffer buffer_pos c 0 (-1) 0 args arg_index hu]
    rfl

theorem parse_format_flag_chars_witness :
    parse_format (Buf.lit "-5d") 0 = some (0, 0, -1, 0) ∧
    format_arg (examplePlatform "" 0) uninit 0 ((Buf.lit "-5d") 0) 0 (-1) 0 (fun _ => 7) 0 =
      some (uninit.write 0 [chr '%', chr '-'], 0 + 2, 0) :=
  parse_format_flag_chars (examplePlatform "" 0) (Buf.lit "-5d") uninit 0 0 (chr '-')
    (fun _ => 7) 0 (Or.inl rfl) (by decide)

/-! ## Steps of the loop of `custom_printf` -/

theorem Buf.write_zero_set (str : Buf) (l : List Int) (c : Int) :
    (str.write 0 l).set (l.length : Int) c = str.write 0 (l ++ [c]) := by
  have := Buf.write_set str 0 l c
  rwa [zero_add] at this

theorem Buf.write_zero_append (str : Buf) (l1 l2 : List Int) :
    (str.write 0 l1).write (l1.length : Int) l2 = str.write 0 (l1 ++ l2) := by
  rw [Buf.write_append, zero_add]

theorem Buf.text_write_zero (str : Buf) (t : List Int) :
    (str.write 0 t).text (t.length : Int) = t := by
  have := Buf.text_write_append str t []
  rwa [List.append_nil] at this

/-- The end of the format string: the loop stops and the buffer is flushed. -/
theorem custom_loop_end (P : Platform) (H : Host) (format : Buf) (args : Int → Int)
    (fuel : Nat) (s : PState) (h : format s.i = 0) :
    custom_loop P H format args (fuel + 1) s = some (finish H s) := by
  simp only [custom_loop, h, ne_eq, not_true_eq_false, if_false]

/-- A literal character, with room in the buffer below the flush threshold:
it is appended to the buffered text. -/
theorem custom_loop_literal (P : Platform) (H : Host) (format : Buf) (args : Int → Int)
    (fuel : Nat) (base : Buf) (i : Int) (t : List Int) (tw ai : Int) (ch : List (List Int))
    (h0 : format i ≠ 0) (h1 : ¬ (format i = chr '%' ∧ format (i + 1) ≠ 0))
    (ht : (t.length : Int) < 4000) :
    custom_loop P H format args (fuel + 1) (textState base i t tw ai ch) =
      custom_loop P H format args fuel (textState base (i + 1) (t ++ [format i]) tw ai ch) := by
  have hpos : (0 : Int) ≤ (t.length : Int) ∧ (t.length : Int) < 4096 := by omega
  have hflush : ¬ ((t.length : Int) + 1 > 4000) := by omega
  simp only [custom_loop, scan_step, textState, h0, ne_eq, not_false_eq_true, if_true, if_neg h1,
    if_pos hpos, if_neg hflush, Buf.write_zero_set, List.length_append, List.length_singleton,
    Nat.cast_add, Nat.cast_one]

/-- A specifier whose field fits below the flush threshold: the padded field
is appended to the buffered text and the scan goes on after the conversion
character. -/
theorem custom_loop_specifier (P : Platform) (H : Host) (format : Buf) (args : Int → Int)
    (fuel : Nat) (base : Buf) (i : Int) (t : List Int) (tw ai : Int) (ch : List (List Int))
    (i1 width precision flags : Int) (temp : Buf) (len ai1 : Int)
    (h0 : format i = chr '%') (h1 : format (i + 1) ≠ 0)
    (hp : parse_format format (i + 1) = some (i1, width, precision, flags))
    (hc : convert P (format i1) precision args ai = some (temp, len, ai1))
    (ht : (t.length : Int) + max width len ≤ 4000) :
    custom_loop P H format args (fuel + 1) (textState base i t tw ai ch) =
      custom_loop P H format args fuel (textState base (i1 + 1)
        (t ++ (List.replicate (max (width - len) 0).toNat (chr ' ') ++ temp.text len))
        tw ai1 ch) := by
  obtain ⟨hlen0, _⟩ := convert_len P (format i1) precision args ai temp len ai1 hc
  obtain ⟨hf, -⟩ := (format_arg_padding P (base.write 0 t) (t.length : Int) (format i1) width
    precision flags args ai).1 temp len ai1 hc
  have hne : format i ≠ 0 := by rw [h0]; decide
  have hcond : format i = chr '%' ∧ format (i + 1) ≠ 0 := ⟨h0, h1⟩
  have hcap : (t.length : Int) + max width len ≤ 4096 := by omega
  have hflush : ¬ ((t.length : Int) + max width len > 4000) := by omega
  have elen : ((t ++ (List.replicate (max (width - len) 0).toNat (chr ' ') ++
      temp.text len)).length : Int) = (t.length : Int) + max width len := by
    simp only [List.length_append, List.length_replicate, Buf.length_text]
    push_cast
    omega
  simp only [custom_loop, scan_step, textState, hne, ne_eq, not_false_eq_true, if_true,
    if_pos hcond, hp, hf, if_pos hcap, if_neg hflush, Buf.write_zero_append, elen]

theorem acceptAll_handle (ch : List (List Int)) : ¬ (acceptAll.GetStdHandle ch = -1) := by
  show ¬ ((1 : Int) = -1)
  decide

theorem acceptAll_write (ch : List (List Int)) (t : List Int) :
    acceptAll.WriteConsoleA ch t = (true, (t.length : Int)) := rfl

theorem write_console_acceptAll (ch : List (List Int)) (str : Buf) (len : Int) :
    write_console acceptAll ch str len =
      (wrap32 ((str.text len).length : Int), ch ++ [str.text len]) := by
  unfold write_console
  rw [if_neg (acceptAll_handle ch)]
  simp only [acceptAll_write, Bool.true_eq_false, if_false]

theorem flush_acceptAll (s : PState) (h0 : 0 ≤ s.buffer_pos) (h1 : s.buffer_pos ≤ 4096) :
    flush acceptAll s =
      Sum.inr { s with total_written := wrap32 (s.total_written + s.buffer_pos), buffer_pos := 0,
                       chunks := s.chunks ++ [s.buffer.text s.buffer_pos] } := by
  have hw : wrap32 ((s.buffer.text s.buffer_pos).length : Int) = s.buffer_pos := by
    rw [Buf.length_text, Int.toNat_of_nonneg h0]
    exact wrap32_of_range _ (by omega) (by omega)
  unfold flush
  rw [write_console_acceptAll]
  simp only [hw]
  rw [if_neg (by omega)]

/-- The final flush to a console that accepts every byte: the buffered text
is one more chunk and its length is added to the total. -/
theorem finish_acceptAll (base : Buf) (i : Int) (t : List Int) (tw ai : Int)
    (ch : List (List Int)) (hne : t ≠ []) (ht : (t.length : Int) ≤ 4096) :
    finish acceptAll (textState base i t tw ai ch) =
      (wrap32 (tw + (t.length : Int)), ch ++ [t]) := by
  have hpos : ((t.length : Int) > 0) := by
    have : 0 < t.length := List.length_pos.mpr hne
    omega
  unfold finish
  rw [flush_acceptAll _ (by simp [textState]) (by simpa [textState] using ht)]
  simp only [textState, if_pos hpos, Buf.text_write_zero]

/-! ## Conversions used by the scenarios -/

theorem initial_eq : initial = textState uninit 0 [] 0 0 [] := rfl

/-- A run of literal characters, with room below the flush threshold: the
run is appended to the buffered text. -/
theorem custom_loop_literals (P : Platform) (H : Host) (format : Buf) (args : Int → Int)
    (base : Buf) (tw ai : Int) (ch : List (List Int)) (l : List Int) :
    ∀ (fuel : Nat) (i : Int) (t : List Int), format.slice i l.length = l →
      (∀ c ∈ l, c ≠ 0 ∧ c ≠ chr '%') → (t.length : Int) + (l.length : Int) ≤ 4000 →
      custom_loop P H format args (fuel + l.length) (textState base i t tw ai ch) =
        custom_loop P H format args fuel
          (textState base (i + (l.length : Int)) (t ++ l) tw ai ch) := by
  induction l with
  | nil =>
    intro fuel i t _ _ _
    simp
  | cons c cs ih =>
    intro fuel i t hs hc ht
    rw [List.length_cons, Buf.slice_succ, List.cons.injEq] at hs
    obtain ⟨hi, hs2⟩ := hs
    have hc0 := hc c (List.mem_cons_self c cs)
    rw [List.length_cons] at ht
    push_cast at ht
    have e : fuel + (cs.length + 1) = (fuel + cs.length) + 1 := by omega
    rw [List.length_cons, e, custom_loop_literal P H format args _ base i t tw ai ch
      (by rw [hi]; exact hc0.1) (by rw [hi]; intro h; exact hc0.2 h.1) (by omega),
      ih fuel (i + 1) (t ++ [format i]) hs2 (fun x hx => hc x (List.mem_cons_of_mem c hx))
        (by rw [List.length_append, List.length_singleton]; push_cast; omega), hi]
    congr 2
    · push_cast; omega
    · simp

theorem itoa_text_nonneg (v : Int) (h0 : 0 ≤ v) (h1 : v ≤ INT_MAX) :
    itoa_text v 10 = some (decimal v.toNat) := by
  by_cases hz : v = 0
  · subst hz
    rfl
  · exact itoa_text_pos v (by omega) h1

/-- The conversion `d` of a non-negative value: its decimal numeral, one
argument consumed. -/
theorem convert_d_nonneg (P : Platform) (precision : Int) (args : Int → Int) (arg_index : Int)
    (h0 : 0 ≤ args arg_index) (h1 : args arg_index ≤ INT_MAX) :
    convert P (chr 'd') precision args arg_index =
      some ((written uninit (decimal (args arg_index).toNat)).1,
        ((decimal (args arg_index).toNat).length : Int), arg_index + 1) := by
  have hlen := length_decimal (args arg_index).toNat (by unfold INT_MAX at h1; omega)
  have hfit : ((decimal (args arg_index).toNat).length : Int) < 128 := by omega
  unfold convert
  simp only
  rw [if_pos (Or.inl trivial), my_itoa_eq, itoa_text_nonneg _ h0 h1]
  simp only [Option.map_some', fits, written, if_pos hfit, withIndex]

/-- The conversion `s` of a null pointer: the text `(null)`, whatever the
precision, one argument consumed. -/
theorem convert_s_null (P : Platform) (precision : Int) (args : Int → Int) (arg_index : Int)
    (h : args arg_index = 0) :
    ∃ temp, convert P (chr 's') precision args arg_index = some (temp, 6, arg_index + 1) ∧
      temp.text 6 = bytes "(null)" := by
  have ht : (fits 128 (my_strcpy uninit (Buf.lit "(null)"))).map (fun r => r.1.text 6) =
      some (bytes "(null)") := by decide
  have hv : ¬ (args arg_index ≠ 0) := by simp [h]
  unfold convert
  simp only
  rw [if_neg (by decide), if_neg (by decide), if_neg (by decide), if_neg (by decide),
    if_neg (by decide), if_pos trivial]
  unfold convert_s
  rw [if_neg hv]
  cases hf : fits 128 (my_strcpy uninit (Buf.lit "(null)")) with
  | none => rw [hf] at ht; simp at ht
  | some r =>
    rw [hf] at ht
    simp only [Option.map_some', Option.some.injEq] at ht
    exact ⟨r.1, rfl, ht⟩

/-- The conversion `%`: the text `%`, no argument consumed. -/
theorem convert_percent (P : Platform) (precision : Int) (args : Int → Int) (arg_index : Int) :
    convert P (chr '%') precision args arg_index =
      some (uninit.write 0 ([chr '%'] ++ [0]), 1, arg_index) := by
  unfold convert
  simp only
  rw [if_neg (by decide), if_neg (by decide), if_neg (by decide), if_neg (by decide),
    if_neg (by decide), if_neg (by decide), if_neg (by decide), if_neg (by decide),
    if_pos trivial]
  rfl

/-! ## Claims on `custom_printf` -/

/-- C11: a null string argument is not an error: for every platform and
every argument block whose first slot is null, `custom_printf("%s", null)`
with a console that accepts every byte returns 6, and the bytes offered to
the console are the six characters `(null)`, in one chunk. -/
theorem custom_printf_null_string (P : Platform) (args : Int → Int) (h : args 0 = 0) :
    custom_printf P acceptAll (some (Buf.lit "%s")) args = some (6, [bytes "(null)"]) := by
  obtain ⟨temp, hc, htext⟩ := convert_s_null P (-1) args 0 h
  have hp : parse_format (Buf.lit "%s") (0 + 1) = some (1, 0, -1, 0) := by decide
  have hf1 : (Buf.lit "%s") 1 = chr 's' := by decide
  rw [← hf1] at hc
  unfold custom_printf
  simp only
  rw [initial_eq, show (2147483648 : Nat) = 2147483646 + 1 + 1 from rfl,
    custom_loop_specifier P acceptAll (Buf.lit "%s") args _ uninit 0 [] 0 0 [] 1 0 (-1) 0 temp 6
      (0 + 1) (by decide) (by decide) hp hc (by decide),
    custom_loop_end P acceptAll (Buf.lit "%s") args _ _
      (by show (Buf.lit "%s") (1 + 1) = 0; decide), htext,
    finish_acceptAll _ _ _ _ _ _ (by decide) (by decide)]
  rfl

theorem custom_printf_null_string_witness :
    custom_printf (examplePlatform "" 0) acceptAll (some (Buf.lit "%s")) (fun _ => 0) =
      some (6, [bytes "(null)"]) :=
  custom_printf_null_string (examplePlatform "" 0) (fun _ => 0) rfl

/-- C12: the conversion `%` renders the single character `%` and leaves the
argument index unchanged, for every width, precision and argument block; and
`custom_printf("%%")` with a console that accepts every byte returns 1 and
offers exactly the byte `%`. -/
theorem custom_printf_percent (P : Platform) (args : Int → Int) :
    (∀ (buffer : Buf) (buffer_pos width precision flags arg_index : Int),
      format_arg P buffer buffer_pos (chr '%') width precision flags args arg_index =
        some (buffer.write buffer_pos
            (List.replicate (max (width - 1) 0).toNat (chr ' ') ++ [chr '%']),
          buffer_pos + max width 1, arg_index)) ∧
    custom_printf P acceptAll (some (Buf.lit "%%")) args = some (1, [bytes "%"]) := by
  have htext : (uninit.write 0 ([chr '%'] ++ [0])).text 1 = [chr '%'] :=
    Buf.text_write_append uninit [chr '%'] [0]
  constructor
  · intro buffer buffer_pos width precision flags arg_index
    obtain ⟨hf, -⟩ := (format_arg_padding P buffer buffer_pos (chr '%') width precision flags
      args arg_index).1 _ _ _ (convert_percent P precision args arg_index)
    rw [hf, htext]
  · have hp : parse_format (Buf.lit "%%") (0 + 1) = some (1, 0, -1, 0) := by decide
    have hf1 : (Buf.lit "%%") 1 = chr '%' := by decide
    have hc : convert P ((Buf.lit "%%") 1) (-1) args 0 =
        some (uninit.write 0 ([chr '%'] ++ [0]), 1, 0) := by
      rw [hf1]
      exact convert_percent P (-1) args 0
    unfold custom_printf
    simp only
    rw [initial_eq, show (2147483648 : Nat) = 2147483646 + 1 + 1 from rfl,
      custom_loop_specifier P acceptAll (Buf.lit "%%") args _ uninit 0 [] 0 0 [] 1 0 (-1) 0 _ 1
        0 (by decide) (by decide) hp hc (by decide),
      custom_loop_end P acceptAll (Buf.lit "%%") args _ _
        (by show (Buf.lit "%%") (1 + 1) = 0; decide), htext,
      finish_acceptAll _ _ _ _ _ _ (by decide) (by decide)]
    rfl

/-- C14: for every non-negative 32-bit `v` in the first argument slot and a
console that accepts every byte, `custom_printf("Integer: %d\n", v)` offers
exactly `Integer: `, the decimal digits of `v` and a newline, in one chunk,
and returns the number of these bytes. -/
theorem custom_printf_integer (P : Platform) (args : Int → Int) (h0 : 0 ≤ args 0)
    (h1 : args 0 ≤ INT_MAX) :
    custom_printf P acceptAll (some (Buf.lit "Integer: %d\n")) args =
      some (((bytes "Integer: " ++ decimal (args 0).toNat ++ bytes "\n").length : Int),
        [bytes "Integer: " ++ decimal (args 0).toNat ++ bytes "\n"]) := by
  have hlen := length_decimal (args 0).toNat (by unfold INT_MAX at h1; omega)
  have hp : parse_format (Buf.lit "Integer: %d\n") (9 + 1) = some (10, 0, -1, 0) := by decide
  have hf1 : (Buf.lit "Integer: %d\n") 10 = chr 'd' := by decide
  have hc := convert_d_nonneg P (-1) args 0 h0 h1
  rw [← hf1] at hc
  have htext : (written uninit (decimal (args 0).toNat)).1.text
      ((decimal (args 0).toNat).length : Int) = decimal (args 0).toNat :=
    written_text uninit _
  have hlit := custom_loop_literals P acceptAll (Buf.lit "Integer: %d\n") args uninit 0 0 []
    (bytes "Integer: ") (2147483636 + 1 + 1 + 1) 0 [] (by decide) (by decide) (by decide)
  have e9 : (0 : Int) + ((bytes "Integer: ").length : Int) = 9 := by decide
  rw [e9, List.nil_append] at hlit
  have hl9 : ((bytes "Integer: ").length : Int) = 9 := by decide
  unfold custom_printf
  simp only
  rw [initial_eq, show (2147483648 : Nat) = 2147483636 + 1 + 1 + 1 + (bytes "Integer: ").length
      from rfl, hlit,
    custom_loop_specifier P acceptAll (Buf.lit "Integer: %d\n") args _ uninit 9
      (bytes "Integer: ") 0 0 [] 10 0 (-1) 0 _ _ (0 + 1) (by decide) (by decide) hp hc
      (by rw [hl9]; omega),
    htext,
    custom_loop_literal P acceptAll (Buf.lit "Integer: %d\n") args _ uninit (10 + 1) _ 0
      (0 + 1) [] (by decide) (by decide)
      (by
        simp only [List.length_append, List.length_replicate]
        push_cast
        rw [hl9]
        omega),
    custom_loop_end P acceptAll (Buf.lit "Integer: %d\n") args _ _
      (by show (Buf.lit "Integer: %d\n") (10 + 1 + 1) = 0; decide),
    finish_acceptAll _ _ _ _ _ _ (by simp)
      (by
        simp only [List.length_append, List.length_replicate, List.length_singleton]
        push_cast
        rw [hl9]
        omega)]
  have e0 : (max ((0 : Int) - ((decimal (args 0).toNat).length : Int)) 0).toNat = 0 := by omega
  have e10 : (Buf.lit "Integer: %d\n") (10 + 1) = chr '\n' := by decide
  have ew : ∀ n : Nat, (n : Int) ≤ 4096 → wrap32 (0 + (n : Int)) = (n : Int) := by
    intro n hn
    rw [zero_add]
    exact wrap32_of_range _ (by omega) (by omega)
  rw [e0, e10, List.replicate_zero, List.nil_append]
  have eb : bytes "\n" = [chr '\n'] := by decide
  rw [eb, ew _ (by
    simp only [List.length_append, List.length_singleton]
    push_cast
    rw [hl9]
    omega)]
  rfl

theorem custom_printf_integer_witness :
    custom_printf (examplePlatform "" 0) acceptAll (some (Buf.lit "Integer: %d\n"))
        (fun _ => 12345) = some (15, [bytes "Integer: 12345\n"]) :=
  (custom_printf_integer (examplePlatform "" 0) (fun _ => 12345) (by decide) (by decide)).trans
    (by simp [decimal, digitChars, digitChar, toChar, chr, bytes])

/-- C19: at a `%` that is directly followed by the end of the format string,
in every state of the scan (buffer position from 0 to the flush threshold
4000): the step copies `%` into the buffer at the buffer position and changes
nothing else, so no specifier is parsed and the argument index is unchanged;
the loop then ends on the terminating NUL, with the `%` as the last buffered
byte (below the threshold) or as the last byte of the chunk flushed (at the
threshold). -/
theorem custom_printf_trailing_percent (P : Platform) (H : Host) (format : Buf)
    (args : Int → Int) (fuel : Nat) (s : PState)
    (h0 : format s.i = chr '%') (h1 : format (s.i + 1) = 0)
    (hb0 : 0 ≤ s.buffer_pos) (hb1 : s.buffer_pos ≤ 4000) :
    scan_step P format args s =
      some { s with buffer := s.buffer.set s.buffer_pos (chr '%'),
                    buffer_pos := s.buffer_pos + 1 } ∧
    (s.buffer_pos < 4000 →
      custom_loop P H format args (fuel + 2) s =
        some (finish H { s with i := s.i + 1,
                                buffer := s.buffer.set s.buffer_pos (chr '%'),
                                buffer_pos := s.buffer_pos + 1 })) ∧
    (s.buffer_pos = 4000 →
      custom_loop P H format args (fuel + 2) s =
        some (match flush H { s with buffer := s.buffer.set s.buffer_pos (chr '%'),
                                     buffer_pos := s.buffer_pos + 1 } with
          | Sum.inl r => r
          | Sum.inr s2 => (s2.total_written, s2.chunks))) := by
  have hne : format s.i ≠ 0 := by rw [h0]; decide
  have hcond : ¬ (format s.i = chr '%' ∧ format (s.i + 1) ≠ 0) := fun h => h.2 h1
  have hpos : 0 ≤ s.buffer_pos ∧ s.buffer_pos < 4096 := by omega
  have hs : scan_step P format args s =
      some { s with buffer := s.buffer.set s.buffer_pos (chr '%'),
                    buffer_pos := s.buffer_pos + 1 } := by
    unfold scan_step
    rw [if_neg hcond, if_pos hpos, h0]
  refine ⟨hs, ?_, ?_⟩
  · intro hlt
    have hflush : ¬ (s.buffer_pos + 1 > 4000) := by omega
    rw [custom_loop, if_pos hne, hs]
    simp only
    rw [if_neg hflush]
    exact custom_loop_end P H format args fuel _ h1
  · intro heq
    have hflush : s.buffer_pos + 1 > 4000 := by omega
    rw [custom_loop, if_pos hne, hs]
    simp only
    rw [if_pos hflush]
    cases hfl : flush H { s with buffer := s.buffer.set s.buffer_pos (chr '%'),
                                 buffer_pos := s.buffer_pos + 1 } with
    | inl r => rfl
    | inr s2 =>
      have hi : s2.i = s.i := by
        unfold flush at hfl
        simp only at hfl
        split at hfl
        · exact absurd hfl (by simp)
        · rw [← Sum.inr.inj hfl]
      have hbp : s2.buffer_pos = 0 := by
        unfold flush at hfl
        simp only at hfl
        split at hfl
        · exact absurd hfl (by simp)
        · rw [← Sum.inr.inj hfl]
      simp only
      rw [custom_loop_end P H format args fuel _ (by show format (s2.i + 1) = 0; rw [hi, h1])]
      unfold finish
      rw [if_neg (by show ¬ (s2.buffer_pos > 0); rw [hbp]; decide)]

theorem custom_printf_trailing_percent_witness :
    scan_step (examplePlatform "" 0) (Buf.lit "%") (fun _ => 0) initial =
      some { i := 0, buffer := uninit.set 0 (chr '%'), buffer_pos := 0 + 1, total_written := 0,
             arg_index := 0, chunks := [] } ∧
    custom_loop (examplePlatform "" 0) acceptAll (Buf.lit "%") (fun _ => 0) (0 + 2) initial =
      some (finish acceptAll
        { i := 0 + 1, buffer := uninit.set 0 (chr '%'), buffer_pos := 0 + 1, total_written := 0,
          arg_index := 0, chunks := [] }) :=
  have h := custom_printf_trailing_percent (examplePlatform "" 0) acceptAll (Buf.lit "%")
    (fun _ => 0) 0 initial (by decide) (by decide) (by decide) (by decide)
  ⟨h.1, h.2.1 (by decide)⟩

/-- The example of a trailing `%`: `custom_printf("100%")` with a console that
accepts every byte offers exactly `100%` and returns 4, whatever the
arguments, and the argument index stays 0 up to the end of the scan. -/
theorem custom_printf_hundred_percent (P : Platform) (args : Int → Int) :
    custom_printf P acceptAll (some (Buf.lit "100%")) args = some (4, [bytes "100%"]) := by
  have hlit := custom_loop_literals P acceptAll (Buf.lit "100%") args uninit 0 0 []
    (bytes "100") (2147483643 + 1 + 1) 0 [] (by decide) (by decide) (by decide)
  have e3 : (0 : Int) + ((bytes "100").length : Int) = 3 := by decide
  rw [e3, List.nil_append] at hlit
  unfold custom_printf
  simp only
  rw [initial_eq, show (2147483648 : Nat) = 2147483643 + 1 + 1 + (bytes "100").length from rfl,
    hlit,
    custom_loop_literal P acceptAll (Buf.lit "100%") args _ uninit 3 _ 0 0 [] (by decide)
      (by decide) (by decide),
    custom_loop_end P acceptAll (Buf.lit "100%") args _ _
      (by show (Buf.lit "100%") (3 + 1) = 0; decide),
    finish_acceptAll _ _ _ _ _ _ (by decide) (by decide)]
  rfl

/-- C20: the buffer position can exceed the capacity 4096. For every platform
and console, in `custom_printf("%5000d", 1)` the call of `format_arg` for the
specifier starts at buffer position 0 and returns the buffer position 5000,
having written 4999 spaces and the digit `1` into the 4096-byte buffer, so the
call of `custom_printf` has no defined result. -/
theorem custom_printf_buffer_overflow (P : Platform) (H : Host) :
    format_arg P uninit 0 (chr 'd') 5000 (-1) 0 (fun _ => 1) 0 =
      some (uninit.write 0 (List.replicate 4999 (chr ' ') ++ [chr '1']), 5000, 1) ∧
    custom_printf P H (some (Buf.lit "%5000d")) (fun _ => 1) = none := by
  have hc := convert_d_nonneg P (-1) (fun _ => 1) 0 (by decide) (by decide)
  obtain ⟨hf, -⟩ := (format_arg_padding P uninit 0 (chr 'd') 5000 (-1) 0 (fun _ => 1) 0).1
    _ _ _ hc
  have hdec : decimal ((fun _ => 1 : Int → Int) 0).toNat = [chr '1'] := by
    simp [decimal, digitChars, digitChar, toChar, chr]
  rw [hdec] at hf
  have htext : (written uninit [chr '1']).1.text (([chr '1'] : List Int).length : Int) =
      [chr '1'] := written_text uninit _
  rw [htext] at hf
  have hf0 : format_arg P uninit 0 (chr 'd') 5000 (-1) 0 (fun _ => 1) 0 =
      some (uninit.write 0 (List.replicate 4999 (chr ' ') ++ [chr '1']), 5000, 1) := hf
  refine ⟨hf0, ?_⟩
  have hp : parse_format (Buf.lit "%5000d") (0 + 1) = some (5, 5000, -1, 0) := by decide
  have h5 : (Buf.lit "%5000d") 5 = chr 'd' := by decide
  have hcond : (Buf.lit "%5000d") 0 = chr '%' ∧ (Buf.lit "%5000d") (0 + 1) ≠ 0 := by decide
  have hs : scan_step P (Buf.lit "%5000d") (fun _ => 1) initial = none := by
    unfold scan_step
    simp only [initial]
    rw [if_pos hcond, hp]
    simp only
    rw [h5, hf0]
    rfl
  unfold custom_printf
  simp only
  rw [show (2147483648 : Nat) = 2147483647 + 1 from rfl, custom_loop,
    if_pos (by show (Buf.lit "%5000d") 0 ≠ 0; decide), hs]

/-! ## The loop of `custom_printf` at list level -/

theorem write_console_text (H : Host) (ch : List (List Int)) (base : Buf) (t : List Int) :
    write_console H ch (base.write 0 t) (t.length : Int) = offer H ch t := by
  unfold write_console offer
  rw [Buf.text_write_zero]

theorem scan_step_text (P : Platform) (format : Buf) (args : Int → Int) (base : Buf) (i : Int)
    (t : List Int) (tw ai : Int) (ch : List (List Int)) (ht : (t.length : Int) ≤ 4000) :
    scan_step P format args (textState base i t tw ai ch) =
      match next_piece P format args i ai with
      | none => none
      | some (p, i1, ai1) =>
        if ((t ++ p).length : Int) ≤ 4096 then some (textState base (i1 - 1) (t ++ p) tw ai1 ch)
        else none := by
  unfold scan_step next_piece
  simp only [textState]
  by_cases hc : format i = chr '%' ∧ format (i + 1) ≠ 0
  · rw [if_pos hc, if_pos hc]
    cases hp : parse_format format (i + 1) with
    | none => rfl
    | some r =>
      obtain ⟨i1, width, precision, flags⟩ := r
      simp only
      cases hcv : convert P (format i1) precision args ai with
      | none =>
        rw [(format_arg_padding P (base.write 0 t) (t.length : Int) (format i1) width
          precision flags args ai).2 hcv]
      | some c =>
        obtain ⟨temp, len, ai1⟩ := c
        obtain ⟨hlen0, _⟩ := convert_len P (format i1) precision args ai temp len ai1 hcv
        obtain ⟨hf, -⟩ := (format_arg_padding P (base.write 0 t) (t.length : Int) (format i1)
          width precision flags args ai).1 temp len ai1 hcv
        have elen : ((t ++ (List.replicate (max (width - len) 0).toNat (chr ' ') ++
            temp.text len)).length : Int) = (t.length : Int) + max width len := by
          simp only [List.length_append, List.length_replicate, Buf.length_text]
          push_cast
          omega
        rw [hf]
        simp only [elen, Buf.write_zero_append, add_sub_cancel_right]
  · rw [if_neg hc, if_neg hc, if_pos (by omega)]
    have e : ((t ++ [format i]).length : Int) ≤ 4096 := by
      simp only [List.length_append, List.length_singleton]
      push_cast
      omega
    simp only [Buf.write_zero_set, List.length_append, List.length_singleton,
      Nat.cast_add, Nat.cast_one, add_sub_cancel_right]
    rw [if_pos (by omega)]

theorem flush_text (H : Host) (base : Buf) (i : Int) (t : List Int) (tw ai : Int)
    (ch : List (List Int)) :
    flush H (textState base i t tw ai ch) =
      if (offer H ch t).1 < 0 then Sum.inl (-1, (offer H ch t).2)
      else Sum.inr (textState (base.write 0 t) i [] (wrap32 (tw + (offer H ch t).1)) ai
        (offer H ch t).2) := by
  unfold flush
  simp only [textState]
  rw [write_console_text]
  rfl

/-- The loop of the source, started with the text `t` in the buffer, computes
the list-level loop. -/
theorem custom_loop_eq_run (P : Platform) (H : Host) (format : Buf) (args : Int → Int)
    (fuel : Nat) : ∀ (base : Buf) (i : Int) (t : List Int) (tw ai : Int) (ch : List (List Int)),
    (t.length : Int) ≤ 4000 →
    custom_loop P H format args fuel (textState base i t tw ai ch) =
      run P H format args fuel i t tw ai ch := by
  induction fuel with
  | zero =>
    intro base i t tw ai ch _
    rfl
  | succ fuel ih =>
    intro base i t tw ai ch ht
    rw [custom_loop, run]
    have hi : (textState base i t tw ai ch).i = i := rfl
    rw [hi]
    by_cases h0 : format i ≠ 0
    · rw [if_pos h0, if_pos h0, scan_step_text P format args base i t tw ai ch ht]
      cases hn : next_piece P format args i ai with
      | none => rfl
      | some r =>
        obtain ⟨p, i1, ai1⟩ := r
        simp only
        by_cases hcap : ((t ++ p).length : Int) ≤ 4096
        · rw [if_pos hcap, if_pos hcap]
          simp only
          have hbp : (textState base (i1 - 1) (t ++ p) tw ai1 ch).buffer_pos =
              ((t ++ p).length : Int) := rfl
          rw [hbp]
          by_cases hfl : ((t ++ p).length : Int) > 4000
          · rw [if_pos hfl, if_pos hfl, flush_text]
            by_cases hw : (offer H ch (t ++ p)).1 < 0
            · rw [if_pos hw, if_pos hw]
            · rw [if_neg hw, if_neg hw]
              simp only
              have e : ({ textState (base.write 0 (t ++ p)) (i1 - 1) []
                  (wrap32 (tw + (offer H ch (t ++ p)).1)) ai1 (offer H ch (t ++ p)).2 with
                  i := (textState (base.write 0 (t ++ p)) (i1 - 1) []
                  (wrap32 (tw + (offer H ch (t ++ p)).1)) ai1 (offer H ch (t ++ p)).2).i + 1 } :
                  PState) =
                  textState (base.write 0 (t ++ p)) i1 [] (wrap32 (tw + (offer H ch (t ++ p)).1))
                    ai1 (offer H ch (t ++ p)).2 := by
                simp only [textState, sub_add_cancel]
              rw [e]
              exact ih _ _ _ _ _ _ (by simp)
          · rw [if_neg hfl, if_neg hfl]
            refine Eq.trans (congrArg _ ?_) (ih base i1 (t ++ p) tw ai1 ch (by omega))
            simp only [textState, sub_add_cancel]
        · rw [if_neg hcap, if_neg hcap]
    · rw [if_neg h0, if_neg h0]
      unfold finish
      have hbp : (textState base i t tw ai ch).buffer_pos = (t.length : Int) := rfl
      rw [hbp]
      by_cases hpos : (t.length : Int) > 0
      · rw [if_pos hpos, if_pos hpos, flush_text]
        by_cases hw : (offer H ch t).1 < 0
        · rw [if_pos hw, if_pos hw]
        · rw [if_neg hw, if_neg hw]
          rfl
      · rw [if_neg hpos, if_neg hpos]
        rfl

/-- The function `custom_printf` computes the list-level loop. -/
theorem custom_printf_eq_run (P : Platform) (H : Host) (format : Buf) (args : Int → Int) :
    custom_printf P H (some format) args = run P H format args 2147483648 0 [] 0 0 [] := by
  unfold custom_printf
  simp only
  rw [initial_eq]
  exact custom_loop_eq_run P H format args _ _ _ _ _ _ _ (by simp)
theorem offer_acceptAll (ch : List (List Int)) (t : List Int) (ht : (t.length : Int) ≤ 4096) :
    offer acceptAll ch t = ((t.length : Int), ch ++ [t]) := by
  unfold offer
  rw [if_neg (acceptAll_handle ch)]
  simp only [acceptAll_write, Bool.true_eq_false, if_false]
  rw [wrap32_of_range _ (by omega) (by omega)]

theorem offer_succeeds (H : Host) (hH : Succeeds H) (ch : List (List Int)) (t : List Int)
    (ht : (t.length : Int) ≤ 4096) :
    offer H ch t = ((H.WriteConsoleA ch t).2, ch ++ [t]) := by
  obtain ⟨h1, h2, h3, h4⟩ := hH ch t ht
  unfold INT_MAX at h4
  unfold offer
  rw [if_neg h1, h2]
  simp only [Bool.true_eq_false, if_false]
  rw [wrap32_of_range _ (by omega) (by omega)]

/-- With a console whose every write succeeds, the loop returns the total it
started from plus the counts the console returned, as long as the sum fits
an `int`. -/
theorem run_succeeds (P : Platform) (H : Host) (hH : Succeeds H) (format : Buf)
    (args : Int → Int) (fuel : Nat) : ∀ (i : Int) (t : List Int) (tw ai : Int)
    (ch : List (List Int)) (ret : Int) (chunks : List (List Int)), (t.length : Int) ≤ 4096 →
    run P H format args fuel i t tw ai ch = some (ret, chunks) →
    ∃ new, chunks = ch ++ new ∧ 0 ≤ (sinkCounts H ch new).sum ∧
      (0 ≤ tw → tw + (sinkCounts H ch new).sum ≤ INT_MAX →
        ret = tw + (sinkCounts H ch new).sum) := by
  induction fuel with
  | zero =>
    intro i t tw ai ch ret chunks _ h
    simp [run] at h
  | succ fuel ih =>
    intro i t tw ai ch ret chunks ht h
    rw [run] at h
    by_cases h0 : format i ≠ 0
    · rw [if_pos h0] at h
      cases hn : next_piece P format args i ai with
      | none => rw [hn] at h; simp at h
      | some r =>
        obtain ⟨p, i1, ai1⟩ := r
        rw [hn] at h
        simp only at h
        by_cases hcap : ((t ++ p).length : Int) ≤ 4096
        · rw [if_pos hcap] at h
          by_cases hfl : ((t ++ p).length : Int) > 4000
          · rw [if_pos hfl, offer_succeeds H hH _ _ hcap] at h
            have hc := (hH ch (t ++ p) hcap).2.2
            simp only at h
            rw [if_neg (by omega)] at h
            obtain ⟨new, hnew, hnn, hret⟩ := ih _ _ _ _ _ _ _ (by simp) h
            refine ⟨(t ++ p) :: new, by rw [hnew]; simp, ?_, ?_⟩
            · simp only [sinkCounts, List.sum_cons]
              omega
            · intro htw hsum
              simp only [sinkCounts, List.sum_cons] at hsum ⊢
              unfold INT_MAX at hsum hc
              have hw : wrap32 (tw + (H.WriteConsoleA ch (t ++ p)).2) =
                  tw + (H.WriteConsoleA ch (t ++ p)).2 :=
                wrap32_of_range _ (by omega) (by omega)
              rw [hw] at hret
              rw [hret (by omega) (by unfold INT_MAX; omega)]
              ring
          · rw [if_neg hfl] at h
            exact ih _ _ _ _ _ _ _ (by omega) h
        · rw [if_neg hcap] at h
          simp at h
    · rw [if_neg h0] at h
      by_cases hpos : (t.length : Int) > 0
      · rw [if_pos hpos, offer_succeeds H hH _ _ ht] at h
        have hc := (hH ch t ht).2.2
        simp only at h
        rw [if_neg (by omega)] at h
        simp only [Option.some.injEq, Prod.mk.injEq] at h
        obtain ⟨h1, h2⟩ := h
        refine ⟨[t], h2.symm, ?_, ?_⟩
        · simp only [sinkCounts, List.sum_cons, List.sum_nil, add_zero]
          omega
        · intro htw hsum
          simp only [sinkCounts, List.sum_cons, List.sum_nil, add_zero] at hsum ⊢
          unfold INT_MAX at hsum
          rw [← h1]
          exact wrap32_of_range _ (by omega) (by omega)
      · rw [if_neg hpos] at h
        simp only [Option.some.injEq, Prod.mk.injEq] at h
        obtain ⟨h1, h2⟩ := h
        refine ⟨[], by simp [h2], by simp [sinkCounts], ?_⟩
        intro _ _
        simp [sinkCounts, h1]

theorem wrap32_add_left (a b : Int) : wrap32 (wrap32 a + b) = wrap32 (a + b) := by
  unfold wrap32
  omega

/-- With a console that accepts every byte, the chunks offered are, in order,
the text the format string renders to, and the returned value is the total
the loop started from plus the length of that text, reduced to 32 bits. -/
theorem run_acceptAll (P : Platform) (format : Buf) (args : Int → Int) (fuel : Nat) :
    ∀ (i : Int) (t : List Int) (tw ai : Int) (ch : List (List Int)) (ret : Int)
    (chunks : List (List Int)), (t.length : Int) ≤ 4096 →
    run P acceptAll format args fuel i t tw ai ch = some (ret, chunks) →
    ∃ pieces, render P format args fuel i ai = some pieces ∧
      chunks.flatten = ch.flatten ++ (t ++ pieces.flatten) ∧
      (wrap32 tw = tw →
        ret = wrap32 (tw + (t.length : Int) + (pieces.flatten.length : Int))) := by
  induction fuel with
  | zero =>
    intro i t tw ai ch ret chunks _ h
    simp [run] at h
  | succ fuel ih =>
    intro i t tw ai ch ret chunks ht h
    rw [run] at h
    rw [render]
    by_cases h0 : format i ≠ 0
    · rw [if_pos h0] at h
      rw [if_pos h0]
      cases hn : next_piece P format args i ai with
      | none => rw [hn] at h; simp at h
      | some r =>
        obtain ⟨p, i1, ai1⟩ := r
        rw [hn] at h
        simp only at h ⊢
        by_cases hcap : ((t ++ p).length : Int) ≤ 4096
        · rw [if_pos hcap] at h
          by_cases hfl : ((t ++ p).length : Int) > 4000
          · rw [if_pos hfl, offer_acceptAll ch (t ++ p) hcap] at h
            simp only at h
            rw [if_neg (by omega)] at h
            obtain ⟨pieces, hr, hj, hret⟩ := ih _ _ _ _ _ _ _ (by simp) h
            refine ⟨p :: pieces, by rw [hr]; rfl, ?_, ?_⟩
            · rw [hj]
              simp
            · intro _
              rw [hret (wrap32_idem _)]
              simp only [List.flatten_cons, List.length_append, Nat.cast_add, List.length_nil,
                Nat.cast_zero, add_zero]
              rw [wrap32_add_left]
              congr 1
              ring
          · rw [if_neg hfl] at h
            obtain ⟨pieces, hr, hj, hret⟩ := ih _ _ _ _ _ _ _ (by omega) h
            refine ⟨p :: pieces, by rw [hr]; rfl, ?_, ?_⟩
            · rw [hj]
              simp
            · intro htw
              rw [hret htw]
              simp only [List.flatten_cons, List.length_append, Nat.cast_add]
              congr 1
              ring
        · rw [if_neg hcap] at h
          simp at h
    · rw [if_neg h0] at h
      rw [if_neg h0]
      refine ⟨[], rfl, ?_⟩
      by_cases hpos : (t.length : Int) > 0
      · rw [if_pos hpos, offer_acceptAll ch t ht] at h
        simp only at h
        rw [if_neg (by omega)] at h
        simp only [Option.some.injEq, Prod.mk.injEq] at h
        obtain ⟨h1, h2⟩ := h
        refine ⟨by rw [← h2]; simp, ?_⟩
        intro _
        simp only [List.flatten_nil, List.length_nil, Nat.cast_zero, add_zero]
        exact h1.symm
      · rw [if_neg hpos] at h
        simp only [Option.some.injEq, Prod.mk.injEq] at h
        obtain ⟨h1, h2⟩ := h
        have ht0 : t = [] := by
          cases t with
          | nil => rfl
          | cons a l =>
            exfalso
            apply hpos
            simp only [List.length_cons]
            push_cast
            omega
        subst ht0
        refine ⟨by rw [← h2]; simp, ?_⟩
        intro htw
        simp only [List.length_nil, Nat.cast_zero, add_zero, List.flatten_nil]
        rw [htw, h1]

/-- When every piece has at most 96 bytes, the loop returns, with every
console: no field passes the end of the buffer. -/
theorem run_total (P : Platform) (H : Host) (format : Buf) (args : Int → Int) (fuel : Nat) :
    ∀ (i : Int) (t : List Int) (tw ai : Int) (ch : List (List Int))
    (pieces : List (List Int)), (t.length : Int) ≤ 4000 →
    render P format args fuel i ai = some pieces → (∀ p ∈ pieces, p.length ≤ 96) →
    ∃ r, run P H format args fuel i t tw ai ch = some r := by
  induction fuel with
  | zero =>
    intro i t tw ai ch pieces _ h
    simp [render] at h
  | succ fuel ih =>
    intro i t tw ai ch pieces ht h hp
    rw [render] at h
    rw [run]
    by_cases h0 : format i ≠ 0
    · rw [if_pos h0] at h
      rw [if_pos h0]
      cases hn : next_piece P format args i ai with
      | none => rw [hn] at h; simp at h
      | some r =>
        obtain ⟨p, i1, ai1⟩ := r
        rw [hn] at h
        simp only at h ⊢
        cases hr : render P format args fuel i1 ai1 with
        | none => rw [hr] at h; simp at h
        | some ps =>
          rw [hr] at h
          simp only [Option.map_some', Option.some.injEq] at h
          subst h
          have hp1 : p.length ≤ 96 := hp p (by simp)
          have hcap : ((t ++ p).length : Int) ≤ 4096 := by
            simp only [List.length_append]
            push_cast
            omega
          rw [if_pos hcap]
          by_cases hfl : ((t ++ p).length : Int) > 4000
          · rw [if_pos hfl]
            by_cases hw : (offer H ch (t ++ p)).1 < 0
            · rw [if_pos hw]
              exact ⟨_, rfl⟩
            · rw [if_neg hw]
              exact ih _ _ _ _ _ ps (by simp) hr (fun q hq => hp q (by simp [hq]))
          · rw [if_neg hfl]
            exact ih _ _ _ _ _ ps (by omega) hr (fun q hq => hp q (by simp [hq]))
    · rw [if_neg h0]
      by_cases hpos : (t.length : Int) > 0
      · rw [if_pos hpos]
        by_cases hw : (offer H ch t).1 < 0
        · rw [if_pos hw]
          exact ⟨_, rfl⟩
        · rw [if_neg hw]
          exact ⟨_, rfl⟩
      · rw [if_neg hpos]
        exact ⟨_, rfl⟩

theorem offer_failAfter (N : Nat) (ch : List (List Int)) (t : List Int)
    (ht : (t.length : Int) ≤ 4096) :
    offer (failAfter N) ch t =
      (if ch.flatten.length + t.length ≤ N then (t.length : Int) else -1, ch ++ [t]) := by
  unfold offer
  have hh : ¬ ((failAfter N).GetStdHandle ch = -1) := by
    show ¬ ((1 : Int) = -1)
    decide
  rw [if_neg hh]
  have hw : (failAfter N).WriteConsoleA ch t =
      if ch.flatten.length + t.length ≤ N then (true, (t.length : Int))
      else (false, ((N - ch.flatten.length : Nat) : Int)) := rfl
  rw [hw]
  by_cases hc : ch.flatten.length + t.length ≤ N
  · simp only [if_pos hc, Bool.true_eq_false, if_false]
    rw [wrap32_of_range _ (by omega) (by omega)]
  · simp only [if_neg hc, if_true]

/-- With a console that fails after `N` bytes: a result with more than `N`
bytes offered is the failure value -1; a result with at most `N` bytes
offered is the total the loop started from plus the number of bytes offered,
as long as it fits an `int`. -/
theorem run_failAfter (P : Platform) (N : Nat) (format : Buf) (args : Int → Int) (fuel : Nat) :
    ∀ (i : Int) (t : List Int) (tw ai : Int) (ch : List (List Int)) (ret : Int)
    (chunks : List (List Int)), (t.length : Int) ≤ 4096 → ch.flatten.length ≤ N →
    run P (failAfter N) format args fuel i t tw ai ch = some (ret, chunks) →
    ∃ new, chunks = ch ++ new ∧ (N < chunks.flatten.length → ret = -1) ∧
      (chunks.flatten.length ≤ N → 0 ≤ tw → tw + (new.flatten.length : Int) ≤ INT_MAX →
        ret = tw + (new.flatten.length : Int)) := by
  induction fuel with
  | zero =>
    intro i t tw ai ch ret chunks _ _ h
    simp [run] at h
  | succ fuel ih =>
    intro i t tw ai ch ret chunks ht hch h
    rw [run] at h
    by_cases h0 : format i ≠ 0
    · rw [if_pos h0] at h
      cases hn : next_piece P format args i ai with
      | none => rw [hn] at h; simp at h
      | some r =>
        obtain ⟨p, i1, ai1⟩ := r
        rw [hn] at h
        simp only at h
        by_cases hcap : ((t ++ p).length : Int) ≤ 4096
        · rw [if_pos hcap] at h
          by_cases hfl : ((t ++ p).length : Int) > 4000
          · rw [if_pos hfl, offer_failAfter N ch (t ++ p) hcap] at h
            simp only at h
            by_cases hc : ch.flatten.length + (t ++ p).length ≤ N
            · rw [if_pos hc, if_neg (by omega)] at h
              obtain ⟨new, hnew, h1, h2⟩ := ih _ _ _ _ _ _ _ (by simp) (by simpa using hc) h
              refine ⟨(t ++ p) :: new, by rw [hnew]; simp, h1, ?_⟩
              intro hle htw hsum
              simp only [List.flatten_cons, List.length_append, Nat.cast_add] at hsum ⊢
              simp only [List.length_append, Nat.cast_add] at hcap
              unfold INT_MAX at hsum
              have hw : wrap32 (tw + (((t ++ p).length : Nat) : Int)) =
                  tw + ((t.length : Int) + (p.length : Int)) := by
                simp only [List.length_append, Nat.cast_add]
                exact wrap32_of_range _ (by omega) (by omega)
              rw [hw] at h2
              rw [h2 hle (by omega) (by unfold INT_MAX; omega)]
              ring
            · rw [if_neg hc, if_pos (by decide)] at h
              simp only [Option.some.injEq, Prod.mk.injEq] at h
              refine ⟨[t ++ p], h.2.symm, fun _ => h.1.symm, ?_⟩
              intro hle
              rw [← h.2] at hle
              simp only [List.flatten_append, List.flatten_cons, List.flatten_nil,
                List.append_nil, List.length_append] at hle hc
              omega
          · rw [if_neg hfl] at h
            exact ih _ _ _ _ _ _ _ (by omega) hch h
        · rw [if_neg hcap] at h
          simp at h
    · rw [if_neg h0] at h
      by_cases hpos : (t.length : Int) > 0
      · rw [if_pos hpos, offer_failAfter N ch t ht] at h
        simp only at h
        by_cases hc : ch.flatten.length + t.length ≤ N
        · rw [if_pos hc, if_neg (by omega)] at h
          simp only [Option.some.injEq, Prod.mk.injEq] at h
          refine ⟨[t], h.2.symm, ?_, ?_⟩
          · intro hN
            rw [← h.2] at hN
            simp only [List.flatten_append, List.flatten_cons, List.flatten_nil,
              List.append_nil, List.length_append] at hN
            omega
          · intro _ htw hsum
            simp only [List.flatten_cons, List.flatten_nil, List.append_nil] at hsum ⊢
            unfold INT_MAX at hsum
            rw [← h.1]
            exact wrap32_of_range _ (by omega) (by omega)
        · rw [if_neg hc, if_pos (by decide)] at h
          simp only [Option.some.injEq, Prod.mk.injEq] at h
          refine ⟨[t], h.2.symm, fun _ => h.1.symm, ?_⟩
          intro hle
          rw [← h.2] at hle
          simp only [List.flatten_append, List.flatten_cons, List.flatten_nil,
            List.append_nil, List.length_append] at hle
          omega
      · rw [if_neg hpos] at h
        simp only [Option.some.injEq, Prod.mk.injEq] at h
        refine ⟨[], by simp [h.2], ?_, ?_⟩
        · intro hN
          rw [← h.2] at hN
          omega
        · intro _ _ _
          simp [h.1]

/-- A failed write is the last chunk offered, and the loop then returns -1. -/
theorem run_failure (P : Platform) (H : Host) (format : Buf) (args : Int → Int) (fuel : Nat) :
    ∀ (i : Int) (t : List Int) (tw ai : Int) (ch : List (List Int)) (ret : Int)
    (chunks : List (List Int)),
    run P H format args fuel i t tw ai ch = some (ret, chunks) →
    ∃ new, chunks = ch ++ new ∧ ∀ b c a, new = b ++ c :: a →
      (H.WriteConsoleA (ch ++ b) c).1 = false → a = [] ∧ ret = -1 := by
  have key : ∀ (ch : List (List Int)) (u : List Int), (offer H ch u).1 < 0 →
      ∃ new, (offer H ch u).2 = ch ++ new ∧ ∀ b c a, new = b ++ c :: a →
        (H.WriteConsoleA (ch ++ b) c).1 = false → a = [] ∧ (-1 : Int) = -1 := by
    intro ch u _
    unfold offer
    by_cases hh : H.GetStdHandle ch = -1
    · rw [if_pos hh]
      refine ⟨[], by simp, ?_⟩
      intro b c a hs
      simp at hs
    · rw [if_neg hh]
      refine ⟨[u], rfl, ?_⟩
      intro b c a hs _
      cases b with
      | nil =>
        simp only [List.nil_append, List.cons.injEq] at hs
        exact ⟨hs.2.symm, rfl⟩
      | cons x xs =>
        simp only [List.cons_append, List.cons.injEq] at hs
        have := hs.2
        simp at this
  have ok : ∀ (ch : List (List Int)) (u : List Int), ¬ (offer H ch u).1 < 0 →
      (offer H ch u).2 = ch ++ [u] ∧ (H.WriteConsoleA ch u).1 = true := by
    intro ch u hw
    unfold offer at hw ⊢
    by_cases hh : H.GetStdHandle ch = -1
    · rw [if_pos hh] at hw
      exact absurd (by decide : (-1 : Int) < 0) hw
    · rw [if_neg hh] at hw ⊢
      refine ⟨rfl, ?_⟩
      by_cases hf : (H.WriteConsoleA ch u).1 = false
      · simp only [hf, if_true] at hw
        exact absurd (by decide : (-1 : Int) < 0) hw
      · simpa using hf
  induction fuel with
  | zero =>
    intro i t tw ai ch ret chunks h
    simp [run] at h
  | succ fuel ih =>
    intro i t tw ai ch ret chunks h
    rw [run] at h
    by_cases h0 : format i ≠ 0
    · rw [if_pos h0] at h
      cases hn : next_piece P format args i ai with
      | none => rw [hn] at h; simp at h
      | some r =>
        obtain ⟨p, i1, ai1⟩ := r
        rw [hn] at h
        simp only at h
        by_cases hcap : ((t ++ p).length : Int) ≤ 4096
        · rw [if_pos hcap] at h
          by_cases hfl : ((t ++ p).length : Int) > 4000
          · rw [if_pos hfl] at h
            by_cases hw : (offer H ch (t ++ p)).1 < 0
            · rw [if_pos hw] at h
              simp only [Option.some.injEq, Prod.mk.injEq] at h
              rw [← h.1, ← h.2]
              exact key ch (t ++ p) hw
            · rw [if_neg hw] at h
              obtain ⟨e1, e2⟩ := ok ch (t ++ p) hw
              rw [e1] at h
              obtain ⟨new, hnew, hall⟩ := ih _ _ _ _ _ _ _ h
              refine ⟨(t ++ p) :: new, by rw [hnew]; simp, ?_⟩
              intro b c a hs hf
              cases b with
              | nil =>
                simp only [List.nil_append, List.cons.injEq] at hs
                rw [List.append_nil, ← hs.1, e2] at hf
                exact absurd hf (by decide)
              | cons x xs =>
                simp only [List.cons_append, List.cons.injEq] at hs
                apply hall xs c a hs.2
                rw [← hs.1] at hf
                simpa using hf
          · rw [if_neg hfl] at h
            exact ih _ _ _ _ _ _ _ h
        · rw [if_neg hcap] at h
          simp at h
    · rw [if_neg h0] at h
      by_cases hpos : (t.length : Int) > 0
      · rw [if_pos hpos] at h
        by_cases hw : (offer H ch t).1 < 0
        · rw [if_pos hw] at h
          simp only [Option.some.injEq, Prod.mk.injEq] at h
          rw [← h.1, ← h.2]
          exact key ch t hw
        · rw [if_neg hw] at h
          obtain ⟨e1, e2⟩ := ok ch t hw
          simp only [Option.some.injEq, Prod.mk.injEq] at h
          refine ⟨[t], by rw [← h.2, e1], ?_⟩
          intro b c a hs hf
          cases b with
          | nil =>
            simp only [List.nil_append, List.cons.injEq] at hs
            rw [List.append_nil, ← hs.1, e2] at hf
            exact absurd hf (by decide)
          | cons x xs =>
            simp only [List.cons_append, List.cons.injEq] at hs
            have := hs.2
            simp at this
      · rw [if_neg hpos] at h
        simp only [Option.some.injEq, Prod.mk.injEq] at h
        refine ⟨[], by simp [h.2], ?_⟩
        intro b c a hs
        simp at hs
theorem succeeds_acceptAll : Succeeds acceptAll := by
  intro ch t ht
  refine ⟨acceptAll_handle ch, rfl, ?_, ?_⟩
  · rw [acceptAll_write]
    exact Int.natCast_nonneg _
  · rw [acceptAll_write]
    unfold INT_MAX
    show (t.length : Int) ≤ 2147483647
    omega

theorem succeeded_tail (H : Host) (ch : List (List Int)) (c : List Int)
    (new : List (List Int)) (h : Succeeded H ch (c :: new)) :
    Succeeded H (ch ++ [c]) new := by
  obtain ⟨h1, h2⟩ := h
  refine ⟨by simpa using h1, ?_⟩
  intro before d after hs
  have := h2 (c :: before) d after (by rw [hs]; rfl)
  simpa using this

theorem succeeded_head (H : Host) (ch : List (List Int)) (c : List Int)
    (new : List (List Int)) (h : Succeeded H ch (c :: new)) :
    H.GetStdHandle ch ≠ -1 ∧ (H.WriteConsoleA ch c).1 = true ∧
    0 ≤ (H.WriteConsoleA ch c).2 ∧ (H.WriteConsoleA ch c).2 ≤ INT_MAX := by
  have := h.2 [] c new rfl
  simpa using this

theorem sinkCounts_nonneg_of_succeeded (H : Host) (new : List (List Int)) :
    ∀ ch, Succeeded H ch new → 0 ≤ (sinkCounts H ch new).sum := by
  induction new with
  | nil =>
    intro ch _
    simp [sinkCounts]
  | cons c cs ih =>
    intro ch h
    simp only [sinkCounts, List.sum_cons]
    have h1 := (succeeded_head H ch c cs h).2.2.1
    have h2 := ih (ch ++ [c]) (succeeded_tail H ch c cs h)
    omega

/-- The result of an offer that did not fail is its count, and the chunk was
offered. -/
theorem offer_cases (H : Host) (ch : List (List Int)) (u : List Int) :
    ((offer H ch u).1 < 0 → (offer H ch u).2 = ch ∧ H.GetStdHandle ch = -1 ∨
      (offer H ch u).2 = ch ++ [u] ∧
        ((H.WriteConsoleA ch u).1 = false ∨ wrap32 (H.WriteConsoleA ch u).2 < 0)) ∧
    (¬ (offer H ch u).1 < 0 → (offer H ch u).2 = ch ++ [u] ∧
      (offer H ch u).1 = wrap32 (H.WriteConsoleA ch u).2) := by
  unfold offer
  by_cases hh : H.GetStdHandle ch = -1
  · rw [if_pos hh]
    exact ⟨fun _ => Or.inl ⟨rfl, hh⟩, fun h => absurd (by decide : (-1 : Int) < 0) h⟩
  · rw [if_neg hh]
    by_cases hf : (H.WriteConsoleA ch u).1 = false
    · rw [if_pos hf]
      exact ⟨fun _ => Or.inr ⟨rfl, Or.inl hf⟩,
        fun h => absurd (by decide : (-1 : Int) < 0) h⟩
    · rw [if_neg hf]
      exact ⟨fun h => Or.inr ⟨rfl, Or.inr h⟩, fun _ => ⟨rfl, rfl⟩⟩

/-- When every write of the call succeeded, the loop returns the total it
started from plus the counts the console returned, as long as the sum fits
an `int`. -/
theorem run_succeeded (P : Platform) (H : Host) (format : Buf) (args : Int → Int)
    (fuel : Nat) : ∀ (i : Int) (t : List Int) (tw ai : Int) (ch : List (List Int)) (ret : Int)
    (chunks : List (List Int)),
    run P H format args fuel i t tw ai ch = some (ret, chunks) →
    ∃ new, chunks = ch ++ new ∧
      (Succeeded H ch new → 0 ≤ tw → tw + (sinkCounts H ch new).sum ≤ INT_MAX →
        ret = tw + (sinkCounts H ch new).sum) := by
  have fail : ∀ (ch : List (List Int)) (u : List Int) (tw ret : Int) (chunks : List (List Int)),
      (offer H ch u).1 < 0 → ret = -1 → chunks = (offer H ch u).2 →
      ∃ new, chunks = ch ++ new ∧
        (Succeeded H ch new → 0 ≤ tw → tw + (sinkCounts H ch new).sum ≤ INT_MAX →
          ret = tw + (sinkCounts H ch new).sum) := by
    intro ch u tw ret chunks hw _ hchunks
    rcases (offer_cases H ch u).1 hw with ⟨e, hh⟩ | ⟨e, hf⟩
    · refine ⟨[], by rw [hchunks, e]; simp, ?_⟩
      intro hs
      exact absurd (by simpa using hh) hs.1
    · refine ⟨[u], by rw [hchunks, e], ?_⟩
      intro hs
      obtain ⟨-, h2, h3, h4⟩ := succeeded_head H ch u [] hs
      unfold INT_MAX at h4
      rcases hf with hf | hf
      · rw [h2] at hf
        exact absurd hf (by decide)
      · rw [wrap32_of_range _ (by omega) (by omega)] at hf
        omega
  induction fuel with
  | zero =>
    intro i t tw ai ch ret chunks h
    simp [run] at h
  | succ fuel ih =>
    intro i t tw ai ch ret chunks h
    rw [run] at h
    by_cases h0 : format i ≠ 0
    · rw [if_pos h0] at h
      cases hn : next_piece P format args i ai with
      | none => rw [hn] at h; simp at h
      | some r =>
        obtain ⟨p, i1, ai1⟩ := r
        rw [hn] at h
        simp only at h
        by_cases hcap : ((t ++ p).length : Int) ≤ 4096
        · rw [if_pos hcap] at h
          by_cases hfl : ((t ++ p).length : Int) > 4000
          · rw [if_pos hfl] at h
            by_cases hw : (offer H ch (t ++ p)).1 < 0
            · rw [if_pos hw] at h
              simp only [Option.some.injEq, Prod.mk.injEq] at h
              exact fail ch (t ++ p) tw ret chunks hw h.1.symm h.2.symm
            · rw [if_neg hw] at h
              obtain ⟨e1, e2⟩ := (offer_cases H ch (t ++ p)).2 hw
              rw [e1, e2] at h
              obtain ⟨new, hnew, hret⟩ := ih _ _ _ _ _ _ _ h
              refine ⟨(t ++ p) :: new, by rw [hnew]; simp, ?_⟩
              intro hs htw hsum
              obtain ⟨-, -, h3, h4⟩ := succeeded_head H ch (t ++ p) new hs
              have hs2 := succeeded_tail H ch (t ++ p) new hs
              have hnn := sinkCounts_nonneg_of_succeeded H new _ hs2
              simp only [sinkCounts, List.sum_cons] at hsum ⊢
              unfold INT_MAX at hsum h4
              have hw1 : wrap32 (H.WriteConsoleA ch (t ++ p)).2 = (H.WriteConsoleA ch (t ++ p)).2 :=
                wrap32_of_range _ (by omega) (by omega)
              have hw2 : wrap32 (tw + (H.WriteConsoleA ch (t ++ p)).2) =
                  tw + (H.WriteConsoleA ch (t ++ p)).2 :=
                wrap32_of_range _ (by omega) (by omega)
              rw [hw1, hw2] at hret
              rw [hret hs2 (by omega) (by unfold INT_MAX; omega)]
              ring
          · rw [if_neg hfl] at h
            exact ih _ _ _ _ _ _ _ h
        · rw [if_neg hcap] at h
          simp at h
    · rw [if_neg h0] at h
      by_cases hpos : (t.length : Int) > 0
      · rw [if_pos hpos] at h
        by_cases hw : (offer H ch t).1 < 0
        · rw [if_pos hw] at h
          simp only [Option.some.injEq, Prod.mk.injEq] at h
          exact fail ch t tw ret chunks hw h.1.symm h.2.symm
        · rw [if_neg hw] at h
          obtain ⟨e1, e2⟩ := (offer_cases H ch t).2 hw
          rw [e1, e2] at h
          simp only [Option.some.injEq, Prod.mk.injEq] at h
          refine ⟨[t], h.2.symm, ?_⟩
          intro hs htw hsum
          obtain ⟨-, -, h3, h4⟩ := succeeded_head H ch t [] hs
          simp only [sinkCounts, List.sum_cons, List.sum_nil, add_zero] at hsum ⊢
          unfold INT_MAX at hsum h4
          rw [← h.1, wrap32_of_range (H.WriteConsoleA ch t).2 (by omega) (by omega)]
          exact wrap32_of_range _ (by omega) (by omega)
      · rw [if_neg hpos] at h
        simp only [Option.some.injEq, Prod.mk.injEq] at h
        refine ⟨[], by simp [h.2], ?_⟩
        intro _ _ _
        simp [sinkCounts, h.1]

theorem succeeded_acceptAll (ch new : List (List Int))
    (hlen : ∀ c ∈ new, (c.length : Int) ≤ INT_MAX) : Succeeded acceptAll ch new := by
  refine ⟨acceptAll_handle _, ?_⟩
  intro before c after hs
  refine ⟨acceptAll_handle _, rfl, ?_, ?_⟩
  · rw [acceptAll_write]
    exact Int.natCast_nonneg _
  · rw [acceptAll_write]
    exact hlen c (by rw [hs]; simp)

theorem sinkCounts_acceptAll (new : List (List Int)) :
    ∀ ch, (sinkCounts acceptAll ch new).sum = (new.flatten.length : Int) := by
  induction new with
  | nil =>
    intro ch
    rfl
  | cons c cs ih =>
    intro ch
    rw [sinkCounts, List.sum_cons, ih, acceptAll_write, List.flatten_cons, List.length_append]
    push_cast
    rfl

theorem offer_mem (H : Host) (ch : List (List Int)) (u c : List Int)
    (h : c ∈ (offer H ch u).2) : c ∈ ch ∨ c = u := by
  unfold offer at h
  by_cases hh : H.GetStdHandle ch = -1
  · rw [if_pos hh] at h
    exact Or.inl h
  · rw [if_neg hh] at h
    rcases List.mem_append.1 h with h | h
    · exact Or.inl h
    · exact Or.inr (List.mem_singleton.1 h)

/-- No chunk that the loop offers to the console has more than 4096 bytes. -/
theorem run_chunk_length (P : Platform) (H : Host) (format : Buf) (args : Int → Int)
    (fuel : Nat) : ∀ (i : Int) (t : List Int) (tw ai : Int) (ch : List (List Int)) (ret : Int)
    (chunks : List (List Int)), (t.length : Int) ≤ 4096 →
    (∀ c ∈ ch, (c.length : Int) ≤ 4096) →
    run P H format args fuel i t tw ai ch = some (ret, chunks) →
    ∀ c ∈ chunks, (c.length : Int) ≤ 4096 := by
  have hoff : ∀ (ch : List (List Int)) (u : List Int), (u.length : Int) ≤ 4096 →
      (∀ c ∈ ch, (c.length : Int) ≤ 4096) →
      ∀ c ∈ (offer H ch u).2, (c.length : Int) ≤ 4096 := by
    intro ch u hu hch c hc
    rcases offer_mem H ch u c hc with h | h
    · exact hch c h
    · rw [h]
      exact hu
  induction fuel with
  | zero =>
    intro i t tw ai ch ret chunks _ _ h
    simp [run] at h
  | succ fuel ih =>
    intro i t tw ai ch ret chunks ht hch h
    rw [run] at h
    by_cases h0 : format i ≠ 0
    · rw [if_pos h0] at h
      cases hn : next_piece P format args i ai with
      | none => rw [hn] at h; simp at h
      | some r =>
        obtain ⟨p, i1, ai1⟩ := r
        rw [hn] at h
        simp only at h
        by_cases hcap : ((t ++ p).length : Int) ≤ 4096
        · rw [if_pos hcap] at h
          by_cases hfl : ((t ++ p).length : Int) > 4000
          · rw [if_pos hfl] at h
            by_cases hw : (offer H ch (t ++ p)).1 < 0
            · rw [if_pos hw] at h
              simp only [Option.some.injEq, Prod.mk.injEq] at h
              rw [← h.2]
              exact hoff ch (t ++ p) hcap hch
            · rw [if_neg hw] at h
              exact ih _ _ _ _ _ _ _ (by simp) (hoff ch (t ++ p) hcap hch) h
          · rw [if_neg hfl] at h
            exact ih _ _ _ _ _ _ _ hcap hch h
        · rw [if_neg hcap] at h
          simp at h
    · rw [if_neg h0] at h
      by_cases hpos : (t.length : Int) > 0
      · rw [if_pos hpos] at h
        by_cases hw : (offer H ch t).1 < 0
        · rw [if_pos hw] at h
          simp only [Option.some.injEq, Prod.mk.injEq] at h
          rw [← h.2]
          exact hoff ch t ht hch
        · rw [if_neg hw] at h
          simp only [Option.some.injEq, Prod.mk.injEq] at h
          rw [← h.2]
          exact hoff ch t ht hch
      · rw [if_neg hpos] at h
        simp only [Option.some.injEq, Prod.mk.injEq] at h
        rw [← h.2]
        exact hch

/-- With a console that accepts every byte, every write of a call of
`custom_printf` succeeds. -/
theorem custom_printf_acceptAll_succeeded (P : Platform) (format : Buf) (args : Int → Int)
    (ret : Int) (chunks : List (List Int))
    (h : custom_printf P acceptAll (some format) args = some (ret, chunks)) :
    Succeeded acceptAll [] chunks := by
  rw [custom_printf_eq_run] at h
  have hl := run_chunk_length P acceptAll format args _ _ _ _ _ _ _ _ (by simp)
    (by intro c hc; simp at hc) h
  apply succeeded_acceptAll
  intro c hc
  have := hl c hc
  unfold INT_MAX
  omega

/-! ## Claims on the console -/

/-- The part of C21 that holds: when every write of the call succeeded, the
value returned by `custom_printf` is the sum of the byte counts the console
returned for the chunks, as long as that sum fits an `int`; with a console
that accepts every byte, the chunks offered are the rendered text and the
returned value is its length, as long as it fits an `int`. -/
theorem custom_printf_total_written (P : Platform) (format : Buf) (args : Int → Int)
    (ret : Int) (chunks : List (List Int)) :
    (∀ H, Succeeded H [] chunks → custom_printf P H (some format) args = some (ret, chunks) →
      (sinkCounts H [] chunks).sum ≤ INT_MAX → ret = (sinkCounts H [] chunks).sum) ∧
    (custom_printf P acceptAll (some format) args = some (ret, chunks) →
      ∃ pieces, render P format args 2147483648 0 0 = some pieces ∧
        chunks.flatten = pieces.flatten ∧
        ((pieces.flatten.length : Int) ≤ INT_MAX → ret = (pieces.flatten.length : Int))) := by
  constructor
  · intro H hH h hsum
    rw [custom_printf_eq_run] at h
    obtain ⟨new, hnew, hret⟩ := run_succeeded P H format args _ _ _ _ _ _ _ _ h
    rw [List.nil_append] at hnew
    subst hnew
    rw [hret hH (le_refl 0) (by rw [zero_add]; exact hsum), zero_add]
  · intro h
    rw [custom_printf_eq_run] at h
    obtain ⟨pieces, hr, hj, hret⟩ := run_acceptAll P format args _ _ _ _ _ _ _ _ (by simp) h
    refine ⟨pieces, hr, by simpa using hj, ?_⟩
    intro hlen
    have := hret wrap32_zero
    simp only [List.length_nil, Nat.cast_zero, add_zero, zero_add] at this
    rw [this]
    unfold INT_MAX at hlen
    exact wrap32_of_range _ (by omega) (by omega)

theorem custom_printf_total_written_witness :
    (4 : Int) = (sinkCounts acceptAll [] [bytes "100%"]).sum ∧
    ∃ pieces, render (examplePlatform "" 0) (Buf.lit "100%") (fun _ => 0) 2147483648 0 0 =
        some pieces ∧ [bytes "100%"].flatten = pieces.flatten ∧
      ((pieces.flatten.length : Int) ≤ INT_MAX → (4 : Int) = (pieces.flatten.length : Int)) :=
  have h := custom_printf_total_written (examplePlatform "" 0) (Buf.lit "100%") (fun _ => 0) 4
    [bytes "100%"]
  ⟨h.1 acceptAll
    (custom_printf_acceptAll_succeeded (examplePlatform "" 0) (Buf.lit "100%") (fun _ => 0) 4
      [bytes "100%"] (custom_printf_hundred_percent _ _))
    (custom_printf_hundred_percent _ _) (by decide),
    h.2 (custom_printf_hundred_percent _ _)⟩

/-- C22 as stated fails: a console that fails after having accepted 3 bytes
is offered the 5 bytes of `hello`; `custom_printf` returns -1, not 3. -/
theorem custom_printf_failure_not_total :
    custom_printf (examplePlatform "" 0) (failAfter 3) (some (Buf.lit "hello")) (fun _ => 0) =
      some (-1, [bytes "hello"]) ∧
    (failAfter 3).WriteConsoleA [] (bytes "hello") = (false, 3) := by
  rw [custom_printf_eq_run]
  decide

/-- C22, amended: with a console that fails after having accepted `N` bytes,
a call of `custom_printf` that offers more than `N` bytes reports the failure
by returning -1, whatever `N` is: the number of bytes accepted before the
failure is not reported.  A call that offers at most `N` bytes returns the
number of bytes offered, as long as it fits an `int`. -/
theorem custom_printf_failure_value (P : Platform) (N : Nat) (format : Buf)
    (args : Int → Int) (ret : Int) (chunks : List (List Int))
    (h : custom_printf P (failAfter N) (some format) args = some (ret, chunks)) :
    (N < chunks.flatten.length → ret = -1) ∧
    (chunks.flatten.length ≤ N → (chunks.flatten.length : Int) ≤ INT_MAX →
      ret = (chunks.flatten.length : Int)) := by
  rw [custom_printf_eq_run] at h
  obtain ⟨new, hnew, h1, h2⟩ := run_failAfter P N format args _ _ _ _ _ _ _ _ (by simp)
    (by simp) h
  rw [List.nil_append] at hnew
  subst hnew
  refine ⟨h1, ?_⟩
  intro hle hmax
  have := h2 hle (le_refl 0) (by rw [zero_add]; exact hmax)
  rw [this, zero_add]

theorem custom_printf_failure_value_witness :
    custom_printf (examplePlatform "" 0) (failAfter 3) (some (Buf.lit "hello")) (fun _ => 0) =
      some (-1, [bytes "hello"]) ∧
    3 < [bytes "hello"].flatten.length ∧ (-1 : Int) = -1 :=
  ⟨by rw [custom_printf_eq_run]; decide, by decide,
    (custom_printf_failure_value (examplePlatform "" 0) 3 (Buf.lit "hello") (fun _ => 0) (-1)
      [bytes "hello"] (by rw [custom_printf_eq_run]; decide)).1 (by decide)⟩

theorem scan_step_chunks (P : Platform) (format : Buf) (args : Int → Int) (s s1 : PState)
    (h : scan_step P format args s = some s1) : s1.chunks = s.chunks := by
  unfold scan_step at h
  split at h
  · split at h
    · exact absurd h (by simp)
    · split at h
      · exact absurd h (by simp)
      · split at h
        · rw [← Option.some.inj h]
        · exact absurd h (by simp)
  · split at h
    · rw [← Option.some.inj h]
    · exact absurd h (by simp)

theorem write_console_fails (H : Host) (ch : List (List Int)) (str : Buf) (len : Int)
    (h : H.GetStdHandle ch = -1 ∨ (H.WriteConsoleA ch (str.text len)).1 = false) :
    write_console H ch str len =
      (-1, if H.GetStdHandle ch = -1 then ch else ch ++ [str.text len]) := by
  unfold write_console
  by_cases hh : H.GetStdHandle ch = -1
  · rw [if_pos hh, if_pos hh]
  · rw [if_neg hh, if_neg hh]
    have hf := h.resolve_left hh
    simp only [hf, if_true]

theorem flush_fails (H : Host) (s : PState)
    (h : H.GetStdHandle s.chunks = -1 ∨
      (H.WriteConsoleA s.chunks (s.buffer.text s.buffer_pos)).1 = false) :
    flush H s = Sum.inl (-1, if H.GetStdHandle s.chunks = -1 then s.chunks
      else s.chunks ++ [s.buffer.text s.buffer_pos]) := by
  unfold flush
  simp only
  rw [write_console_fails H _ _ _ h, if_pos (by show (-1 : Int) < 0; decide)]

/-- C23: a failure of the console aborts the call.  When the flush after a
scanning step fails (invalid handle, or `WriteConsoleA` reports failure), the
loop returns -1 in that same iteration, with any fuel, so nothing more of the
format string is scanned; the chunks are those offered before, and the chunk
that failed when the handle was valid.  The same holds for the final flush,
when the format string is exhausted.  In every result of `custom_printf`, a
chunk on which `WriteConsoleA` reported failure is the last chunk offered,
after the chunks accepted before, and the value returned is -1. -/
theorem custom_printf_abort (P : Platform) (H : Host) (format : Buf) (args : Int → Int) :
    (∀ (fuel : Nat) (s s1 : PState), format s.i ≠ 0 → scan_step P format args s = some s1 →
      s1.buffer_pos > 4000 →
      (H.GetStdHandle s.chunks = -1 ∨
        (H.WriteConsoleA s.chunks (s1.buffer.text s1.buffer_pos)).1 = false) →
      custom_loop P H format args (fuel + 1) s =
        some (-1, if H.GetStdHandle s.chunks = -1 then s.chunks
          else s.chunks ++ [s1.buffer.text s1.buffer_pos])) ∧
    (∀ (fuel : Nat) (s : PState), format s.i = 0 → s.buffer_pos > 0 →
      (H.GetStdHandle s.chunks = -1 ∨
        (H.WriteConsoleA s.chunks (s.buffer.text s.buffer_pos)).1 = false) →
      custom_loop P H format args (fuel + 1) s =
        some (-1, if H.GetStdHandle s.chunks = -1 then s.chunks
          else s.chunks ++ [s.buffer.text s.buffer_pos])) ∧
    (∀ (ret : Int) (chunks before after : List (List Int)) (c : List Int),
      custom_printf P H (some format) args = some (ret, chunks) →
      chunks = before ++ c :: after → (H.WriteConsoleA before c).1 = false →
      after = [] ∧ ret = -1) := by
  refine ⟨?_, ?_, ?_⟩
  · intro fuel s s1 h0 hs hf hfail
    have hch := scan_step_chunks P format args s s1 hs
    rw [← hch] at hfail ⊢
    rw [custom_loop, if_pos h0, hs]
    simp only
    rw [if_pos hf, flush_fails H s1 hfail]
  · intro fuel s h0 hpos hfail
    rw [custom_loop_end P H format args fuel s h0]
    unfold finish
    rw [if_pos hpos, flush_fails H s hfail]
  · intro ret chunks before after c h hs hf
    rw [custom_printf_eq_run] at h
    obtain ⟨new, hnew, hall⟩ := run_failure P H format args _ _ _ _ _ _ _ _ h
    rw [List.nil_append] at hnew
    subst hnew
    exact hall before c after hs (by simpa using hf)

theorem custom_printf_abort_witness :
    custom_loop (examplePlatform "" 0) (failAfter 3) (Buf.lit "hello") (fun _ => 0) (0 + 1)
        (textState uninit 5 (bytes "hello") 0 0 []) =
      some (-1, if (failAfter 3).GetStdHandle [] = -1 then []
        else [] ++ [(uninit.write 0 (bytes "hello")).text 5]) ∧
    (([] : List (List Int)) = [] ∧ (-1 : Int) = -1) :=
  have h := custom_printf_abort (examplePlatform "" 0) (failAfter 3) (Buf.lit "hello")
    (fun _ => 0)
  ⟨h.2.1 0 (textState uninit 5 (bytes "hello") 0 0 []) (by decide) (by decide)
      (Or.inr (by decide)),
    h.2.2 (-1) [bytes "hello"] [] [] (bytes "hello") (by rw [custom_printf_eq_run]; decide)
      rfl (by decide)⟩

/-- The text that a format string without `%` renders to is the format
string itself, one piece for each character. -/
theorem render_literals (P : Platform) (format : Buf) (args : Int → Int) (ai : Int) :
    ∀ (n fuel : Nat) (i : Int), n < fuel → (∀ k : Nat, k < n → format (i + (k : Int)) ≠ 0 ∧
      format (i + (k : Int)) ≠ chr '%') → format (i + (n : Int)) = 0 →
    render P format args fuel i ai = some ((format.slice i n).map (fun c => [c])) := by
  intro n
  induction n with
  | zero =>
    intro fuel i hf _ hz
    obtain ⟨f, rfl⟩ : ∃ f, fuel = f + 1 := ⟨fuel - 1, by omega⟩
    rw [render]
    simp only [Nat.cast_zero, add_zero] at hz
    rw [if_neg (by simp [hz])]
    rfl
  | succ n ih =>
    intro fuel i hf hlit hz
    obtain ⟨f, rfl⟩ : ∃ f, fuel = f + 1 := ⟨fuel - 1, by omega⟩
    have h0 := hlit 0 (by omega)
    simp only [Nat.cast_zero, add_zero] at h0
    rw [render, if_pos h0.1]
    have hn : next_piece P format args i ai = some ([format i], i + 1, ai) := by
      unfold next_piece
      rw [if_neg (fun h => h0.2 h.1)]
    rw [hn]
    simp only
    rw [ih f (i + 1) (by omega)
      (fun k hk => by
        have := hlit (k + 1) (by omega)
        push_cast at this
        rwa [show i + 1 + (k : Int) = i + ((k : Int) + 1) by ring])
      (by
        push_cast at hz
        rwa [show i + 1 + (n : Int) = i + ((n : Int) + 1) by ring])]
    rw [Buf.slice_succ]
    rfl

/-- C25: refinement of the unbounded rendering.  When the format string
renders to the pieces `pieces` (one piece for each literal character and for
each padded field), then with a console that accepts every byte every result
of `custom_printf` offers chunks whose concatenation, in order, is the
concatenation of the pieces; and when every piece has at most 96 bytes,
`custom_printf` returns such a result. -/
theorem custom_printf_refines_render (P : Platform) (format : Buf) (args : Int → Int)
    (pieces : List (List Int)) (hr : render P format args 2147483648 0 0 = some pieces) :
    (∀ ret chunks, custom_printf P acceptAll (some format) args = some (ret, chunks) →
      chunks.flatten = pieces.flatten) ∧
    ((∀ p ∈ pieces, p.length ≤ 96) →
      ∃ ret chunks, custom_printf P acceptAll (some format) args = some (ret, chunks) ∧
        chunks.flatten = pieces.flatten) := by
  have h1 : ∀ ret chunks, custom_printf P acceptAll (some format) args = some (ret, chunks) →
      chunks.flatten = pieces.flatten := by
    intro ret chunks h
    rw [custom_printf_eq_run] at h
    obtain ⟨ps, hps, hj, -⟩ := run_acceptAll P format args _ _ _ _ _ _ _ _ (by simp) h
    rw [hr] at hps
    rw [Option.some.inj hps]
    simpa using hj
  refine ⟨h1, ?_⟩
  intro hfit
  obtain ⟨r, hrun⟩ := run_total P acceptAll format args _ 0 [] 0 0 [] pieces (by simp) hr hfit
  rw [← custom_printf_eq_run] at hrun
  exact ⟨r.1, r.2, hrun, h1 r.1 r.2 hrun⟩

theorem custom_printf_refines_render_witness :
    (∀ ret chunks, custom_printf (examplePlatform "" 0) acceptAll (some (Buf.lit "a%%b"))
        (fun _ => 0) = some (ret, chunks) →
      chunks.flatten = [bytes "a", bytes "%", bytes "b"].flatten) ∧
    ∃ ret chunks, custom_printf (examplePlatform "" 0) acceptAll (some (Buf.lit "a%%b"))
        (fun _ => 0) = some (ret, chunks) ∧
      chunks.flatten = [bytes "a", bytes "%", bytes "b"].flatten :=
  have h := custom_printf_refines_render (examplePlatform "" 0) (Buf.lit "a%%b") (fun _ => 0)
    [bytes "a", bytes "%", bytes "b"] (by decide)
  ⟨h.1, h.2 (by decide)⟩
/-! ## Claims on the conversions -/

theorem withIndex_index (idx : Int) (r : Option (Buf × Int)) (t : Buf) (len idx1 : Int)
    (h : withIndex idx r = some (t, len, idx1)) : idx1 = idx := by
  cases r with
  | none => simp [withIndex] at h
  | some p =>
    simp only [withIndex, Option.map_some', Option.some.injEq, Prod.mk.injEq] at h
    exact h.2.2.symm

/-- Every conversion that returns advances the argument index by the number
of slots of its conversion character. -/
theorem convert_index (P : Platform) (format precision : Int) (args : Int → Int)
    (arg_index : Int) (t : Buf) (len idx1 : Int)
    (h : convert P format precision args arg_index = some (t, len, idx1)) :
    idx1 = arg_index + slots P format := by
  unfold convert at h
  unfold slots
  simp only at h
  by_cases c1 : format = chr 'd' ∨ format = chr 'i'
  · rw [if_pos c1] at h
    rw [if_pos (by tauto)]
    exact withIndex_index _ _ _ _ _ h
  rw [if_neg c1] at h
  by_cases c2 : format = chr 'u'
  · rw [if_pos c2] at h
    rw [if_pos (by tauto)]
    exact withIndex_index _ _ _ _ _ h
  rw [if_neg c2] at h
  by_cases c3 : format = chr 'x'
  · rw [if_pos c3] at h
    rw [if_pos (by tauto)]
    exact withIndex_index _ _ _ _ _ h
  rw [if_neg c3] at h
  by_cases c4 : format = chr 'X'
  · rw [if_pos c4] at h
    rw [if_pos (by tauto)]
    exact withIndex_index _ _ _ _ _ h
  rw [if_neg c4] at h
  by_cases c5 : format = chr 'c'
  · rw [if_pos c5] at h
    rw [if_pos (by tauto)]
    simp only [Option.some.injEq, Prod.mk.injEq] at h
    exact h.2.2.symm
  rw [if_neg c5] at h
  by_cases c6 : format = chr 's'
  · rw [if_pos c6] at h
    rw [if_pos (by tauto)]
    exact withIndex_index _ _ _ _ _ h
  rw [if_neg c6] at h
  by_cases c7 : format = chr 'f'
  · rw [if_pos c7] at h
    have hn : ¬ (format = chr 'd' ∨ format = chr 'i' ∨ format = chr 'u' ∨ format = chr 'x' ∨
        format = chr 'X' ∨ format = chr 'c' ∨ format = chr 's' ∨ format = chr 'p') := by
      rw [c7]
      decide
    rw [if_neg hn, if_pos c7]
    have := withIndex_index _ _ _ _ _ h
    rw [this]
    split_ifs <;> rfl
  rw [if_neg c7] at h
  by_cases c8 : format = chr 'p'
  · rw [if_pos c8] at h
    rw [if_pos (by tauto)]
    exact withIndex_index _ _ _ _ _ h
  rw [if_neg c8] at h
  have hn : ¬ (format = chr 'd' ∨ format = chr 'i' ∨ format = chr 'u' ∨ format = chr 'x' ∨
      format = chr 'X' ∨ format = chr 'c' ∨ format = chr 's' ∨ format = chr 'p') := by
    tauto
  rw [if_neg hn, if_neg c7, add_zero]
  by_cases c9 : format = chr '%'
  · rw [if_pos c9] at h
    simp only [Option.some.injEq, Prod.mk.injEq] at h
    exact h.2.2.symm
  · rw [if_neg c9] at h
    simp only [Option.some.injEq, Prod.mk.injEq] at h
    exact h.2.2.symm

theorem slots_nonneg (P : Platform) (c : Int) : 0 ≤ slots P c := by
  unfold slots
  split_ifs <;> decide

theorem format_arg_index_eq (P : Platform) (buffer : Buf)
    (buffer_pos c width precision flags : Int) (args : Int → Int) (arg_index : Int)
    (st : Buf × Int × Int)
    (h : format_arg P buffer buffer_pos c width precision flags args arg_index = some st) :
    st.2.2 = arg_index + slots P c := by
  cases hc : convert P c precision args arg_index with
  | none =>
    rw [(format_arg_padding P buffer buffer_pos c width precision flags args arg_index).2 hc] at h
    simp at h
  | some r =>
    obtain ⟨temp, len, idx1⟩ := r
    rw [((format_arg_padding P buffer buffer_pos c width precision flags args arg_index).1
      temp len idx1 hc).1] at h
    rw [← Option.some.inj h]
    exact convert_index P c precision args arg_index temp len idx1 hc

theorem format_args_index (P : Platform) (args : Int → Int) (specs : List (Int × Int × Int)) :
    ∀ (st st1 : Buf × Int × Int), format_args P args specs st = some st1 →
      st1.2.2 = st.2.2 + (specs.map (fun spec => slots P spec.1)).sum := by
  induction specs with
  | nil =>
    intro st st1 h
    simp only [format_args, Option.some.injEq] at h
    simp [h]
  | cons spec specs ih =>
    intro st st1 h
    rw [format_args] at h
    cases hf : format_arg P st.1 st.2.1 spec.1 spec.2.1 spec.2.2 0 args st.2.2 with
    | none => rw [hf] at h; simp at h
    | some st2 =>
      rw [hf] at h
      simp only at h
      rw [ih st2 st1 h, format_arg_index_eq P _ _ _ _ _ _ _ _ st2 hf, List.map_cons, List.sum_cons]
      ring

/-- C24: the argument index only moves forward.  A call of `format_arg`
that returns leaves the argument index advanced by the number of slots of the
conversion character: 1 for `d i u x X c s p`, 2 for `f` when `int` and
pointer have the same size and 1 otherwise, 0 for `%` and every other
character; the index never decreases.  After successive calls for a list of
specifiers the index is the start index plus the sum of their slots, so each
specifier reads the slot at the sum of the slots consumed before it. -/
theorem format_arg_index (P : Platform) (args : Int → Int) :
    (∀ (buffer : Buf) (buffer_pos c width precision flags arg_index : Int)
      (st : Buf × Int × Int),
      format_arg P buffer buffer_pos c width precision flags args arg_index = some st →
      st.2.2 = arg_index + slots P c ∧ arg_index ≤ st.2.2) ∧
    (∀ c, c = chr 'd' ∨ c = chr 'i' ∨ c = chr 'u' ∨ c = chr 'x' ∨ c = chr 'X' ∨ c = chr 'c' ∨
      c = chr 's' ∨ c = chr 'p' → slots P c = 1) ∧
    slots P (chr 'f') = (if P.int_is_ptr then 2 else 1) ∧
    (∀ c, c = chr '%' ∨ Unrecognized c → slots P c = 0) ∧
    (∀ (specs : List (Int × Int × Int)) (st st1 : Buf × Int × Int),
      format_args P args specs st = some st1 →
      st1.2.2 = st.2.2 + (specs.map (fun spec => slots P spec.1)).sum) := by
  refine ⟨?_, ?_, ?_, ?_, format_args_index P args⟩
  · intro buffer buffer_pos c width precision flags arg_index st h
    have := format_arg_index_eq P buffer buffer_pos c width precision flags args arg_index st h
    have := slots_nonneg P c
    constructor <;> omega
  · intro c hc
    unfold slots
    rw [if_pos hc]
  · unfold slots
    rw [if_neg (by decide), if_pos rfl]
  · intro c hc
    unfold slots
    rcases hc with rfl | hu
    · rw [if_neg (by decide), if_neg (by decide)]
    · unfold Unrecognized at hu
      rw [if_neg (by tauto), if_neg (by tauto)]

theorem format_args_example :
    ∃ buffer, format_args (examplePlatform "" 0) (fun _ => 7)
        [(chr 'd', 0, -1), (chr 'q', 0, -1)] (uninit, 0, 0) = some (buffer, 3, 1) := by
  have h1 := ((format_arg_padding (examplePlatform "" 0) uninit 0 (chr 'd') 0 (-1) 0
    (fun _ => 7) 0).1 _ _ _ (convert_d_nonneg (examplePlatform "" 0) (-1) (fun _ => 7) 0
      (by decide) (by decide))).1
  have hd : decimal ((fun _ => 7 : Int → Int) 0).toNat = [chr '7'] := by
    simp [decimal, digitChars, digitChar, toChar, chr]
  rw [hd] at h1
  have h2 := fun buffer => format_arg_unrecognized (examplePlatform "" 0) buffer 1 (chr 'q') 0
    (-1) 0 (fun _ => 7) 1 (by decide)
  have e1 : (0 : Int) + max 0 (([chr '7'] : List Int).length : Int) = 1 := by decide
  have e2 : (0 : Int) + 1 = 1 := by decide
  have e3 : (1 : Int) + max 0 2 = 3 := by decide
  refine ⟨?_, ?_⟩
  swap
  · rw [format_args]
    simp only
    rw [h1]
    simp only
    rw [format_args]
    simp only
    rw [e1, e2, h2, e3]
    exact rfl

theorem format_arg_index_witness :
    ((0 + 1 : Int) = 0 + slots (examplePlatform "" 0) (chr 'd') ∧ (0 : Int) ≤ 0 + 1) ∧
    (1 : Int) = 0 + ([(chr 'd', 0, -1), (chr 'q', 0, -1)].map
      (fun (spec : Int × Int × Int) => slots (examplePlatform "" 0) spec.1)).sum :=
  have h := format_arg_index (examplePlatform "" 0) (fun _ => 7)
  ⟨h.1 uninit 0 (chr 'd') 0 (-1) 0 0 _
      ((format_arg_padding (examplePlatform "" 0) uninit 0 (chr 'd') 0 (-1) 0
        (fun _ => 7) 0).1 _ _ _ (convert_d_nonneg (examplePlatform "" 0) (-1) (fun _ => 7) 0
          (by decide) (by decide))).1,
    format_args_example.elim (fun buffer hb =>
      h.2.2.2.2 [(chr 'd', 0, -1), (chr 'q', 0, -1)] (uninit, 0, 0) (buffer, 3, 1) hb)⟩
/-- The hexadecimal text of an `unsigned int`: 1 to 8 characters, each a
decimal digit or one of `a` - `f`. -/
theorem uitoa_text_hex (v : Int) :
    ∃ t, uitoa_text (toUnsigned v) 16 = some t ∧ 1 ≤ t.length ∧ t.length ≤ 8 ∧
      ∀ c ∈ t, (chr '0' ≤ c ∧ c ≤ chr '9') ∨ (chr 'a' ≤ c ∧ c ≤ chr 'f') := by
  have h0 : 0 ≤ toUnsigned v := by unfold toUnsigned; omega
  have h1 : toUnsigned v < 4294967296 := by unfold toUnsigned; omega
  obtain ⟨n, hn⟩ := Int.eq_ofNat_of_zero_le h0
  rw [hn] at h1 ⊢
  by_cases hz : n = 0
  · subst hz
    refine ⟨[chr '0'], by simp [uitoa_text], by simp, by simp, ?_⟩
    intro c hc
    simp only [List.mem_singleton] at hc
    subst hc
    left
    decide
  · have hpos : 0 < n := Nat.pos_of_ne_zero hz
    have hlt : n < 2 ^ 32 := by omega
    have hu := uitoa_text_nat n 16 hpos hlt (by decide) (by decide)
    refine ⟨(digitChars 16 n).reverse, by exact_mod_cast hu, ?_, ?_, ?_⟩
    · rw [List.length_reverse, length_digitChars, Nat.digits_def' (by decide) hpos]
      simp
    · rw [List.length_reverse, length_digitChars]
      exact digits_length_le 16 (by decide) 8 n (by omega)
    · intro c hc
      simp only [digitChars, List.mem_reverse, List.mem_map] at hc
      obtain ⟨d, hd, rfl⟩ := hc
      have hd16 := Nat.digits_lt_base (by decide : 1 < 16) hd
      simp only [chr, Char.reduceToNat, Nat.cast_ofNat]
      by_cases h10 : d < 10
      · rw [digitChar_lt_ten _ (by omega) (by omega)]
        omega
      · rw [digitChar_ge_ten _ (by omega) (by omega)]
        omega

/-- The loop that converts to upper case changes exactly the characters
`a` - `f` at the indices it visits. -/
theorem upper_loop_apply (n : Nat) : ∀ (temp : Buf) (i j : Int),
    upper_loop n temp i j =
      if i ≤ j ∧ j < i + (n : Int) then
        (if chr 'a' ≤ temp j ∧ temp j ≤ chr 'f' then toChar (temp j - chr 'a' + chr 'A')
         else temp j)
      else temp j := by
  induction n with
  | zero =>
    intro temp i j
    simp only [upper_loop, Nat.cast_zero, add_zero]
    rw [if_neg (by omega)]
  | succ n ih =>
    intro temp i j
    rw [upper_loop]
    by_cases hc : chr 'a' ≤ temp i ∧ temp i ≤ chr 'f'
    · rw [if_pos hc, ih]
      by_cases hj : j = i
      · subst hj
        have hr2 : j ≤ j ∧ j < j + ((n + 1 : Nat) : Int) := by push_cast; omega
        rw [if_neg (by omega), Buf.set_same, if_pos hr2, if_pos hc]
      · rw [Buf.set_other _ _ _ _ hj]
        by_cases hr : i + 1 ≤ j ∧ j < i + 1 + (n : Int)
        · have hr2 : i ≤ j ∧ j < i + ((n + 1 : Nat) : Int) := by push_cast; omega
          rw [if_pos hr, if_pos hr2]
        · have hr2 : ¬ (i ≤ j ∧ j < i + ((n + 1 : Nat) : Int)) := by push_cast; omega
          rw [if_neg hr, if_neg hr2]
    · rw [if_neg hc, ih]
      by_cases hj : j = i
      · subst hj
        have hr2 : j ≤ j ∧ j < j + ((n + 1 : Nat) : Int) := by push_cast; omega
        rw [if_neg (by omega), if_pos hr2, if_neg hc]
      · by_cases hr : i + 1 ≤ j ∧ j < i + 1 + (n : Int)
        · have hr2 : i ≤ j ∧ j < i + ((n + 1 : Nat) : Int) := by push_cast; omega
          rw [if_pos hr, if_pos hr2]
        · have hr2 : ¬ (i ≤ j ∧ j < i + ((n + 1 : Nat) : Int)) := by push_cast; omega
          rw [if_neg hr, if_neg hr2]

theorem upper_loop_text (temp : Buf) (n : Nat) :
    (upper_loop n temp 0).text (n : Int) = (temp.text (n : Int)).map upperHex := by
  apply List.ext_getElem
  · simp [Buf.length_text]
  · intro k h1 h2
    simp only [Buf.length_text, Int.toNat_ofNat] at h1
    simp only [Buf.text, List.getElem_map, List.getElem_range, Int.toNat_ofNat]
    rw [upper_loop_apply, if_pos (by omega)]
    unfold upperHex
    by_cases hc : chr 'a' ≤ temp (k : Int) ∧ temp (k : Int) ≤ chr 'f'
    · rw [if_pos hc, if_pos hc]
      simp only [chr, Char.reduceToNat, Nat.cast_ofNat, toChar] at hc ⊢
      omega
    · rw [if_neg hc, if_neg hc]

/-- C26: for every argument slot, read as an `unsigned int`, the conversions
`x` and `X` both return, with the same length and the same argument index;
the text of `X` is the text of `x` with every `a` - `f` replaced by
`A` - `F`, and it holds no lower-case letter. -/
theorem convert_upper_hex (P : Platform) (precision : Int) (args : Int → Int)
    (arg_index : Int) :
    ∃ tx tX n, convert P (chr 'x') precision args arg_index = some (tx, n, arg_index + 1) ∧
      convert P (chr 'X') precision args arg_index = some (tX, n, arg_index + 1) ∧
      tX.text n = (tx.text n).map upperHex ∧
      (∀ c ∈ tX.text n, ¬ (chr 'a' ≤ c ∧ c ≤ chr 'z')) := by
  obtain ⟨t, ht, hl1, hl8, hmem⟩ := uitoa_text_hex (args arg_index)
  have hfit : ((t.length : Int) < 128) := by omega
  have hx : convert P (chr 'x') precision args arg_index =
      some ((written uninit t).1, (t.length : Int), arg_index + 1) := by
    unfold convert
    simp only
    rw [if_neg (by decide), if_neg (by decide), if_pos trivial, my_uitoa_eq, ht]
    simp only [Option.map_some', fits, written, if_pos hfit, withIndex]
  have hX : convert P (chr 'X') precision args arg_index =
      some (upper_loop t.length (written uninit t).1 0, (t.length : Int), arg_index + 1) := by
    unfold convert
    simp only
    rw [if_neg (by decide), if_neg (by decide), if_neg (by decide), if_pos trivial, my_uitoa_eq,
      ht]
    simp only [Option.map_some', fits, written, if_pos hfit, withIndex, Int.toNat_ofNat]
  have htext : (written uninit t).1.text (t.length : Int) = t := written_text uninit t
  have hup : (upper_loop t.length (written uninit t).1 0).text (t.length : Int) =
      t.map upperHex := by
    rw [upper_loop_text, htext]
  refine ⟨_, _, _, hx, hX, by rw [hup, htext], ?_⟩
  rw [hup]
  intro c hc
  simp only [List.mem_map] at hc
  obtain ⟨d, hd, rfl⟩ := hc
  have := hmem d hd
  unfold upperHex
  simp only [chr, Char.reduceToNat, Nat.cast_ofNat] at this ⊢
  split_ifs <;> omega

/-- The example of C26: 255 renders as `ff` with `x` and as `FF` with `X`. -/
theorem convert_upper_hex_example (P : Platform) (precision : Int) :
    (convert P (chr 'x') precision (fun _ => 255) 0).map (fun r => (r.1.text r.2.1, r.2.1)) =
      some (bytes "ff", 2) ∧
    (convert P (chr 'X') precision (fun _ => 255) 0).map (fun r => (r.1.text r.2.1, r.2.1)) =
      some (bytes "FF", 2) := by
  constructor
  · unfold convert
    simp only
    rw [if_neg (by decide), if_neg (by decide), if_pos trivial]
    decide
  · unfold convert
    simp only
    rw [if_neg (by decide), if_neg (by decide), if_neg (by decide), if_pos trivial]
    decide

/-- C27: with no precision given the conversion `f` uses precision 6: for
every platform, buffer, width and argument block, `format_arg` on `f` with a
negative precision, in particular the unset value -1, gives the same result
as with precision 6, and so does the conversion itself. -/
theorem format_arg_default_precision (P : Platform) (buffer : Buf)
    (buffer_pos width precision flags : Int) (args : Int → Int) (arg_index : Int)
    (h : precision < 0) :
    convert P (chr 'f') precision args arg_index = convert P (chr 'f') 6 args arg_index ∧
    format_arg P buffer buffer_pos (chr 'f') width precision flags args arg_index =
      format_arg P buffer buffer_pos (chr 'f') width 6 flags args arg_index := by
  have hc : convert P (chr 'f') precision args arg_index =
      convert P (chr 'f') 6 args arg_index := by
    have h1 : precision < 0 ∧ (chr 'f' = chr 'f' ∨ chr 'f' = chr 'g') := ⟨h, Or.inl rfl⟩
    have h2 : ¬ ((6 : Int) < 0 ∧ (chr 'f' = chr 'f' ∨ chr 'f' = chr 'g')) := by decide
    unfold convert
    rw [if_pos h1, if_neg h2]
  refine ⟨hc, ?_⟩
  unfold format_arg
  rw [hc]

theorem format_arg_default_precision_witness :
    convert (examplePlatform "" 0) (chr 'f') (-1) (fun _ => 0) 0 =
      convert (examplePlatform "" 0) (chr 'f') 6 (fun _ => 0) 0 ∧
    format_arg (examplePlatform "" 0) uninit 0 (chr 'f') 0 (-1) 0 (fun _ => 0) 0 =
      format_arg (examplePlatform "" 0) uninit 0 (chr 'f') 0 6 0 (fun _ => 0) 0 :=
  format_arg_default_precision (examplePlatform "" 0) uninit 0 0 (-1) 0 (fun _ => 0) 0
    (by decide)
/-- An example of C27: the value one half renders as `0.500000` when no
precision is given. -/
theorem format_arg_default_precision_example (args : Int → Int) (arg_index : Int) :
    (convert (examplePlatform "" (1 / 2)) (chr 'f') (-1) args arg_index).map
      (fun r => (r.1.text r.2.1, r.2.2)) = some (bytes "0.500000", arg_index + 2) := by
  have hd : dtoa_text id (1 / 2) 6 = some (bytes "0.500000") := by
    have hp : power_loop (6 : Int).toNat 1 = 1000000 := by decide
    have hc : castInt (1 / 2 : ℚ) = 0 :=
      castInt_of_floor _ 0 (by norm_num) (by rw [Int.floor_eq_iff]; norm_num) (by decide)
    have hf : dtoa_frac_int id (1 / 2) 6 = 500000 := by
      unfold dtoa_frac_int
      simp only [hc, hp, id]
      exact castInt_of_floor _ 500000 (by norm_num) (by rw [Int.floor_eq_iff]; norm_num)
        (by decide)
    have hneg : ¬ ((1 / 2 : ℚ) < 0) := by norm_num
    unfold dtoa_text
    simp only [if_neg hneg, hc, hf]
    decide
  have h1 : (-1 : Int) < 0 ∧ (chr 'f' = chr 'f' ∨ chr 'f' = chr 'g') := by decide
  have hlen : (((bytes "0.500000").length : Nat) : Int) < 128 := by decide
  have ht := written_text uninit (bytes "0.500000")
  unfold convert
  rw [if_pos h1, if_neg (by decide), if_neg (by decide), if_neg (by decide), if_neg (by decide),
    if_neg (by decide), if_neg (by decide), if_pos rfl, if_pos (by decide)]
  have e : (examplePlatform "" (1 / 2)).fl = id := rfl
  have e2 : (examplePlatform "" (1 / 2)).dbl (args arg_index) (args (arg_index + 1)) = 1 / 2 :=
    rfl
  have e4 : (if (6 : Int) ≥ 0 then (6 : Int) else 6) = 6 := by decide
  rw [e, e2, e4, my_dtoa_eq, hd]
  simp only [Option.map_some', fits, written, if_pos hlen, withIndex, if_true]
  simp only [written] at ht
  rw [ht]

/-- The text of `convert_p`: the prefix `0x`, then the text `my_uitoa` left
through the pointer `temp + 2`. -/
theorem convert_p_text (value : Int) (t : List Int)
    (ht : uitoa_text (toUnsigned value) 16 = some t) (hl : t.length ≤ 8) :
    ∃ temp, convert_p value = some (temp, 2 + (t.length : Int)) ∧
      temp.text (2 + (t.length : Int)) = bytes "0x" ++ t := by
  have hs : (fits 128 (my_strcpy uninit (Buf.lit "0x"))).map (fun r => (r.1 0, r.1 1)) =
      some (chr '0', chr 'x') := by decide
  unfold convert_p
  cases hf : fits 128 (my_strcpy uninit (Buf.lit "0x")) with
  | none => rw [hf] at hs; simp at hs
  | some p =>
    obtain ⟨temp0, n0⟩ := p
    rw [hf] at hs
    simp only [Option.map_some', Option.some.injEq, Prod.mk.injEq] at hs
    simp only
    rw [my_uitoa_eq, ht]
    simp only [Option.map_some', written, fits]
    rw [if_pos (by omega)]
    refine ⟨_, rfl, ?_⟩
    apply List.ext_getElem
    · simp only [Buf.length_text, List.length_append]
      have : (bytes "0x").length = 2 := by decide
      omega
    · intro k h1 h2
      simp only [Buf.length_text] at h1
      simp only [Buf.text, List.getElem_map, List.getElem_range]
      rw [Buf.write_apply]
      by_cases hk : k < 2
      · rw [if_neg (by omega)]
        have hk2 : k = 0 ∨ k = 1 := by omega
        rcases hk2 with rfl | rfl
        · simp only [Nat.cast_zero, zero_sub]
          rw [show (-2 : Int) + 2 = 0 by decide, hs.1]
          rfl
        · simp only [Nat.cast_one]
          rw [show (1 : Int) - 2 + 2 = 1 by decide, hs.2]
          rfl
      · rw [if_pos (by simp only [List.length_append, List.length_singleton]; push_cast; omega)]
        have e : ((k : Int) - 2 - 0).toNat = k - 2 := by omega
        have hb : (bytes "0x").length = 2 := by decide
        rw [e, List.getElem_append_right (by omega)]
        simp only [hb]
        rw [List.getD_eq_getElem?_getD, List.getElem?_append_left (by omega),
          List.getElem?_eq_getElem (by omega)]
        rfl

/-- C28: for every argument slot `v`, read as an `unsigned int`, `my_uitoa`
in base 16 returns a text of 1 to 8 characters, and the conversion `p`
returns the two characters `0x` followed by that text, with length 2 plus
the length of that text, and consumes one argument. -/
theorem convert_pointer (P : Platform) (precision : Int) (args : Int → Int)
    (arg_index : Int) :
    ∃ out n temp, my_uitoa (toUnsigned (args arg_index)) uninit 16 = some (out, n) ∧
      1 ≤ n ∧ n ≤ 8 ∧
      convert P (chr 'p') precision args arg_index = some (temp, 2 + n, arg_index + 1) ∧
      temp.text (2 + n) = bytes "0x" ++ out.text n := by
  obtain ⟨t, ht, hl1, hl8, -⟩ := uitoa_text_hex (args arg_index)
  obtain ⟨temp, hp, htext⟩ := convert_p_text (args arg_index) t ht hl8
  refine ⟨(written uninit t).1, (t.length : Int), temp, ?_, by omega, by omega, ?_, ?_⟩
  · rw [my_uitoa_eq, ht]
    rfl
  · unfold convert
    simp only
    rw [if_neg (by decide), if_neg (by decide), if_neg (by decide), if_neg (by decide),
      if_neg (by decide), if_neg (by decide), if_neg (by decide), if_pos trivial, hp]
    rfl
  · rw [htext]
    have := written_text uninit t
    simp only [written] at this ⊢
    rw [this]

/-- The example of C28: the value 255 renders as `0xff`. -/
theorem convert_pointer_example (P : Platform) (precision : Int) :
    (convert P (chr 'p') precision (fun _ => 255) 0).map (fun r => (r.1.text r.2.1, r.2.1)) =
      some (bytes "0xff", 4) := by
  unfold convert
  simp only
  rw [if_neg (by decide), if_neg (by decide), if_neg (by decide), if_neg (by decide),
    if_neg (by decide), if_neg (by decide), if_neg (by decide), if_pos trivial]
  decide
/-! ## A format string that renders to more than `INT_MAX` bytes -/

theorem wideFormat_at (K m : Nat) (h : m < K) :
    wideFormat K (4 * (m : Int)) = chr '%' ∧ wideFormat K (4 * (m : Int) + 1) = chr '9' ∧
    wideFormat K (4 * (m : Int) + 1 + 1) = chr '6' ∧
    wideFormat K (4 * (m : Int) + 1 + 1 + 1) = chr '%' := by
  unfold wideFormat
  refine ⟨?_, ?_, ?_, ?_⟩
  · rw [if_pos (by omega), if_pos (by omega)]
  · rw [if_pos (by omega), if_neg (by omega), if_pos (by omega)]
  · rw [if_pos (by omega), if_neg (by omega), if_neg (by omega), if_pos (by omega)]
  · rw [if_pos (by omega), if_neg (by omega), if_neg (by omega), if_neg (by omega)]

theorem wideFormat_end (K : Nat) : wideFormat K (4 * (K : Int)) = 0 := by
  unfold wideFormat
  rw [if_neg (by omega)]

theorem next_piece_wide (P : Platform) (args : Int → Int) (K m : Nat) (h : m < K) (ai : Int) :
    next_piece P (wideFormat K) args (4 * (m : Int)) ai =
      some (widePiece, 4 * ((m + 1 : Nat) : Int), ai) := by
  obtain ⟨h0, h1, h2, h3⟩ := wideFormat_at K m h
  have hd1 : wideFormat K (4 * (m : Int) + 1) ≥ chr '0' ∧
      wideFormat K (4 * (m : Int) + 1) ≤ chr '9' := by rw [h1]; decide
  have hd2 : wideFormat K (4 * (m : Int) + 1 + 1) ≥ chr '0' ∧
      wideFormat K (4 * (m : Int) + 1 + 1) ≤ chr '9' := by rw [h2]; decide
  have hd3 : ¬ (wideFormat K (4 * (m : Int) + 1 + 1 + 1) ≥ chr '0' ∧
      wideFormat K (4 * (m : Int) + 1 + 1 + 1) ≤ chr '9') := by rw [h3]; decide
  have hdig : digits_loop 2147483648 (wideFormat K) (4 * (m : Int) + 1) 0 =
      some (4 * (m : Int) + 1 + 1 + 1, 96) := by
    rw [show (2147483648 : Nat) = 2147483645 + 1 + 1 + 1 from rfl, digits_loop, if_pos hd1,
      digits_loop, if_pos hd2, digits_loop, if_neg hd3, h1, h2]
    rfl
  have hp : parse_format (wideFormat K) (4 * (m : Int) + 1) =
      some (4 * (m : Int) + 1 + 1 + 1, 96, -1, 0) := by
    unfold parse_format
    rw [hdig]
    simp only
    rw [if_neg (by rw [h3]; decide)]
  have hc := convert_percent P (-1) args ai
  have htext : (uninit.write 0 ([chr '%'] ++ [0])).text 1 = [chr '%'] :=
    Buf.text_write_append uninit [chr '%'] [0]
  unfold next_piece
  rw [if_pos ⟨h0, by rw [h1]; decide⟩, hp]
  simp only
  rw [h3, hc]
  simp only
  rw [htext]
  have e : (4 * (m : Int) + 1 + 1 + 1 + 1) = 4 * ((m + 1 : Nat) : Int) := by
    push_cast
    ring
  rw [e]
  rfl

theorem render_wide (P : Platform) (args : Int → Int) (K : Nat) (ai : Int) :
    ∀ (r fuel m : Nat), m + r = K → r < fuel →
      render P (wideFormat K) args fuel (4 * (m : Int)) ai =
        some (List.replicate r widePiece) := by
  intro r
  induction r with
  | zero =>
    intro fuel m hm hf
    obtain ⟨f, rfl⟩ : ∃ f, fuel = f + 1 := ⟨fuel - 1, by omega⟩
    have : m = K := by omega
    subst this
    rw [render, if_neg (by rw [wideFormat_end]; simp)]
    rfl
  | succ r ih =>
    intro fuel m hm hf
    obtain ⟨f, rfl⟩ : ∃ f, fuel = f + 1 := ⟨fuel - 1, by omega⟩
    have h0 := (wideFormat_at K m (by omega)).1
    rw [render, if_pos (by rw [h0]; decide), next_piece_wide P args K m (by omega)]
    simp only
    rw [ih f (m + 1) (by omega) (by omega)]
    rfl

theorem length_widePiece : widePiece.length = 96 := by decide

/-- The result of `custom_printf` on `K` specifiers `%96%`, with a console
that accepts every byte. -/
theorem custom_printf_wide (P : Platform) (args : Int → Int) (K : Nat) (hK : K < 2147483648) :
    ∃ chunks, custom_printf P acceptAll (some (wideFormat K)) args =
        some (wrap32 (96 * (K : Int)), chunks) ∧
      chunks.flatten.length = 96 * K := by
  have hr := render_wide P args K 0 K 2147483648 0 (by omega) hK
  have hr0 : render P (wideFormat K) args 2147483648 0 0 =
      some (List.replicate K widePiece) := hr
  have hlen : (List.replicate K widePiece).flatten.length = 96 * K := by
    rw [List.length_flatten, List.map_replicate, List.sum_replicate, length_widePiece]
    simp only [smul_eq_mul]
    ring
  obtain ⟨r, hrun⟩ := run_total P acceptAll (wideFormat K) args 2147483648 0 [] 0 0 [] _
    (by simp) hr0
    (by
      intro p hp
      rw [List.eq_of_mem_replicate hp, length_widePiece])
  obtain ⟨ret, chunks⟩ := r
  obtain ⟨pieces, hps, hj, hret⟩ := run_acceptAll P (wideFormat K) args _ _ _ _ _ _ _ _
    (by simp) hrun
  rw [hr0] at hps
  have hps2 := Option.some.inj hps
  subst hps2
  have hret2 := hret wrap32_zero
  rw [hlen] at hret2
  have hv : ret = wrap32 (96 * (K : Int)) := by
    rw [hret2]
    congr 1
    simp only [List.length_nil, Nat.cast_zero, zero_add, add_zero]
    push_cast
    rfl
  rw [hv] at hrun
  refine ⟨chunks, by rw [custom_printf_eq_run]; exact hrun, ?_⟩
  rw [hj, List.flatten_nil, List.nil_append, List.nil_append]
  exact hlen

/-- The result of `custom_printf` on `K` specifiers `%96%`, with a console
that accepts every byte: every write succeeds and the counts add up to the
`96 * K` bytes offered. -/
theorem custom_printf_wide_counts (P : Platform) (args : Int → Int) (K : Nat)
    (hK : K < 2147483648) :
    ∃ chunks, custom_printf P acceptAll (some (wideFormat K)) args =
        some (wrap32 (96 * (K : Int)), chunks) ∧
      chunks.flatten.length = 96 * K ∧
      Succeeded acceptAll [] chunks ∧
      (sinkCounts acceptAll [] chunks).sum = ((96 * K : Nat) : Int) := by
  obtain ⟨chunks, h1, h2⟩ := custom_printf_wide P args K hK
  refine ⟨chunks, h1, h2, custom_printf_acceptAll_succeeded _ _ _ _ _ h1, ?_⟩
  rw [sinkCounts_acceptAll, h2]

/-- C21, at the failing input: a format string of 22369622 specifiers
`%96%` renders to 2147483712 bytes.  With a console that accepts every byte,
`custom_printf` returns, every write succeeds, the chunks it offers have
2147483712 bytes in all and the counts the console returns add up to
2147483712, and the value `custom_printf` returns is -2147483584. -/
theorem custom_printf_total_wraps :
    ∃ chunks, custom_printf (examplePlatform "" 0) acceptAll (some (wideFormat 22369622))
        (fun _ => 0) = some (-2147483584, chunks) ∧
      chunks.flatten.length = 2147483712 ∧
      Succeeded acceptAll [] chunks ∧
      (sinkCounts acceptAll [] chunks).sum = 2147483712 :=
  custom_printf_wide_counts (examplePlatform "" 0) (fun _ => 0) 22369622 (by decide)

/-! ## Claims on the characters of the integer conversions -/

/-- The character of a digit value below 36, and its value read back. -/
theorem digitChar_spec (d : Int) (h0 : 0 ≤ d) (h1 : d < 36) :
    ((chr '0' ≤ digitChar d ∧ digitChar d ≤ chr '9') ∨
      (chr 'a' ≤ digitChar d ∧ digitChar d ≤ chr 'z')) ∧
    digitValue (digitChar d) = some d ∧
    digitChar d = (if d < 10 then chr '0' + d else chr 'a' + (d - 10)) ∧
    ¬ (chr 'A' ≤ digitChar d ∧ digitChar d ≤ chr 'Z') ∧
    digitChar d ≠ chr '-' ∧ digitChar d ≠ chr '+' := by
  refine ⟨?_, digitValue_digitChar d h0 h1, ?_⟩
  · by_cases h : d < 10
    · rw [digitChar_lt_ten d h0 h]
      simp only [chr, Char.reduceToNat, Nat.cast_ofNat]
      omega
    · rw [digitChar_ge_ten d (by omega) h1]
      simp only [chr, Char.reduceToNat, Nat.cast_ofNat]
      omega
  · by_cases h : d < 10
    · rw [digitChar_lt_ten d h0 h, if_pos h]
      simp only [chr, Char.reduceToNat, Nat.cast_ofNat]
      omega
    · rw [digitChar_ge_ten d (by omega) h1, if_neg h]
      simp only [chr, Char.reduceToNat, Nat.cast_ofNat]
      omega

/-- C31: for `0 ≤ n ≤ INT_MAX` and `2 ≤ b ≤ 36`, `my_itoa(n, b)` returns,
and every character of its text is `0` - `9` or a lower-case letter
`a` - `z`; its digit value `d` is below `b`, the character is `'0' + d` for
`d < 10` and `'a' + (d - 10)` otherwise; no character is an upper-case
letter or a sign. -/
theorem my_itoa_characters (n b : Int) (str : Buf) (hn : 0 ≤ n) (hn2 : n ≤ INT_MAX)
    (hb : 2 ≤ b) (hb2 : b ≤ 36) :
    ∃ out len, my_itoa n str b = some (out, len) ∧
      ∀ c ∈ out.text len,
        ((chr '0' ≤ c ∧ c ≤ chr '9') ∨ (chr 'a' ≤ c ∧ c ≤ chr 'z')) ∧
        (∃ d, digitValue c = some d ∧ 0 ≤ d ∧ d < b ∧
          c = (if d < 10 then chr '0' + d else chr 'a' + (d - 10))) ∧
        ¬ (chr 'A' ≤ c ∧ c ≤ chr 'Z') ∧ c ≠ chr '-' ∧ c ≠ chr '+' := by
  unfold INT_MAX at hn2
  obtain ⟨n', rfl⟩ := Int.eq_ofNat_of_zero_le hn
  obtain ⟨b', rfl⟩ := Int.eq_ofNat_of_zero_le (by omega : (0 : Int) ≤ b)
  have key : ∀ d : Nat, (d : Int) < (b' : Int) →
      ((chr '0' ≤ digitChar d ∧ digitChar d ≤ chr '9') ∨
        (chr 'a' ≤ digitChar d ∧ digitChar d ≤ chr 'z')) ∧
      (∃ e, digitValue (digitChar d) = some e ∧ 0 ≤ e ∧ e < (b' : Int) ∧
        digitChar d = (if e < 10 then chr '0' + e else chr 'a' + (e - 10))) ∧
      ¬ (chr 'A' ≤ digitChar d ∧ digitChar d ≤ chr 'Z') ∧
      digitChar d ≠ chr '-' ∧ digitChar d ≠ chr '+' := by
    intro d hd
    obtain ⟨h1, h2, h3, h4, h5, h6⟩ := digitChar_spec (d : Int) (by omega) (by omega)
    exact ⟨h1, ⟨d, h2, by omega, hd, h3⟩, h4, h5, h6⟩
  by_cases h0 : n' = 0
  · subst h0
    refine ⟨(written str [chr '0']).1, (written str [chr '0']).2, by rw [my_itoa_eq]; rfl, ?_⟩
    intro c hc
    rw [written_text] at hc
    simp only [List.mem_singleton] at hc
    subst hc
    have := key 0 (by omega)
    have e : digitChar ((0 : Nat) : Int) = chr '0' := by decide
    rwa [e] at this
  · have hpos : 0 < n' := Nat.pos_of_ne_zero h0
    refine ⟨(written str (digitChars b' n').reverse).1, (written str (digitChars b' n').reverse).2,
      by rw [my_itoa_eq, itoa_text_nat n' b' hpos (by omega) (by omega)]; rfl, ?_⟩
    intro c hc
    rw [written_text] at hc
    simp only [digitChars, List.mem_reverse, List.mem_map] at hc
    obtain ⟨d, hd, rfl⟩ := hc
    have := Nat.digits_lt_base (by omega : 1 < b') hd
    exact key d (by omega)

theorem my_itoa_characters_witness :
    ∃ out len, my_itoa 255 uninit 16 = some (out, len) ∧
      ∀ c ∈ out.text len,
        ((chr '0' ≤ c ∧ c ≤ chr '9') ∨ (chr 'a' ≤ c ∧ c ≤ chr 'z')) ∧
        (∃ d, digitValue c = some d ∧ 0 ≤ d ∧ d < 16 ∧
          c = (if d < 10 then chr '0' + d else chr 'a' + (d - 10))) ∧
        ¬ (chr 'A' ≤ c ∧ c ≤ chr 'Z') ∧ c ≠ chr '-' ∧ c ≠ chr '+' :=
  my_itoa_characters 255 16 uninit (by decide) (by decide) (by decide) (by decide)

/-- C32: for `0 ≤ n ≤ 2^31 - 1` and `2 ≤ b ≤ 36`, `my_itoa(n, b)` and
`my_uitoa(n, b)` both return, with the same buffer, hence the same text, and
the same length. -/
theorem my_uitoa_eq_my_itoa (n b : Int) (str : Buf) (hn : 0 ≤ n) (hn2 : n ≤ INT_MAX)
    (hb : 2 ≤ b) (hb2 : b ≤ 36) :
    ∃ out len, my_itoa n str b = some (out, len) ∧ my_uitoa n str b = some (out, len) ∧
      0 < len ∧ textOf (my_uitoa n str b) = textOf (my_itoa n str b) := by
  unfold INT_MAX at hn2
  obtain ⟨n', rfl⟩ := Int.eq_ofNat_of_zero_le hn
  obtain ⟨b', rfl⟩ := Int.eq_ofNat_of_zero_le (by omega : (0 : Int) ≤ b)
  by_cases h0 : n' = 0
  · subst h0
    have e1 : my_itoa ((0 : Nat) : Int) str (b' : Int) = some (written str [chr '0']) := by
      rw [my_itoa_eq]; rfl
    have e2 : my_uitoa ((0 : Nat) : Int) str (b' : Int) = some (written str [chr '0']) := by
      rw [my_uitoa_eq]; rfl
    exact ⟨_, _, e1, e2, by simp [written], by rw [e1, e2]⟩
  · have hpos : 0 < n' := Nat.pos_of_ne_zero h0
    have e1 : my_itoa (n' : Int) str (b' : Int) =
        some (written str (digitChars b' n').reverse) := by
      rw [my_itoa_eq, itoa_text_nat n' b' hpos (by omega) (by omega)]; rfl
    have e2 : my_uitoa (n' : Int) str (b' : Int) =
        some (written str (digitChars b' n').reverse) := by
      rw [my_uitoa_eq, uitoa_text_nat n' b' hpos (by omega) (by omega) (by omega)]; rfl
    refine ⟨_, _, e1, e2, ?_, by rw [e1, e2]⟩
    simp only [written, List.length_reverse, length_digitChars]
    rw [Nat.digits_def' (by omega) hpos]
    simp

theorem my_uitoa_eq_my_itoa_witness :
    ∃ out len, my_itoa 255 uninit 16 = some (out, len) ∧ my_uitoa 255 uninit 16 = some (out, len) ∧
      0 < len ∧ textOf (my_uitoa 255 uninit 16) = textOf (my_itoa 255 uninit 16) :=
  my_uitoa_eq_my_itoa 255 16 uninit (by decide) (by decide) (by decide) (by decide)
/-- The decimal text of an `unsigned int`. -/
theorem uitoa_text_decimal (u : Nat) (hu : u < 4294967296) :
    uitoa_text (u : Int) 10 = some (decimal u) ∧ (decimal u).length ≤ 10 := by
  by_cases hz : u = 0
  · subst hz
    exact ⟨rfl, by decide⟩
  · have hpos : 0 < u := Nat.pos_of_ne_zero hz
    have h := uitoa_text_nat u 10 hpos (by omega) (by decide) (by decide)
    simp only [Nat.cast_ofNat] at h
    refine ⟨by rw [h]; simp only [decimal, if_neg hz], ?_⟩
    simp only [decimal, if_neg hz, List.length_reverse, length_digitChars]
    exact digits_length_le 10 (by decide) 10 u (by omega)

/-- C33: for every argument slot `a`, the conversion `u` returns the decimal
numeral of `a mod 2^32`, made of digits only, and consumes one argument; a
slot holding -1 renders as `4294967295`, while the conversion `d` renders it
as `-1`. -/
theorem convert_unsigned (P : Platform) (precision : Int) (args : Int → Int)
    (arg_index : Int) :
    ∃ temp len, convert P (chr 'u') precision args arg_index = some (temp, len, arg_index + 1) ∧
      temp.text len = decimal (args arg_index % 4294967296).toNat ∧
      (∀ c ∈ temp.text len, chr '0' ≤ c ∧ c ≤ chr '9') ∧
      (args arg_index = -1 → temp.text len = bytes "4294967295" ∧
        (convert P (chr 'd') precision args arg_index).map (fun r => r.1.text r.2.1) =
          some (bytes "-1")) := by
  have h0 : 0 ≤ args arg_index % 4294967296 := by omega
  have h1 : args arg_index % 4294967296 < 4294967296 := by omega
  obtain ⟨u, hu⟩ := Int.eq_ofNat_of_zero_le h0
  obtain ⟨ht, hl⟩ := uitoa_text_decimal u (by omega)
  have hfit : (((decimal u).length : Nat) : Int) < 128 := by omega
  have hc : convert P (chr 'u') precision args arg_index =
      some ((written uninit (decimal u)).1, ((decimal u).length : Int), arg_index + 1) := by
    unfold convert
    simp only
    rw [if_neg (by decide), if_pos trivial, my_uitoa_eq]
    unfold toUnsigned
    rw [hu, ht]
    simp only [Option.map_some', fits, written, if_pos hfit, withIndex]
  have htext : (written uninit (decimal u)).1.text ((decimal u).length : Int) = decimal u :=
    written_text uninit _
  refine ⟨_, _, hc, ?_, ?_, ?_⟩
  · rw [htext, hu, Int.toNat_ofNat]
  · rw [htext]
    exact fun c hc => decimal_mem u c hc
  · intro hm
    rw [htext]
    have hu2 : u = 4294967295 := by
      rw [hm] at hu
      omega
    constructor
    · rw [hu2]
      simp [decimal, digitChars, digitChar, toChar, chr, bytes]
    · have hd : (fits 128 (my_itoa (-1) uninit 10)).map (fun r => r.1.text r.2) =
          some (bytes "-1") := by
        rw [my_itoa_eq]
        have : itoa_text (-1) 10 = some (bytes "-1") := by decide
        rw [this]
        simp only [Option.map_some', fits, written]
        rw [if_pos (by decide)]
        simp only [Option.map_some']
        exact congrArg some (Buf.text_write_append uninit (bytes "-1") [0])
      unfold convert
      simp only
      rw [if_pos (Or.inl trivial), hm]
      cases hf : fits 128 (my_itoa (-1) uninit 10) with
      | none => rw [hf] at hd; simp at hd
      | some r =>
        rw [hf] at hd
        simpa [withIndex] using hd

theorem convert_unsigned_witness :
    ∃ temp len, convert (examplePlatform "" 0) (chr 'u') (-1) (fun _ => -1) 0 =
        some (temp, len, 0 + 1) ∧
      temp.text len = bytes "4294967295" ∧
      (convert (examplePlatform "" 0) (chr 'd') (-1) (fun _ => -1) 0).map
        (fun r => r.1.text r.2.1) = some (bytes "-1") :=
  (convert_unsigned (examplePlatform "" 0) (-1) (fun _ => -1) 0).elim
    (fun temp h => h.elim (fun len h2 => ⟨temp, len, h2.1, (h2.2.2.2 rfl).1, (h2.2.2.2 rfl).2⟩))

/-- C38: for a null string argument the conversion `s` renders the six
characters `(null)` whatever the precision, set or unset, also below 6, and
consumes one argument; with no width `format_arg` appends exactly these six
characters. -/
theorem convert_null_precision (P : Platform) (buffer : Buf)
    (buffer_pos precision flags : Int) (args : Int → Int) (arg_index : Int)
    (h : args arg_index = 0) :
    (∃ temp, convert P (chr 's') precision args arg_index = some (temp, 6, arg_index + 1) ∧
      temp.text 6 = bytes "(null)") ∧
    format_arg P buffer buffer_pos (chr 's') 0 precision flags args arg_index =
      some (buffer.write buffer_pos (bytes "(null)"), buffer_pos + 6, arg_index + 1) := by
  obtain ⟨temp, hc, ht⟩ := convert_s_null P precision args arg_index h
  refine ⟨⟨temp, hc, ht⟩, ?_⟩
  obtain ⟨hf, -⟩ := (format_arg_padding P buffer buffer_pos (chr 's') 0 precision flags args
    arg_index).1 temp 6 (arg_index + 1) hc
  rw [hf, ht]
  rfl

theorem convert_null_precision_witness :
    (∃ temp, convert (examplePlatform "abc" 0) (chr 's') 2 (fun _ => 0) 0 =
        some (temp, 6, 0 + 1) ∧ temp.text 6 = bytes "(null)") ∧
    format_arg (examplePlatform "abc" 0) uninit 0 (chr 's') 0 2 0 (fun _ => 0) 0 =
      some (uninit.write 0 (bytes "(null)"), 0 + 6, 0 + 1) :=
  convert_null_precision (examplePlatform "abc" 0) uninit 0 2 0 (fun _ => 0) 0 rfl

/-- C39: precision affects only the conversions `s` and `f`: for every
other conversion character, recognized or not, the conversion (text, length
and argument index) and the result of `format_arg` are the same for every two
precision values. -/
theorem format_arg_precision_frame (P : Platform) (buffer : Buf)
    (buffer_pos c width flags : Int) (args : Int → Int) (arg_index : Int)
    (hs : c ≠ chr 's') (hf : c ≠ chr 'f') (p1 p2 : Int) :
    convert P c p1 args arg_index = convert P c p2 args arg_index ∧
    format_arg P buffer buffer_pos c width p1 flags args arg_index =
      format_arg P buffer buffer_pos c width p2 flags args arg_index := by
  have hc : convert P c p1 args arg_index = convert P c p2 args arg_index := by
    unfold convert
    simp only [if_neg hs, if_neg hf]
  refine ⟨hc, ?_⟩
  unfold format_arg
  rw [hc]

theorem format_arg_precision_frame_witness :
    convert (examplePlatform "" 0) (chr 'd') (-1) (fun _ => 7) 0 =
      convert (examplePlatform "" 0) (chr 'd') 3 (fun _ => 7) 0 ∧
    format_arg (examplePlatform "" 0) uninit 0 (chr 'd') 5 (-1) 0 (fun _ => 7) 0 =
      format_arg (examplePlatform "" 0) uninit 0 (chr 'd') 5 3 0 (fun _ => 7) 0 :=
  format_arg_precision_frame (examplePlatform "" 0) uninit 0 (chr 'd') 5 0 (fun _ => 7) 0
    (by decide) (by decide) (-1) 3
/-! ## The digit loops end within 32 iterations -/

/-- The digit loop of `my_itoa` on a value of magnitude below `base ^ k`
ends within `k` iterations, for every base from 2 on. -/
theorem itoa_list_total (base : Int) (hb : 2 ≤ base) :
    ∀ (k fuel : Nat) (num : Int), k ≤ fuel → num.natAbs < base.natAbs ^ k →
      ∃ l, itoa_list fuel num base = some l ∧ l.length ≤ k := by
  intro k
  induction k with
  | zero =>
    intro fuel num _ h
    have h0 : num = 0 := by
      simp only [pow_zero, Nat.lt_one_iff, Int.natAbs_eq_zero] at h
      exact h
    subst h0
    cases fuel <;> exact ⟨[], by simp [itoa_list], by simp⟩
  | succ k ih =>
    intro fuel num hf h
    obtain ⟨f, rfl⟩ : ∃ f, fuel = f + 1 := ⟨fuel - 1, by omega⟩
    rw [itoa_list]
    by_cases h0 : num = 0
    · rw [if_pos h0]
      exact ⟨[], rfl, by simp⟩
    · have hc : ¬ (base = 0 ∨ (num = INT_MIN ∧ base = -1)) := by omega
      rw [if_neg h0, if_neg hc]
      have hd : (Int.tdiv num base).natAbs < base.natAbs ^ k := by
        rw [Int.natAbs_tdiv]
        apply Nat.div_lt_of_lt_mul
        rw [pow_succ] at h
        rw [Nat.mul_comm]
        exact h
      obtain ⟨l, hl, hlen⟩ := ih f (Int.tdiv num base) (by omega) hd
      rw [hl]
      exact ⟨_, rfl, by simp only [List.length_cons]; omega⟩

/-- The digit loop of `my_uitoa` on a value below `2^32` ends within 32
iterations, for every base from 2 on. -/
theorem uitoa_list_total (u b : Nat) (hu : u < 2 ^ 32) (hb : 2 ≤ b) (hb2 : b < 2147483648) :
    ∃ l, uitoa_list 32 (u : Int) (b : Int) = some l ∧ l.length ≤ 32 :=
  ⟨digitChars b u, uitoa_list_nat 32 u b hb hb2 hu,
    by rw [length_digitChars]; exact digits_length_le_32 b u hb hu⟩

/-- C40: for every 32-bit value and every base from 2 on, the digit loops of
`my_itoa` and `my_uitoa` end within 32 iterations; `my_itoa` and `my_uitoa`
return texts of at most 32 characters, `my_itoa` in base 10 of at most 11,
sign included; with its NUL the text fits an array of 128 bytes, and the
base-10 text of `my_itoa` with its NUL fits an array of 32 bytes. -/
theorem digit_loops_bounded (num base : Int) (str : Buf) (h1 : INT_MIN ≤ num)
    (h2 : num ≤ INT_MAX) (hb : 2 ≤ base) (hb2 : base ≤ INT_MAX) :
    (∃ str1 i, itoa_digits 32 num base str 0 = some (str1, i) ∧ 0 ≤ i ∧ i ≤ 32) ∧
    (∃ str1 i, uitoa_digits 32 (toUnsigned num) base str 0 = some (str1, i) ∧ 0 ≤ i ∧ i ≤ 32) ∧
    (∃ out len, my_itoa num str base = some (out, len) ∧
      ((out.text len).length : Int) = len ∧ len ≤ 32 ∧ (base = 10 → len ≤ 11)) ∧
    (∃ out len, my_uitoa (toUnsigned num) str base = some (out, len) ∧
      ((out.text len).length : Int) = len ∧ len ≤ 32) ∧
    fits 128 (my_itoa num str base) = my_itoa num str base ∧
    fits 128 (my_uitoa (toUnsigned num) str base) = my_uitoa (toUnsigned num) str base ∧
    fits 32 (my_itoa num str 10) = my_itoa num str 10 := by
  unfold INT_MIN at h1
  unfold INT_MAX at h2 hb2
  have hbn : (2 : Nat) ≤ base.natAbs := by omega
  have hpow32 : (2 : Nat) ^ 32 ≤ base.natAbs ^ 32 := Nat.pow_le_pow_left hbn 32
  have hnum : num.natAbs < base.natAbs ^ 32 := by
    have : num.natAbs ≤ 2147483648 := by omega
    have : (2 : Nat) ^ 32 = 4294967296 := by norm_num
    omega
  -- the text of my_itoa for every base
  have itoa_any : ∀ (b : Int), 2 ≤ b → ∃ t, itoa_text num b = some t ∧ t.length ≤ 32 ∧
      (b = 10 → t.length ≤ 11) := by
    intro b hb'
    by_cases hten : b = 10
    · subst hten
      obtain ⟨t, ht, hl⟩ := itoa_text_total num (by unfold INT_MIN; omega)
        (by unfold INT_MAX; omega)
      exact ⟨t, ht, by omega, fun _ => hl⟩
    · unfold itoa_text
      by_cases hz : num = 0
      · rw [if_pos hz]
        exact ⟨_, rfl, by simp, fun _ => by simp⟩
      · rw [if_neg hz, if_neg (by omega)]
        have hbn' : (2 : Nat) ≤ b.natAbs := by omega
        have hp : (2 : Nat) ^ 32 ≤ b.natAbs ^ 32 := Nat.pow_le_pow_left hbn' 32
        obtain ⟨l, hl, hlen⟩ := itoa_list_total b hb' 32 32 num (le_refl _)
          (by
            have : num.natAbs ≤ 2147483648 := by omega
            have : (2 : Nat) ^ 32 = 4294967296 := by norm_num
            omega)
        rw [hl]
        exact ⟨_, rfl, by simpa using hlen, fun h => absurd h hten⟩
  have hu0 : 0 ≤ toUnsigned num := by unfold toUnsigned; omega
  have hu1 : toUnsigned num < 4294967296 := by unfold toUnsigned; omega
  obtain ⟨u, hu⟩ := Int.eq_ofNat_of_zero_le hu0
  obtain ⟨b', hb'⟩ := Int.eq_ofNat_of_zero_le (by omega : (0 : Int) ≤ base)
  have uitoa_any : ∃ t, uitoa_text (toUnsigned num) base = some t ∧ t.length ≤ 32 := by
    rw [hu, hb']
    unfold uitoa_text
    by_cases hz : (u : Int) = 0
    · rw [if_pos hz]
      exact ⟨_, rfl, by simp⟩
    · rw [if_neg hz]
      obtain ⟨l, hl, hlen⟩ := uitoa_list_total u b' (by norm_num; omega) (by omega) (by omega)
      rw [hl]
      exact ⟨_, rfl, by simpa using hlen⟩
  refine ⟨?_, ?_, ?_, ?_, ?_, ?_, ?_⟩
  · obtain ⟨l, hl, hlen⟩ := itoa_list_total base hb 32 32 num (le_refl _) hnum
    rw [itoa_digits_eq, hl]
    exact ⟨_, _, rfl, by omega, by omega⟩
  · rw [hu, hb']
    obtain ⟨l, hl, hlen⟩ := uitoa_list_total u b' (by norm_num; omega) (by omega) (by omega)
    rw [uitoa_digits_eq, hl]
    exact ⟨_, _, rfl, by omega, by omega⟩
  · obtain ⟨t, ht, hl, hl10⟩ := itoa_any base hb
    rw [my_itoa_eq, ht]
    refine ⟨_, _, rfl, ?_, ?_, ?_⟩
    · rw [Buf.text_write_append]
    · show ((t.length : Nat) : Int) ≤ 32
      omega
    · intro h10
      have := hl10 h10
      show ((t.length : Nat) : Int) ≤ 11
      omega
  · obtain ⟨t, ht, hl⟩ := uitoa_any
    rw [my_uitoa_eq, ht]
    refine ⟨_, _, rfl, ?_, ?_⟩
    · rw [Buf.text_write_append]
    · show ((t.length : Nat) : Int) ≤ 32
      omega
  · obtain ⟨t, ht, hl, -⟩ := itoa_any base hb
    rw [my_itoa_eq, ht]
    simp only [Option.map_some', fits, written]
    rw [if_pos (by omega)]
  · obtain ⟨t, ht, hl⟩ := uitoa_any
    rw [my_uitoa_eq, ht]
    simp only [Option.map_some', fits, written]
    rw [if_pos (by omega)]
  · obtain ⟨t, ht, -, hl10⟩ := itoa_any 10 (by decide)
    have := hl10 rfl
    rw [my_itoa_eq, ht]
    simp only [Option.map_some', fits, written]
    rw [if_pos (by omega)]

theorem digit_loops_bounded_witness :
    (∃ str1 i, itoa_digits 32 INT_MIN 2 uninit 0 = some (str1, i) ∧ 0 ≤ i ∧ i ≤ 32) ∧
    (∃ str1 i, uitoa_digits 32 (toUnsigned INT_MIN) 2 uninit 0 = some (str1, i) ∧
      0 ≤ i ∧ i ≤ 32) ∧
    (∃ out len, my_itoa INT_MIN uninit 2 = some (out, len) ∧
      ((out.text len).length : Int) = len ∧ len ≤ 32 ∧ ((2 : Int) = 10 → len ≤ 11)) ∧
    (∃ out len, my_uitoa (toUnsigned INT_MIN) uninit 2 = some (out, len) ∧
      ((out.text len).length : Int) = len ∧ len ≤ 32) ∧
    fits 128 (my_itoa INT_MIN uninit 2) = my_itoa INT_MIN uninit 2 ∧
    fits 128 (my_uitoa (toUnsigned INT_MIN) uninit 2) = my_uitoa (toUnsigned INT_MIN) uninit 2 ∧
    fits 32 (my_itoa INT_MIN uninit 10) = my_itoa INT_MIN uninit 10 :=
  digit_loops_bounded INT_MIN 2 uninit (by decide) (by decide) (by decide) (by decide)

/-- The bound of 32 iterations is reached: `INT_MIN` in base 2 takes 32
iterations in `my_itoa`, and `2^32 - 1` in base 2 takes 32 in `my_uitoa`. -/
theorem digit_loops_bound_reached :
    (itoa_digits 32 INT_MIN 2 uninit 0).map (fun r => r.2) = some 32 ∧
    (uitoa_digits 32 4294967295 2 uninit 0).map (fun r => r.2) = some 32 := by
  decide
/-! ## The iterations of the loop -/

/-- The loop of the source runs `loop_body` at every iteration. -/
theorem custom_loop_body (P : Platform) (H : Host) (format : Buf) (args : Int → Int)
    (fuel : Nat) (s : PState) :
    custom_loop P H format args (fuel + 1) s =
      if format s.i ≠ 0 then
        match loop_body P H format args s with
        | none => none
        | some (Sum.inl r) => some r
        | some (Sum.inr s1) => custom_loop P H format args fuel s1
      else some (finish H s) := by
  rw [custom_loop]
  by_cases h0 : format s.i ≠ 0
  · rw [if_pos h0, if_pos h0]
    unfold loop_body
    cases hs : scan_step P format args s with
    | none => rfl
    | some s1 =>
      simp only
      by_cases hf : s1.buffer_pos > 4000
      · rw [if_pos hf, if_pos hf]
        cases flush H s1 with
        | inl r => rfl
        | inr s2 => rfl
      · rw [if_neg hf, if_neg hf]
  · rw [if_neg h0, if_neg h0]

theorem flush_buffer_pos (H : Host) (s s2 : PState) (h : flush H s = Sum.inr s2) :
    s2.buffer_pos = 0 := by
  unfold flush at h
  simp only at h
  split at h
  · exact absurd h (by simp)
  · rw [← Sum.inr.inj h]

/-- After an iteration that goes on, at most 4000 bytes are buffered. -/
theorem loop_body_buffer_pos (P : Platform) (H : Host) (format : Buf) (args : Int → Int)
    (s s1 : PState) (h : loop_body P H format args s = some (Sum.inr s1)) :
    s1.buffer_pos ≤ 4000 := by
  unfold loop_body at h
  cases hs : scan_step P format args s with
  | none => rw [hs] at h; simp at h
  | some t =>
    rw [hs] at h
    simp only at h
    by_cases hf : t.buffer_pos > 4000
    · rw [if_pos hf] at h
      cases hfl : flush H t with
      | inl r => rw [hfl] at h; simp at h
      | inr s2 =>
        rw [hfl] at h
        simp only [Option.some.injEq, Sum.inr.injEq] at h
        rw [← h]
        show s2.buffer_pos ≤ 4000
        rw [flush_buffer_pos H t s2 hfl]
        decide
    · rw [if_neg hf] at h
      simp only [Option.some.injEq, Sum.inr.injEq] at h
      rw [← h]
      show t.buffer_pos ≤ 4000
      omega

/-- A flush whose write succeeds: exactly the buffered bytes are offered, the
count is added and the buffer is empty. -/
theorem flush_succeeds (H : Host) (s : PState) (w : Int)
    (hh : H.GetStdHandle s.chunks ≠ -1)
    (hw : H.WriteConsoleA s.chunks (s.buffer.text s.buffer_pos) = (true, w))
    (h0 : 0 ≤ w) (h1 : w ≤ INT_MAX) :
    flush H s = Sum.inr { s with total_written := wrap32 (s.total_written + w), buffer_pos := 0,
                                 chunks := s.chunks ++ [s.buffer.text s.buffer_pos] } := by
  unfold INT_MAX at h1
  have hwc : write_console H s.chunks s.buffer s.buffer_pos =
      (w, s.chunks ++ [s.buffer.text s.buffer_pos]) := by
    unfold write_console
    rw [if_neg hh, hw]
    simp only [Bool.true_eq_false, if_false]
    rw [wrap32_of_range _ (by omega) (by omega)]
  unfold flush
  rw [hwc]
  simp only
  rw [if_neg (by omega)]

theorem loop_state_buffer_pos (P : Platform) (H : Host) (format : Buf) (args : Int → Int)
    (n : Nat) (s : PState) (h : loop_state P H format args n = some s) :
    s.buffer_pos ≤ 4000 := by
  cases n with
  | zero =>
    simp only [loop_state, Option.some.injEq] at h
    rw [← h]
    decide
  | succ n =>
    rw [loop_state] at h
    cases hp : loop_state P H format args n with
    | none => rw [hp] at h; simp at h
    | some s0 =>
      rw [hp] at h
      simp only at h
      by_cases h0 : format s0.i ≠ 0
      · rw [if_pos h0] at h
        cases hb : loop_body P H format args s0 with
        | none => rw [hb] at h; simp at h
        | some r =>
          cases r with
          | inl r => rw [hb] at h; simp at h
          | inr s1 =>
            rw [hb] at h
            simp only [Option.some.injEq] at h
            rw [← h]
            exact loop_body_buffer_pos P H format args s0 s1 hb
      · rw [if_neg h0] at h
        simp at h

/-- C34: the flush is triggered at the threshold 4000, below the capacity.
In every iteration of the loop of `custom_printf`, a scanning step that
leaves more than 4000 bytes buffered is followed by a flush, and when the
write succeeds the flush offers exactly the buffered bytes, adds the count
and resets the buffer position to 0; so at every loop head, after any number
of iterations, at most 4000 bytes are buffered. -/
theorem custom_printf_flush_threshold (P : Platform) (H : Host) (format : Buf)
    (args : Int → Int) :
    (∀ (s s1 : PState) (w : Int), scan_step P format args s = some s1 →
      s1.buffer_pos > 4000 → H.GetStdHandle s1.chunks ≠ -1 →
      H.WriteConsoleA s1.chunks (s1.buffer.text s1.buffer_pos) = (true, w) →
      0 ≤ w → w ≤ INT_MAX →
      loop_body P H format args s =
        some (Sum.inr { i := s1.i + 1, buffer := s1.buffer, buffer_pos := 0,
                        total_written := wrap32 (s1.total_written + w),
                        arg_index := s1.arg_index,
                        chunks := s1.chunks ++ [s1.buffer.text s1.buffer_pos] })) ∧
    (∀ (s s1 : PState), scan_step P format args s = some s1 → s1.buffer_pos ≤ 4000 →
      loop_body P H format args s =
        some (Sum.inr { i := s1.i + 1, buffer := s1.buffer, buffer_pos := s1.buffer_pos,
                        total_written := s1.total_written, arg_index := s1.arg_index,
                        chunks := s1.chunks })) ∧
    (∀ (s s1 : PState), loop_body P H format args s = some (Sum.inr s1) →
      s1.buffer_pos ≤ 4000) ∧
    (∀ (n : Nat) (s : PState), loop_state P H format args n = some s →
      s.buffer_pos ≤ 4000) := by
  refine ⟨?_, ?_, loop_body_buffer_pos P H format args, loop_state_buffer_pos P H format args⟩
  · intro s s1 w hs hf hh hw h0 h1
    unfold loop_body
    rw [hs]
    simp only
    rw [if_pos hf, flush_succeeds H s1 w hh hw h0 h1]
  · intro s s1 hs hf
    unfold loop_body
    rw [hs]
    simp only
    rw [if_neg (by omega)]

theorem custom_printf_flush_threshold_witness :
    loop_body (examplePlatform "" 0) acceptAll (Buf.lit "a") (fun _ => 0)
        { i := 0, buffer := uninit, buffer_pos := 4000, total_written := 0, arg_index := 0,
          chunks := [] } =
      some (Sum.inr { i := 0 + 1, buffer := uninit.set 4000 (chr 'a'), buffer_pos := 0,
                      total_written := wrap32 (0 +
                        ((((uninit.set 4000 (chr 'a')).text (4000 + 1)).length : Nat) : Int)),
                      arg_index := 0,
                      chunks := [] ++ [(uninit.set 4000 (chr 'a')).text (4000 + 1)] }) ∧
    loop_body (examplePlatform "" 0) acceptAll (Buf.lit "a") (fun _ => 0) initial =
      some (Sum.inr { i := 0 + 1, buffer := uninit.set 0 (chr 'a'), buffer_pos := 0 + 1,
                      total_written := 0, arg_index := 0, chunks := [] }) ∧
    (0 + 1 : Int) ≤ 4000 :=
  have h := custom_printf_flush_threshold (examplePlatform "" 0) acceptAll (Buf.lit "a")
    (fun _ => 0)
  have hs0 : scan_step (examplePlatform "" 0) (Buf.lit "a") (fun _ => 0)
      { i := 0, buffer := uninit, buffer_pos := 4000, total_written := 0, arg_index := 0,
        chunks := [] } =
      some { i := 0, buffer := uninit.set 4000 (chr 'a'), buffer_pos := 4000 + 1,
             total_written := 0, arg_index := 0, chunks := [] } := by
    unfold scan_step
    rw [if_neg (by decide), if_pos (by decide)]
    rfl
  have hs : scan_step (examplePlatform "" 0) (Buf.lit "a") (fun _ => 0) initial =
      some { i := 0, buffer := uninit.set 0 (chr 'a'), buffer_pos := 0 + 1,
             total_written := 0, arg_index := 0, chunks := [] } := by
    unfold scan_step
    rw [if_neg (by decide), if_pos (by decide)]
    rfl
  ⟨h.1 _ _ ((((uninit.set 4000 (chr 'a')).text (4000 + 1)).length : Nat) : Int) hs0
      (by decide) (acceptAll_handle _) (acceptAll_write _ _) (Int.natCast_nonneg _)
      (by rw [Buf.length_text]; decide),
    h.2.1 initial _ hs (by decide),
    h.2.2.1 initial _ (h.2.1 initial _ hs (by decide))⟩
/-! ## Claims on the buffer and on partial writes -/

/-- One iteration of the loop from a state that buffers the text `t`, at list
level. -/
theorem loop_body_text (P : Platform) (H : Host) (format : Buf) (args : Int → Int) (base : Buf)
    (i : Int) (t : List Int) (tw ai : Int) (ch : List (List Int)) (ht : (t.length : Int) ≤ 4000) :
    loop_body P H format args (textState base i t tw ai ch) =
      match next_piece P format args i ai with
      | none => none
      | some (p, i1, ai1) =>
        if ((t ++ p).length : Int) ≤ 4096 then
          if ((t ++ p).length : Int) > 4000 then
            if (offer H ch (t ++ p)).1 < 0 then some (Sum.inl (-1, (offer H ch (t ++ p)).2))
            else some (Sum.inr (textState (base.write 0 (t ++ p)) i1 []
              (wrap32 (tw + (offer H ch (t ++ p)).1)) ai1 (offer H ch (t ++ p)).2))
          else some (Sum.inr (textState base i1 (t ++ p) tw ai1 ch))
        else none := by
  unfold loop_body
  rw [scan_step_text P format args base i t tw ai ch ht]
  cases hn : next_piece P format args i ai with
  | none => rfl
  | some r =>
    obtain ⟨p, i1, ai1⟩ := r
    simp only
    by_cases hcap : ((t ++ p).length : Int) ≤ 4096
    · rw [if_pos hcap, if_pos hcap]
      simp only
      have hbp : (textState base (i1 - 1) (t ++ p) tw ai1 ch).buffer_pos =
          ((t ++ p).length : Int) := rfl
      rw [hbp]
      by_cases hfl : ((t ++ p).length : Int) > 4000
      · rw [if_pos hfl, if_pos hfl, flush_text]
        by_cases hw : (offer H ch (t ++ p)).1 < 0
        · rw [if_pos hw, if_pos hw]
        · rw [if_neg hw, if_neg hw]
          simp only [textState, sub_add_cancel]
      · rw [if_neg hfl, if_neg hfl]
        simp only [textState, sub_add_cancel]
    · rw [if_neg hcap, if_neg hcap]

/-- While every piece to come has at most 96 bytes, every loop-head state
buffers a text of at most 4000 bytes and the rest of the format string
renders from it. -/
theorem loop_state_text (P : Platform) (H : Host) (format : Buf) (args : Int → Int)
    (pieces : List (List Int)) (hr : render P format args 2147483648 0 0 = some pieces)
    (hfit : ∀ p ∈ pieces, p.length ≤ 96) :
    ∀ (n : Nat) (s : PState), loop_state P H format args n = some s →
      ∃ base i t tw ai ch ps, s = textState base i t tw ai ch ∧ (t.length : Int) ≤ 4000 ∧
        n < 2147483648 ∧ render P format args (2147483648 - n) i ai = some ps ∧
        ∀ p ∈ ps, p.length ≤ 96 := by
  intro n
  induction n with
  | zero =>
    intro s h
    simp only [loop_state, Option.some.injEq] at h
    exact ⟨uninit, 0, [], 0, 0, [], pieces, by rw [← h, initial_eq], by simp, by decide, hr, hfit⟩
  | succ n ih =>
    intro s h
    rw [loop_state] at h
    cases hp : loop_state P H format args n with
    | none => rw [hp] at h; simp at h
    | some s0 =>
      rw [hp] at h
      simp only at h
      obtain ⟨base, i, t, tw, ai, ch, ps, hs0, ht, hn, hrn, hps⟩ := ih s0 hp
      subst hs0
      have hi : (textState base i t tw ai ch).i = i := rfl
      rw [hi] at h
      by_cases h0 : format i ≠ 0
      · rw [if_pos h0, loop_body_text P H format args base i t tw ai ch ht] at h
        obtain ⟨f, hf⟩ : ∃ f, 2147483648 - n = f + 1 := ⟨2147483648 - n - 1, by omega⟩
        rw [hf, render, if_pos h0] at hrn
        cases hnp : next_piece P format args i ai with
        | none => rw [hnp] at hrn; simp at hrn
        | some r =>
          obtain ⟨p, i1, ai1⟩ := r
          rw [hnp] at hrn h
          simp only at hrn h
          cases hr1 : render P format args f i1 ai1 with
          | none => rw [hr1] at hrn; simp at hrn
          | some ps1 =>
            rw [hr1] at hrn
            simp only [Option.map_some', Option.some.injEq] at hrn
            subst hrn
            have hf0 : f ≠ 0 := by
              intro hz
              rw [hz, render] at hr1
              simp at hr1
            have hf2 : 2147483648 - (n + 1) = f := by omega
            have hp1 : p.length ≤ 96 := hps p (by simp)
            have hcap : ((t ++ p).length : Int) ≤ 4096 := by
              simp only [List.length_append]
              push_cast
              omega
            rw [if_pos hcap] at h
            by_cases hfl : ((t ++ p).length : Int) > 4000
            · rw [if_pos hfl] at h
              by_cases hw : (offer H ch (t ++ p)).1 < 0
              · rw [if_pos hw] at h
                simp at h
              · rw [if_neg hw] at h
                simp only [Option.some.injEq] at h
                exact ⟨_, _, _, _, _, _, ps1, h.symm, by simp, by omega, by rw [hf2]; exact hr1,
                  fun q hq => hps q (by simp [hq])⟩
            · rw [if_neg hfl] at h
              simp only [Option.some.injEq] at h
              exact ⟨_, _, _, _, _, _, ps1, h.symm, by omega, by omega, by rw [hf2]; exact hr1,
                fun q hq => hps q (by simp [hq])⟩
      · rw [if_neg h0] at h
        simp at h

/-- C36: when the format string renders to pieces of at most 96 bytes each
(literal characters and padded fields), then with every console
`custom_printf` returns, so no write falls outside the 4096-byte buffer; at
every loop head the buffer position is between 0 and 4000, and the scanning
step from there returns with a buffer position of at most 4096. -/
theorem custom_printf_within_buffer (P : Platform) (H : Host) (format : Buf)
    (args : Int → Int) (pieces : List (List Int))
    (hr : render P format args 2147483648 0 0 = some pieces)
    (hfit : ∀ p ∈ pieces, p.length ≤ 96) :
    (∃ r, custom_printf P H (some format) args = some r) ∧
    (∀ (n : Nat) (s : PState), loop_state P H format args n = some s →
      0 ≤ s.buffer_pos ∧ s.buffer_pos ≤ 4000 ∧
      (format s.i ≠ 0 → ∃ s1, scan_step P format args s = some s1 ∧
        s.buffer_pos ≤ s1.buffer_pos ∧ s1.buffer_pos ≤ 4096)) := by
  constructor
  · obtain ⟨r, hrun⟩ := run_total P H format args 2147483648 0 [] 0 0 [] pieces (by simp) hr hfit
    exact ⟨r, by rw [custom_printf_eq_run]; exact hrun⟩
  · intro n s h
    obtain ⟨base, i, t, tw, ai, ch, ps, hs, ht, hn, hrn, hps⟩ :=
      loop_state_text P H format args pieces hr hfit n s h
    subst hs
    refine ⟨Int.natCast_nonneg _, ht, ?_⟩
    intro h0
    have hi : (textState base i t tw ai ch).i = i := rfl
    rw [hi] at h0
    obtain ⟨f, hf⟩ : ∃ f, 2147483648 - n = f + 1 := ⟨2147483648 - n - 1, by omega⟩
    rw [hf, render, if_pos h0] at hrn
    rw [scan_step_text P format args base i t tw ai ch ht]
    cases hnp : next_piece P format args i ai with
    | none => rw [hnp] at hrn; simp at hrn
    | some r =>
      obtain ⟨p, i1, ai1⟩ := r
      rw [hnp] at hrn
      simp only at hrn ⊢
      cases hr1 : render P format args f i1 ai1 with
      | none => rw [hr1] at hrn; simp at hrn
      | some ps1 =>
        rw [hr1] at hrn
        simp only [Option.map_some', Option.some.injEq] at hrn
        subst hrn
        have hp1 : p.length ≤ 96 := hps p (by simp)
        have hcap : ((t ++ p).length : Int) ≤ 4096 := by
          simp only [List.length_append]
          push_cast
          omega
        rw [if_pos hcap]
        refine ⟨_, rfl, ?_, hcap⟩
        show (t.length : Int) ≤ ((t ++ p).length : Int)
        simp only [List.length_append]
        push_cast
        omega

theorem custom_printf_within_buffer_witness :
    (∃ r, custom_printf (examplePlatform "" 0) acceptAll (some (Buf.lit "a%%b")) (fun _ => 0) =
      some r) ∧
    (∀ (n : Nat) (s : PState),
      loop_state (examplePlatform "" 0) acceptAll (Buf.lit "a%%b") (fun _ => 0) n = some s →
      0 ≤ s.buffer_pos ∧ s.buffer_pos ≤ 4000 ∧
      ((Buf.lit "a%%b") s.i ≠ 0 → ∃ s1,
        scan_step (examplePlatform "" 0) (Buf.lit "a%%b") (fun _ => 0) s = some s1 ∧
        s.buffer_pos ≤ s1.buffer_pos ∧ s1.buffer_pos ≤ 4096)) :=
  custom_printf_within_buffer (examplePlatform "" 0) acceptAll (Buf.lit "a%%b") (fun _ => 0)
    [bytes "a", bytes "%", bytes "b"] (by decide) (by decide)
/-- C35 fails on `%5` and on `%.`: the terminating NUL of these format
strings is at index 2, and after the first iteration of the loop the scanning
index is 3.  The loop then reads `format[3]`: two buffers that hold the same
string `%5` with its NUL and differ only at index 3 give different outputs,
5 bytes for one and 6 bytes, the last one being the byte at index 3, for the
other. -/
theorem custom_printf_reads_past_end :
    (Buf.lit "%5") 2 = 0 ∧ (Buf.lit "%.") 2 = 0 ∧
    (loop_state (examplePlatform "" 0) acceptAll (Buf.lit "%5") (fun _ => 0) 1).map
      (fun s => s.i) = some 3 ∧
    (loop_state (examplePlatform "" 0) acceptAll (Buf.lit "%.") (fun _ => 0) 1).map
      (fun s => s.i) = some 3 ∧
    (∀ j, j ≠ 3 → ((Buf.lit "%5").set 3 (chr 'X')) j = (Buf.lit "%5") j) ∧
    custom_printf (examplePlatform "" 0) acceptAll (some (Buf.lit "%5")) (fun _ => 0) =
      some (5, [bytes "   %" ++ [0]]) ∧
    custom_printf (examplePlatform "" 0) acceptAll (some ((Buf.lit "%5").set 3 (chr 'X')))
        (fun _ => 0) =
      some (6, [bytes "   %" ++ [0] ++ bytes "X"]) := by
  refine ⟨by decide, by decide, by decide, by decide, ?_, ?_, ?_⟩
  · intro j hj
    exact Buf.set_other _ _ _ _ hj
  · rw [custom_printf_eq_run]
    decide
  · rw [custom_printf_eq_run]
    decide

theorem sinkCounts_append (H : Host) (b : List (List Int)) :
    ∀ (ch : List (List Int)) (rest : List (List Int)),
      sinkCounts H ch (b ++ rest) = sinkCounts H ch b ++ sinkCounts H (ch ++ b) rest := by
  induction b with
  | nil =>
    intro ch rest
    simp [sinkCounts]
  | cons c cs ih =>
    intro ch rest
    have e : ch ++ c :: cs = ch ++ [c] ++ cs := by simp
    rw [List.cons_append, sinkCounts, sinkCounts, ih, e]
    rfl

theorem sinkCounts_le (H : Host) (hH : Honest H) (new : List (List Int)) :
    ∀ ch : List (List Int), (sinkCounts H ch new).sum ≤ (new.flatten.length : Int) := by
  induction new with
  | nil =>
    intro ch
    simp [sinkCounts]
  | cons c cs ih =>
    intro ch
    simp only [sinkCounts, List.sum_cons, List.flatten_cons, List.length_append, Nat.cast_add]
    have := hH ch c
    have := ih (ch ++ [c])
    omega

theorem sinkCounts_lt (H : Host) (hH : Honest H) (ch before after : List (List Int))
    (c : List Int) (hc : (H.WriteConsoleA (ch ++ before) c).2 < (c.length : Int)) :
    (sinkCounts H ch (before ++ c :: after)).sum <
      ((before ++ c :: after).flatten.length : Int) := by
  rw [sinkCounts_append, List.sum_append, sinkCounts, List.sum_cons]
  simp only [List.flatten_append, List.flatten_cons, List.length_append, Nat.cast_add]
  have h1 := sinkCounts_le H hH before ch
  have h2 := sinkCounts_le H hH after (ch ++ before ++ [c])
  omega

/-- With a console whose every write succeeds, the chunks offered are, in
order, the text the format string renders to, whatever the counts. -/
theorem run_chunks (P : Platform) (H : Host) (hH : Succeeds H) (format : Buf)
    (args : Int → Int) (fuel : Nat) :
    ∀ (i : Int) (t : List Int) (tw ai : Int) (ch : List (List Int)) (ret : Int)
    (chunks : List (List Int)), (t.length : Int) ≤ 4096 →
    run P H format args fuel i t tw ai ch = some (ret, chunks) →
    ∃ pieces, render P format args fuel i ai = some pieces ∧
      chunks.flatten = ch.flatten ++ (t ++ pieces.flatten) := by
  induction fuel with
  | zero =>
    intro i t tw ai ch ret chunks _ h
    simp [run] at h
  | succ fuel ih =>
    intro i t tw ai ch ret chunks ht h
    rw [run] at h
    rw [render]
    by_cases h0 : format i ≠ 0
    · rw [if_pos h0] at h
      rw [if_pos h0]
      cases hn : next_piece P format args i ai with
      | none => rw [hn] at h; simp at h
      | some r =>
        obtain ⟨p, i1, ai1⟩ := r
        rw [hn] at h
        simp only at h ⊢
        by_cases hcap : ((t ++ p).length : Int) ≤ 4096
        · rw [if_pos hcap] at h
          by_cases hfl : ((t ++ p).length : Int) > 4000
          · rw [if_pos hfl, offer_succeeds H hH _ _ hcap] at h
            have hc := (hH ch (t ++ p) hcap).2.2
            simp only at h
            rw [if_neg (by omega)] at h
            obtain ⟨pieces, hr, hj⟩ := ih _ _ _ _ _ _ _ (by simp) h
            refine ⟨p :: pieces, by rw [hr]; rfl, ?_⟩
            rw [hj]
            simp
          · rw [if_neg hfl] at h
            obtain ⟨pieces, hr, hj⟩ := ih _ _ _ _ _ _ _ (by omega) h
            refine ⟨p :: pieces, by rw [hr]; rfl, ?_⟩
            rw [hj]
            simp
        · rw [if_neg hcap] at h
          simp at h
    · rw [if_neg h0] at h
      rw [if_neg h0]
      refine ⟨[], rfl, ?_⟩
      by_cases hpos : (t.length : Int) > 0
      · rw [if_pos hpos, offer_succeeds H hH _ _ ht] at h
        have hc := (hH ch t ht).2.2
        simp only at h
        rw [if_neg (by omega)] at h
        simp only [Option.some.injEq, Prod.mk.injEq] at h
        rw [← h.2]
        simp
      · rw [if_neg hpos] at h
        simp only [Option.some.injEq, Prod.mk.injEq] at h
        have ht0 : t = [] := by
          cases t with
          | nil => rfl
          | cons a l =>
            exfalso
            apply hpos
            simp only [List.length_cons]
            push_cast
            omega
        subst ht0
        rw [← h.2]
        simp

theorem wrap32_le (x : Int) : wrap32 x ≤ INT_MAX := by
  unfold wrap32 INT_MAX
  omega

/-- The value returned by the loop is at most `INT_MAX`. -/
theorem run_le (P : Platform) (H : Host) (format : Buf) (args : Int → Int) (fuel : Nat) :
    ∀ (i : Int) (t : List Int) (tw ai : Int) (ch : List (List Int)) (ret : Int)
    (chunks : List (List Int)), tw ≤ INT_MAX →
    run P H format args fuel i t tw ai ch = some (ret, chunks) → ret ≤ INT_MAX := by
  induction fuel with
  | zero =>
    intro i t tw ai ch ret chunks _ h
    simp [run] at h
  | succ fuel ih =>
    intro i t tw ai ch ret chunks htw h
    rw [run] at h
    by_cases h0 : format i ≠ 0
    · rw [if_pos h0] at h
      cases hn : next_piece P format args i ai with
      | none => rw [hn] at h; simp at h
      | some r =>
        obtain ⟨p, i1, ai1⟩ := r
        rw [hn] at h
        simp only at h
        by_cases hcap : ((t ++ p).length : Int) ≤ 4096
        · rw [if_pos hcap] at h
          by_cases hfl : ((t ++ p).length : Int) > 4000
          · rw [if_pos hfl] at h
            by_cases hw : (offer H ch (t ++ p)).1 < 0
            · rw [if_pos hw] at h
              simp only [Option.some.injEq, Prod.mk.injEq] at h
              rw [← h.1]
              decide
            · rw [if_neg hw] at h
              exact ih _ _ _ _ _ _ _ (wrap32_le _) h
          · rw [if_neg hfl] at h
            exact ih _ _ _ _ _ _ _ htw h
        · rw [if_neg hcap] at h
          simp at h
    · rw [if_neg h0] at h
      by_cases hpos : (t.length : Int) > 0
      · rw [if_pos hpos] at h
        by_cases hw : (offer H ch t).1 < 0
        · rw [if_pos hw] at h
          simp only [Option.some.injEq, Prod.mk.injEq] at h
          rw [← h.1]
          decide
        · rw [if_neg hw] at h
          simp only [Option.some.injEq, Prod.mk.injEq] at h
          rw [← h.1]
          exact wrap32_le _
      · rw [if_neg hpos] at h
        simp only [Option.some.injEq, Prod.mk.injEq] at h
        rw [← h.1]
        exact htw

theorem succeeds_acceptUpTo (k : Nat) : Succeeds (acceptUpTo k) := by
  intro ch t ht
  have hw : (acceptUpTo k).WriteConsoleA ch t = (true, ((min k t.length : Nat) : Int)) := rfl
  refine ⟨by show ¬ ((1 : Int) = -1); decide, by rw [hw], ?_, ?_⟩
  · rw [hw]
    exact Int.natCast_nonneg _
  · rw [hw]
    unfold INT_MAX
    show ((min k t.length : Nat) : Int) ≤ 2147483647
    omega

theorem honest_acceptUpTo (k : Nat) : Honest (acceptUpTo k) := by
  intro ch t
  show ((min k t.length : Nat) : Int) ≤ (t.length : Int)
  omega

/-- C37: a partial write is not retried.  When on a flush the console
accepts `w` bytes with `0 ≤ w` and `w` below the number of bytes buffered,
the flush adds `w` to the total, offers the buffered bytes as one chunk and
resets the buffer position to 0, and the loop goes on with the empty buffer.
With a console whose every write succeeds and that never reports more than
it was offered, the chunks offered are, each byte once and in order, the
rendered text; the returned value is at most the length of the rendered
text, strictly smaller when some chunk was accepted in part, and it is the
sum of the counts when the rendered text has at most `INT_MAX` bytes. -/
theorem custom_printf_partial_write (P : Platform) (H : Host) (format : Buf)
    (args : Int → Int) :
    (∀ (s : PState) (w : Int), H.GetStdHandle s.chunks ≠ -1 →
      H.WriteConsoleA s.chunks (s.buffer.text s.buffer_pos) = (true, w) →
      0 ≤ w → w < s.buffer_pos → s.buffer_pos ≤ 4096 →
      flush H s = Sum.inr { i := s.i, buffer := s.buffer, buffer_pos := 0,
                            total_written := wrap32 (s.total_written + w),
                            arg_index := s.arg_index,
                            chunks := s.chunks ++ [s.buffer.text s.buffer_pos] }) ∧
    (Succeeds H → Honest H → ∀ (ret : Int) (chunks pieces : List (List Int)),
      custom_printf P H (some format) args = some (ret, chunks) →
      render P format args 2147483648 0 0 = some pieces →
      chunks.flatten = pieces.flatten ∧
      ((pieces.flatten.length : Int) ≤ INT_MAX → ret = (sinkCounts H [] chunks).sum) ∧
      ret ≤ (pieces.flatten.length : Int) ∧
      ((∃ before c after, chunks = before ++ c :: after ∧
          (H.WriteConsoleA before c).2 < (c.length : Int)) →
        ret < (pieces.flatten.length : Int))) := by
  constructor
  · intro s w hh hw h0 h1 h2
    exact flush_succeeds H s w hh hw h0 (by unfold INT_MAX; omega)
  · intro hS hH ret chunks pieces h hr
    rw [custom_printf_eq_run] at h
    obtain ⟨ps, hps, hj⟩ := run_chunks P H hS format args _ _ _ _ _ _ _ _ (by simp) h
    rw [hr] at hps
    have hps2 := Option.some.inj hps
    rw [← hps2] at hj
    have hflat : chunks.flatten = pieces.flatten := by simpa using hj
    obtain ⟨new, hnew, -, hret⟩ := run_succeeds P H hS format args _ _ _ _ _ _ _ _ (by simp) h
    rw [List.nil_append] at hnew
    rw [← hnew] at hret
    have hle := sinkCounts_le H hH chunks []
    rw [hflat] at hle
    have hmaxret := run_le P H format args _ _ _ _ _ _ _ _ (by decide) h
    have hsum : (pieces.flatten.length : Int) ≤ INT_MAX → ret = (sinkCounts H [] chunks).sum := by
      intro hmax
      have := hret (le_refl 0) (by omega)
      rwa [zero_add] at this
    refine ⟨hflat, hsum, ?_, ?_⟩
    · by_cases hmax : (pieces.flatten.length : Int) ≤ INT_MAX
      · rw [hsum hmax]
        exact hle
      · omega
    · rintro ⟨before, c, after, hs, hc⟩
      have hlt := sinkCounts_lt H hH [] before after c (by simpa using hc)
      rw [← hs, hflat] at hlt
      by_cases hmax : (pieces.flatten.length : Int) ≤ INT_MAX
      · rw [hsum hmax]
        exact hlt
      · omega

theorem custom_printf_partial_write_witness :
    custom_printf (examplePlatform "" 0) (acceptUpTo 3) (some (Buf.lit "hello")) (fun _ => 0) =
      some (3, [bytes "hello"]) ∧
    [bytes "hello"].flatten = [bytes "h", bytes "e", bytes "l", bytes "l", bytes "o"].flatten ∧
    (3 : Int) ≤ (([bytes "h", bytes "e", bytes "l", bytes "l", bytes "o"].flatten.length : Nat)
      : Int) ∧
    (3 : Int) < (([bytes "h", bytes "e", bytes "l", bytes "l", bytes "o"].flatten.length : Nat)
      : Int) :=
  have hcp : custom_printf (examplePlatform "" 0) (acceptUpTo 3) (some (Buf.lit "hello"))
      (fun _ => 0) = some (3, [bytes "hello"]) := by
    rw [custom_printf_eq_run]
    decide
  have h := (custom_printf_partial_write (examplePlatform "" 0) (acceptUpTo 3)
    (Buf.lit "hello") (fun _ => 0)).2 (succeeds_acceptUpTo 3) (honest_acceptUpTo 3) 3
    [bytes "hello"] [bytes "h", bytes "e", bytes "l", bytes "l", bytes "o"] hcp (by decide)
  ⟨hcp, h.1, h.2.2.1, h.2.2.2 ⟨[], bytes "hello", [], rfl, by decide⟩⟩

end Printf

/-! # Lemmas and theorems on the logic gates -/

namespace LogicGates

theorem set_append_length {α : Type} (pre : List α) (r v : α) (rest : List α) :
    (pre ++ r :: rest).set pre.length v = pre ++ v :: rest := by
  induction pre with
  | nil => rfl
  | cons a l ih => simp [List.set, ih]

theorem getD_append_length {α : Type} (pre : List α) (r d : α) (rest : List α) :
    (pre ++ r :: rest).getD pre.length d = r := by
  induction pre with
  | nil => rfl
  | cons a l ih => simpa using ih

theorem shift_and_one (i k : Nat) : (((i >>> k) &&& 1 : Nat) : Int) = bitOf i k := by
  unfold bitOf
  rw [Nat.and_one_is_mod, Nat.shiftRight_eq_div_pow]

theorem set_append_at {α : Type} (pre : List α) (r v : α) (rest : List α) (j : Nat)
    (hj : pre.length = j) : (pre ++ r :: rest).set j v = pre ++ v :: rest := by
  subst hj
  exact set_append_length pre r v rest

theorem getD_append_at {α : Type} (pre : List α) (r d : α) (rest : List α) (j : Nat)
    (hj : pre.length = j) : (pre ++ r :: rest).getD j d = r := by
  subst hj
  exact getD_append_length pre r d rest

/-- The inner loop fills the rest of row `i` with the bits of `i`. -/
theorem inner_loop_spec (n i : Nat) (before after : List (List Int)) (hi : before.length = i) :
    ∀ (k j : Nat) (rest : List Int), j + k = n → rest.length = k →
      inner_loop n i k j
          (before ++ ((List.range j).map (fun j => bitOf i (n - j - 1)) ++ rest) :: after) =
        before ++ bitRow n i :: after := by
  intro k
  induction k with
  | zero =>
    intro j rest hj hr
    have : rest = [] := List.length_eq_zero.mp hr
    subst this
    have : j = n := by omega
    subst this
    simp [inner_loop, bitRow]
  | succ k ih =>
    intro j rest hj hr
    obtain ⟨r, rest1, rfl⟩ : ∃ r rest1, rest = r :: rest1 := by
      cases rest with
      | nil => simp at hr
      | cons r rest1 => exact ⟨r, rest1, rfl⟩
    rw [inner_loop, getD_append_at _ _ _ _ i hi, set_append_at _ _ _ _ i hi,
      set_append_at _ _ _ _ j (by simp), shift_and_one]
    have e : (List.range j).map (fun j => bitOf i (n - j - 1)) ++ bitOf i (n - j - 1) :: rest1 =
        (List.range (j + 1)).map (fun j => bitOf i (n - j - 1)) ++ rest1 := by
      rw [List.range_succ, List.map_append]
      simp
    rw [e]
    exact ih (j + 1) rest1 (by omega) (by simpa using hr)

/-- The outer loop fills the rows from `i` on. -/
theorem outer_loop_spec (n : Nat) :
    ∀ (k i : Nat) (rest : List (List Int)), rest.length = k →
      (∀ r ∈ rest, r.length = n) →
      outer_loop n k i ((List.range i).map (bitRow n) ++ rest) =
        (List.range (i + k)).map (bitRow n) := by
  intro k
  induction k with
  | zero =>
    intro i rest hr _
    have : rest = [] := List.length_eq_zero.mp hr
    subst this
    simp [outer_loop]
  | succ k ih =>
    intro i rest hr hn
    obtain ⟨r, rest1, rfl⟩ : ∃ r rest1, rest = r :: rest1 := by
      cases rest with
      | nil => simp at hr
      | cons r rest1 => exact ⟨r, rest1, rfl⟩
    rw [outer_loop]
    have h := inner_loop_spec n i ((List.range i).map (bitRow n)) rest1 (by simp) n 0 r
      (by omega) (hn r (by simp))
    simp only [List.range_zero, List.map_nil, List.nil_append] at h
    rw [h]
    have e : (List.range i).map (bitRow n) ++ bitRow n i :: rest1 =
        (List.range (i + 1)).map (bitRow n) ++ rest1 := by
      rw [List.range_succ, List.map_append]
      simp
    rw [e, ih (i + 1) rest1 (by simpa using hr) (fun q hq => hn q (by simp [hq]))]
    congr 2
    omega

/-- The table computed by `generateCombinations`: row `i` holds the bits of
`i`. -/
theorem generateCombinations_eq (n : Nat) (h : n ≤ 30) :
    generateCombinations (n : Int) = some ((List.range (2 ^ n)).map (bitRow n)) := by
  unfold generateCombinations
  rw [if_pos (by omega)]
  simp only [Int.toNat_ofNat]
  have := outer_loop_spec n (2 ^ n) 0 (List.replicate (2 ^ n) (List.replicate n 0)) (by simp)
    (by
      intro r hr
      rw [List.eq_of_mem_replicate hr]
      simp)
  simp only [List.range_zero, List.map_nil, List.nil_append, zero_add] at this
  rw [this]

theorem bitOf_cases (i k : Nat) : bitOf i k = 0 ∨ bitOf i k = 1 := by
  unfold bitOf
  have : i / 2 ^ k % 2 < 2 := Nat.mod_lt _ (by decide)
  omega

theorem bitRow_succ (n i : Nat) : bitRow (n + 1) i = bitOf i n :: bitRow n i := by
  unfold bitRow
  rw [List.range_succ_eq_map, List.map_cons, List.map_map]
  congr 1
  apply List.map_congr_left
  intro j _
  simp only [Function.comp]
  congr 1
  omega

theorem length_bitRow (n i : Nat) : (bitRow n i).length = n := by
  simp [bitRow]

theorem foldl_bitRow (n : Nat) : ∀ (i : Nat) (a : Int),
    (bitRow n i).foldl (fun a b => 2 * a + b) a = a * 2 ^ n + ((i % 2 ^ n : Nat) : Int) := by
  induction n with
  | zero =>
    intro i a
    simp [bitRow, Nat.mod_one]
  | succ n ih =>
    intro i a
    rw [bitRow_succ, List.foldl_cons, ih]
    unfold bitOf
    have h := @Nat.mod_pow_succ i 2 n
    rw [h]
    push_cast
    ring

/-- The row of `i` denotes `i` in binary. -/
theorem binaryValue_bitRow (n i : Nat) (h : i < 2 ^ n) : binaryValue (bitRow n i) = (i : Int) := by
  unfold binaryValue
  rw [foldl_bitRow, Nat.mod_eq_of_lt h]
  simp

theorem bitOf_add_mul (n c i k : Nat) (hk : k < n) : bitOf (c * 2 ^ n + i) k = bitOf i k := by
  unfold bitOf
  have e : c * 2 ^ n = (c * 2 ^ (n - k - 1) * 2) * 2 ^ k := by
    have : 2 ^ n = 2 ^ (n - k - 1) * 2 * 2 ^ k := by
      rw [← pow_succ, ← pow_add]
      congr 1
      omega
    rw [this]
    ring
  rw [e, Nat.add_comm, Nat.add_mul_div_right _ _ (by positivity : 0 < 2 ^ k), Nat.add_mul_mod_self_right]

theorem bitRow_add_mul (n c i : Nat) : bitRow n (c * 2 ^ n + i) = bitRow n i := by
  unfold bitRow
  apply List.map_congr_left
  intro j hj
  rw [List.mem_range] at hj
  exact bitOf_add_mul n c i (n - j - 1) (by omega)

/-- Every row of 0/1 entries is the row of a number below `2^length`. -/
theorem exists_bitRow (x : List Int) (hx : ∀ e ∈ x, e = 0 ∨ e = 1) :
    ∃ v, v < 2 ^ x.length ∧ bitRow x.length v = x := by
  induction x with
  | nil => exact ⟨0, by simp, rfl⟩
  | cons b xs ih =>
    obtain ⟨v, hv, hrow⟩ := ih (fun e he => hx e (by simp [he]))
    have hb := hx b (by simp)
    refine ⟨b.toNat * 2 ^ xs.length + v, ?_, ?_⟩
    · rw [List.length_cons, pow_succ]
      have : b.toNat ≤ 1 := by omega
      nlinarith [Nat.mul_le_mul_right (2 ^ xs.length) this]
    · rw [List.length_cons, bitRow_succ, bitRow_add_mul, hrow]
      congr 1
      unfold bitOf
      rw [Nat.add_comm, Nat.add_mul_div_right _ _ (by positivity : 0 < 2 ^ xs.length),
        Nat.div_eq_of_lt hv, zero_add]
      rcases hb with rfl | rfl <;> rfl

theorem getD_table (n i : Nat) (h : i < 2 ^ n) :
    ((List.range (2 ^ n)).map (bitRow n)).getD i [] = bitRow n i := by
  rw [List.getD_eq_getElem?_getD, List.getElem?_map, List.getElem?_range h]
  rfl

theorem getD_bitRow (n i j : Nat) (h : j < n) : (bitRow n i).getD j 0 = bitOf i (n - j - 1) := by
  unfold bitRow
  rw [List.getD_eq_getElem?_getD, List.getElem?_map, List.getElem?_range h]
  rfl

/-- C29: for `1 ≤ n ≤ 16`, `generateCombinations(n)` returns a table of
`2^n` rows; row `i` has `n` entries, entry `j` is bit `n - j - 1` of `i`,
and the row denotes `i` in binary, so the rows are in ascending binary
order; every entry is 0 or 1, the rows are pairwise distinct, and every row
of `n` entries 0 or 1 occurs at exactly one index. -/
theorem generateCombinations_table (n : Nat) (h1 : 1 ≤ n) (h16 : n ≤ 16) :
    ∃ rows, generateCombinations (n : Int) = some rows ∧ rows.length = 2 ^ n ∧
      (∀ i, i < 2 ^ n → (rows.getD i []).length = n ∧
        (∀ j, j < n → (rows.getD i []).getD j 0 = bitOf i (n - j - 1)) ∧
        binaryValue (rows.getD i []) = (i : Int)) ∧
      (∀ row ∈ rows, ∀ e ∈ row, e = 0 ∨ e = 1) ∧
      rows.Nodup ∧
      (∀ x : List Int, x.length = n → (∀ e ∈ x, e = 0 ∨ e = 1) →
        ∃! i, i < 2 ^ n ∧ rows.getD i [] = x) := by
  have hnodup : ((List.range (2 ^ n)).map (bitRow n)).Nodup := by
    apply List.Nodup.map_on _ (List.nodup_range _)
    intro a ha b hb hab
    rw [List.mem_range] at ha hb
    have h2 := binaryValue_bitRow n a ha
    rw [hab, binaryValue_bitRow n b hb] at h2
    exact_mod_cast h2.symm
  refine ⟨_, generateCombinations_eq n (by omega), by simp, ?_, ?_, hnodup, ?_⟩
  · intro i hi
    rw [getD_table n i hi]
    exact ⟨length_bitRow n i, fun j hj => getD_bitRow n i j hj, binaryValue_bitRow n i hi⟩
  · intro row hrow e he
    simp only [List.mem_map, List.mem_range] at hrow
    obtain ⟨i, -, rfl⟩ := hrow
    simp only [bitRow, List.mem_map] at he
    obtain ⟨j, -, rfl⟩ := he
    exact bitOf_cases _ _
  · intro x hlen hx
    obtain ⟨v, hv, hrow⟩ := exists_bitRow x hx
    rw [hlen] at hv hrow
    refine ⟨v, ⟨hv, by rw [getD_table n v hv, hrow]⟩, ?_⟩
    intro i hi
    obtain ⟨hi1, hi2⟩ := hi
    rw [getD_table n i hi1, ← hrow] at hi2
    have h2 := binaryValue_bitRow n i hi1
    rw [hi2, binaryValue_bitRow n v hv] at h2
    exact_mod_cast h2.symm

theorem generateCombinations_table_witness :
    ∃ rows, generateCombinations ((2 : Nat) : Int) = some rows ∧ rows.length = 2 ^ 2 ∧
      (∀ i, i < 2 ^ 2 → (rows.getD i []).length = 2 ∧
        (∀ j, j < 2 → (rows.getD i []).getD j 0 = bitOf i (2 - j - 1)) ∧
        binaryValue (rows.getD i []) = (i : Int)) ∧
      (∀ row ∈ rows, ∀ e ∈ row, e = 0 ∨ e = 1) ∧
      rows.Nodup ∧
      (∀ x : List Int, x.length = 2 → (∀ e ∈ x, e = 0 ∨ e = 1) →
        ∃! i, i < 2 ^ 2 ∧ rows.getD i [] = x) :=
  generateCombinations_table 2 (by decide) (by decide)

/-- The table for two inputs, as the source computes it. -/
theorem generateCombinations_two :
    generateCombinations 2 = some [[0, 0], [0, 1], [1, 0], [1, 1]] := by
  decide

theorem lnot_eq_notGate (x : Int) : lnot x = notGate x := rfl

theorem xor_bit (r x : Int) (hr : r = 0 ∨ r = 1) (hx : x = 0 ∨ x = 1) :
    Int.xor r x = (r + x) % 2 := by
  rcases hr with rfl | rfl <;> rcases hx with rfl | rfl <;> rfl

/-- On 0/1 inputs the loop of `xorGate` adds the number of 1s modulo 2. -/
theorem xor_loop_parity (inputs : List Int) (hx : ∀ e ∈ inputs, e = 0 ∨ e = 1) :
    ∀ result : Int, (result = 0 ∨ result = 1) →
      xor_loop inputs result = (result + (inputs.count 1 : Nat)) % 2 := by
  induction inputs with
  | nil =>
    intro result hr
    rcases hr with rfl | rfl <;> rfl
  | cons x xs ih =>
    intro result hr
    have hx0 := hx x (by simp)
    have hmod : (result + x) % 2 = 0 ∨ (result + x) % 2 = 1 := by omega
    rw [xor_loop, xor_bit result x hr hx0, ih (fun e he => hx e (by simp [he])) _ hmod]
    rcases hx0 with rfl | rfl
    · rw [List.count_cons_of_ne (by decide)]
      omega
    · rw [List.count_cons_self]
      push_cast
      omega

/-- C30: the complex gates are the negations of the basic gates.  For every
vector of inputs `nandGate` is `notGate` of `andGate` and `norGate` is
`notGate` of `orGate`; for every non-empty vector of 0/1 inputs `xorGate`
returns, `xnorGate` is `notGate` of its result, and that result is 1 when
the number of 1s among the inputs is odd and 0 when it is even. -/
theorem complex_gates (inputs : List Int) (hne : inputs ≠ [])
    (hx : ∀ e ∈ inputs, e = 0 ∨ e = 1) :
    nandGate inputs = notGate (andGate inputs) ∧
    norGate inputs = notGate (orGate inputs) ∧
    ∃ r, xorGate inputs = some r ∧ xnorGate inputs = some (notGate r) ∧
      (r = 1 ↔ Odd (inputs.count 1)) ∧ (r = 0 ↔ Even (inputs.count 1)) := by
  refine ⟨rfl, rfl, ?_⟩
  cases inputs with
  | nil => exact absurd rfl hne
  | cons x xs =>
    have hx0 := hx x (by simp)
    have hp := xor_loop_parity xs (fun e he => hx e (by simp [he])) x hx0
    refine ⟨xor_loop xs x, rfl, rfl, ?_, ?_⟩
    · rw [hp, Nat.odd_iff]
      rcases hx0 with rfl | rfl
      · rw [List.count_cons_of_ne (by decide)]
        omega
      · rw [List.count_cons_self]
        omega
    · rw [hp, Nat.even_iff]
      rcases hx0 with rfl | rfl
      · rw [List.count_cons_of_ne (by decide)]
        omega
      · rw [List.count_cons_self]
        omega

theorem complex_gates_witness :
    nandGate [1, 0, 1] = notGate (andGate [1, 0, 1]) ∧
    norGate [1, 0, 1] = notGate (orGate [1, 0, 1]) ∧
    ∃ r, xorGate [1, 0, 1] = some r ∧ xnorGate [1, 0, 1] = some (notGate r) ∧
      (r = 1 ↔ Odd (([1, 0, 1] : List Int).count 1)) ∧
      (r = 0 ↔ Even (([1, 0, 1] : List Int).count 1)) :=
  complex_gates [1, 0, 1] (by decide) (by decide)

end LogicGates
